import Mathlib

/-! # Encrypted-ERC circuits: a shallow embedding

The Go sources under `zk/pkg` build arithmetic circuits with gnark.  A circuit
definition is a straight-line program that computes field elements and curve
points and, on the way, records assertions; a witness satisfies the circuit
when every recorded assertion holds.

The embedding keeps that shape.  A circuit-building function is a value of
`Circuit α`: either a Go run-time panic (`none`) or a result together with the
assertions it recorded, in order.  The gnark curve gadget
(`twistededwards.Curve`) is an external library: it is a parameter of the
development, and the algebraic contract the wrapper relies on is stated
explicitly (`twistededwards.Curve.Lawful`).
-/

/-! ## The scalar field and the constraint system (`frontend`) -/

namespace frontend

/-- The modulus of the BN254 scalar field, `ecc.BN254.ScalarField()`. -/
def modulus : Nat :=
  21888242871839275222246405745257275088548364400416034343698204186575808495617

/-- A `frontend.Variable`: an element of the scalar field the circuit is compiled over. -/
abbrev Variable : Type := ZMod modulus

instance : NeZero modulus := ⟨by unfold modulus; omega⟩

end frontend

/-- Short name for the field of circuit variables. -/
abbrev Fr : Type := frontend.Variable

namespace twistededwards

/-- A gnark `twistededwards.Point`: two circuit variables. -/
structure Point where
  X : Fr
  Y : Fr
deriving DecidableEq

/-- The gnark `CurveParams` fields the wrapper overwrites (`*big.Int` values). -/
structure CurveParams where
  A : Nat
  D : Nat
  Base : Nat × Nat

/-- The gnark `twistededwards.Curve` gadget, as far as the wrapper uses it.  The
operations read the parameter record, which `NewBjWrapper` overwrites after
construction. -/
structure Curve where
  Params : CurveParams
  add : CurveParams → Point → Point → Point
  neg : CurveParams → Point → Point
  scalarMul : CurveParams → Point → Fr → Point
  isOnCurve : CurveParams → Point → Bool

/-- `curve.Add(p1, p2)`. -/
def Curve.Add (c : Curve) (p1 p2 : Point) : Point := c.add c.Params p1 p2

/-- `curve.Neg(p1)`. -/
def Curve.Neg (c : Curve) (p1 : Point) : Point := c.neg c.Params p1

/-- `curve.ScalarMul(p1, scalar)`. -/
def Curve.ScalarMul (c : Curve) (p1 : Point) (scalar : Fr) : Point :=
  c.scalarMul c.Params p1 scalar

/-- The condition `curve.AssertIsOnCurve(p1)` imposes. -/
def Curve.IsOnCurve (c : Curve) (p1 : Point) : Prop := c.isOnCurve c.Params p1 = true

instance (c : Curve) (p1 : Point) : Decidable (c.IsOnCurve p1) := by
  unfold Curve.IsOnCurve; infer_instance

/-- The contract of the curve gadget: the points accepted by `AssertIsOnCurve`
form a commutative group under `Add` and `Neg`, and `ScalarMul` multiplies by
the canonical integer of the scalar. -/
def Curve.Lawful (c : Curve) : Prop :=
  ∃ (G : Type) (_ : AddCommGroup G) (φ : G → Point),
    Function.Injective φ ∧
    (∀ P, c.IsOnCurve P ↔ ∃ a, φ a = P) ∧
    (∀ a b, c.Add (φ a) (φ b) = φ (a + b)) ∧
    (∀ a, c.Neg (φ a) = φ (-a)) ∧
    (∀ a (s : Fr), c.ScalarMul (φ a) s = φ (s.val • a))

/-- The point `P` has order at least `l`: no scalar `s` with `0 < s < l` sends
it to the point that the scalar `0` does. -/
def Curve.OrderAtLeast (c : Curve) (P : Point) (l : Nat) : Prop :=
  ∀ s : Fr, s ≠ 0 → s.val < l → c.ScalarMul P s ≠ c.ScalarMul P 0

end twistededwards

open twistededwards

/-- An assertion recorded by the constraint system. -/
inductive Constraint where
  | AssertIsEqual (i1 i2 : Fr)
  | AssertIsLessOrEqual (v bound : Fr)
  | AssertIsOnCurve (p1 : Point)
deriving DecidableEq

/-- What an assertion demands of the witness.  `AssertIsLessOrEqual` compares
the canonical integers of the two field elements. -/
def Constraint.Holds (c : Curve) : Constraint → Prop
  | .AssertIsEqual i1 i2 => i1 = i2
  | .AssertIsLessOrEqual v bound => v.val ≤ bound.val
  | .AssertIsOnCurve p1 => c.IsOnCurve p1

instance (c : Curve) (k : Constraint) : Decidable (k.Holds c) := by
  cases k <;> unfold Constraint.Holds <;> infer_instance

/-- A circuit-building computation: `none` is a Go run-time panic, `some (a, cs)`
is the result `a` with the assertions `cs` recorded on the way, in order. -/
def Circuit (α : Type) : Type := Option (α × List Constraint)

/-- Sequencing: the assertions of the second step follow those of the first. -/
def Circuit.bind {α β : Type} (x : Circuit α) (f : α → Circuit β) : Circuit β :=
  match x with
  | none => none
  | some (a, cs) =>
    match f a with
    | none => none
    | some (b, ds) => some (b, cs ++ ds)

instance : Monad Circuit where
  pure a := some (a, [])
  bind := Circuit.bind

/-- The assertions a computation recorded (none if it panicked). -/
def Circuit.constraints {α : Type} : Circuit α → List Constraint
  | none => []
  | some (_, cs) => cs

/-- The value a computation returned, if it did not panic. -/
def Circuit.result {α : Type} : Circuit α → Option α
  | none => none
  | some (a, _) => some a

/-- The witness satisfies the circuit: the computation ran to the end and every
recorded assertion holds. -/
def Circuit.Satisfied {α : Type} (c : Curve) : Circuit α → Prop
  | none => False
  | some (_, cs) => ∀ k ∈ cs, k.Holds c

instance {α : Type} (c : Curve) (m : Circuit α) : Decidable (m.Satisfied c) := by
  cases m <;> unfold Circuit.Satisfied <;> infer_instance

/-- The range assertions among a list of assertions: the pairs `(v, bound)` of its
`AssertIsLessOrEqual(v, bound)`, in order. -/
def Constraint.rangeAssertions (cs : List Constraint) : List (Fr × Fr) :=
  cs.filterMap fun k =>
    match k with
    | .AssertIsLessOrEqual v bound => some (v, bound)
    | _ => none

namespace api

/-- `api.AssertIsEqual(i1, i2)`. -/
def AssertIsEqual (i1 i2 : Fr) : Circuit Unit := some ((), [.AssertIsEqual i1 i2])

/-- `api.AssertIsLessOrEqual(v, bound)`. -/
def AssertIsLessOrEqual (v bound : Fr) : Circuit Unit :=
  some ((), [.AssertIsLessOrEqual v bound])

/-- `curve.AssertIsOnCurve(p1)`. -/
def AssertIsOnCurve (p1 : Point) : Circuit Unit := some ((), [.AssertIsOnCurve p1])

/-- `api.Add`. -/
def Add (i1 i2 : Fr) : Fr := i1 + i2

/-- `api.Sub`. -/
def Sub (i1 i2 : Fr) : Fr := i1 - i2

/-- `api.Mul`. -/
def Mul (i1 i2 : Fr) : Fr := i1 * i2

end api

/-! ## `pkg/babyjub` -/

namespace babyjub

/-- The struct `BjWrapper` (its `api` field is the ambient constraint system). -/
structure BjWrapper where
  Curve : Curve
  BasePointOrder : Nat
  base8 : Point

/-- `NewBjWrapper`: `curve` is what `twistededwards.NewEdCurve(api, curveId)`
returned. -/
def NewBjWrapper (curve : Curve) : BjWrapper :=
  let basePointOrder : Nat :=
    2736030358979909402780800718157159386076813972158567259200215660948447373041
  let baseX : Nat :=
    5299619240641551281634865583518297030282874472190772894086521144482721001553
  let baseY : Nat :=
    16950150798460657717958625567821834550301663161624707787222815936182638968203
  let curve : Curve :=
    { curve with Params := { curve.Params with A := 168700, D := 168696, Base := (baseX, baseY) } }
  { Curve := curve
    BasePointOrder := basePointOrder
    base8 := { X := (baseX : Fr), Y := (baseY : Fr) } }

/-- `MulWithBasePoint`: the scalar multiple of `curve.Params().Base`. -/
def BjWrapper.MulWithBasePoint (bj : BjWrapper) (s : Fr) : Point :=
  let points := bj.Curve.Params.Base
  let p : Point := { X := (points.1 : Fr), Y := (points.2 : Fr) }
  let res := bj.Curve.ScalarMul p s
  res

/-- `AssertPoint`: both points are on the curve and have equal coordinates. -/
def BjWrapper.AssertPoint (_bj : BjWrapper) (p1 : Point) (x y : Fr) : Circuit Unit := do
  api.AssertIsOnCurve p1
  let p2 : Point := { X := x, Y := y }
  api.AssertIsOnCurve p2
  api.AssertIsEqual p1.X p2.X
  api.AssertIsEqual p1.Y p2.Y

/-- `MulWithScalar`. -/
def BjWrapper.MulWithScalar (bj : BjWrapper) (x y s : Fr) : Circuit Point := do
  let r := bj.Curve.ScalarMul { X := x, Y := y } s
  api.AssertIsOnCurve r
  return r

/-- `ElGamalDecrypt`. -/
def BjWrapper.ElGamalDecrypt (bj : BjWrapper) (c1 c2 : Fr × Fr) (secretKey : Fr) :
    Circuit Point := do
  let c1x : Point := { X := c1.1, Y := c1.2 }
  let c2Point : Point := { X := c2.1, Y := c2.2 }
  let c1x := bj.Curve.ScalarMul c1x secretKey
  let c1xInverse := bj.Curve.Neg c1x
  let decrypted := bj.Curve.Add c1xInverse c2Point
  api.AssertIsOnCurve c1x
  api.AssertIsOnCurve decrypted
  api.AssertIsOnCurve c1xInverse
  return decrypted

/-- `ElGamalEncrypt`. -/
def BjWrapper.ElGamalEncrypt (bj : BjWrapper) (publicKey msg : Point) (random : Fr) :
    Circuit (Point × Point) := do
  let c1 := bj.Curve.ScalarMul bj.base8 random
  let tc2 := bj.Curve.ScalarMul publicKey random
  let c2 := bj.Curve.Add tc2 msg
  api.AssertIsOnCurve tc2
  return (c1, c2)

end babyjub

/-! ## `pkg/poseidon` -/

namespace poseidon

/-- Modelled from the spec: the files of package `poseidon` that define
`PoseidonEx`, `NewPoseidonHash`, `Hash3` and `CalculateNullifierHash` are not
among the sources.  The spec describes `PoseidonEx` as a fixed permutation `P`
applied to a small state of inputs and a carry, and `H3`, `H` as the hashes of
the registration record and of the nullifier; they are parameters here. -/
structure Primitives where
  PoseidonEx : List Fr → Fr → Nat → List Fr
  Hash3 : Fr → Fr → Fr → Fr
  CalculateNullifierHash : Fr → List Fr → Fr

/-- The permutation returns the four state elements it is asked for. -/
def Primitives.FourOutputs (pos : Primitives) : Prop :=
  ∀ (inputs : List Fr) (initialState : Fr), (pos.PoseidonEx inputs initialState 4).length = 4

/-- Reading `xs[i]`: an index out of range panics. -/
def index {α : Type} (xs : List α) (i : Nat) : Circuit α :=
  match xs[i]? with
  | some x => some (x, [])
  | none => none

/-- Writing `xs[i] = v`: an index out of range panics. -/
def assign {α : Type} (xs : List α) (i : Nat) (v : α) : Circuit (List α) :=
  if i < xs.length then some (xs.set i v, []) else none

/-- Slicing `xs[:n]`: a bound beyond the length panics. -/
def slice {α : Type} (xs : List α) (n : Nat) : Circuit (List α) :=
  if n ≤ xs.length then some (xs.take n, []) else none

/-- The padding loop `for decryptedLength%3 != 0 { decryptedLength += 1 }`. -/
def padLoop (decryptedLength : Nat) : Nat :=
  if decryptedLength % 3 ≠ 0 then padLoop (decryptedLength + 1) else decryptedLength
termination_by (3 - decryptedLength % 3) % 3
decreasing_by omega

/-- The loop `for j := 0; j < 3; j++ { out[i*3+j] = api.Sub(cipherText[i*3+j], strategies[i][j+1]) }`. -/
def subtractBlock (cipherText : List Fr) (strategies : List (List Fr)) (i : Nat)
    (out : List Fr) : Circuit (List Fr) :=
  (List.range 3).foldlM (fun out j => do
    let ct ← index cipherText (i * 3 + j)
    let si ← index strategies i
    let s ← index si (j + 1)
    assign out (i * 3 + j) (api.Sub ct s)) out

/-- The loop `for j := 0; j < 3; j++ { strategiesInput[j] = cipherText[i*3+j] }`. -/
def absorbBlock (cipherText : List Fr) (i : Nat) : Circuit (List Fr) :=
  (List.range 3).foldlM (fun strategiesInput j => do
    let ct ← index cipherText (i * 3 + j)
    assign strategiesInput j ct) (List.replicate 3 (0 : Fr))

/-- The block loop `for i := 0; i < n; i++ { ... }` on the state `(out, strategies)`. -/
def blockLoop (pos : Primitives) (cipherText : List Fr) (n : Nat)
    (out : List Fr) (strategies : List (List Fr)) : Circuit (List Fr × List (List Fr)) :=
  (List.range n).foldlM (fun (st : List Fr × List (List Fr)) i => do
    let out ← subtractBlock cipherText st.2 i st.1
    let strategiesInput ← absorbBlock cipherText i
    let si ← index st.2 i
    let carry ← index si 0
    let strategies ← assign st.2 (i + 1) (pos.PoseidonEx strategiesInput carry 4)
    return (out, strategies)) (out, strategies)

/-- The loop `for i := length; i < decryptedLength; i++ { api.AssertIsEqual(out[i], 0) }`. -/
def assertPadding (out : List Fr) (length decryptedLength : Nat) : Circuit Unit :=
  (List.range' length (decryptedLength - length)).foldlM (fun (_ : Unit) i => do
    let o ← index out i
    api.AssertIsEqual o 0) ()

/-- `poseidonDecrypt`.  Slots created by `make` are written before they are read;
they start as `0` (for `out`) and as the empty slice (for `strategies`). -/
def poseidonDecrypt (pos : Primitives) (decryptedLength : Nat) (encryptionKey : Fr × Fr)
    (nonce : Fr) (cipherText : List Fr) : Circuit (List Fr) := do
  let length := decryptedLength
  let decryptedLength := padLoop decryptedLength
  let out := List.replicate decryptedLength (0 : Fr)
  let two128 : Fr := ((340282366920938463463374607431768211456 : Nat) : Fr)
  api.AssertIsLessOrEqual nonce (api.Sub two128 1)
  let n := (decryptedLength + 1) / 3
  let strategies : List (List Fr) := List.replicate (n + 1) []
  let strategies ← assign strategies 0
    (pos.PoseidonEx
      [encryptionKey.1, encryptionKey.2, api.Add nonce (api.Mul (length : Fr) two128)] 0 4)
  let (out, strategies) ← blockLoop pos cipherText n out strategies
  let remainder := length % 3
  if remainder ≠ 0 then
    assertPadding out length decryptedLength
  -- Check the last ciphertext element
  let tag ← index cipherText decryptedLength
  let sn ← index strategies n
  let sn1 ← index sn 1
  api.AssertIsEqual tag sn1
  slice out length

/-- `PoseidonDecryptSingle`: the ciphertext is a Go array of four variables. -/
def PoseidonDecryptSingle (pos : Primitives) (encryptionKey : Fr × Fr) (nonce : Fr)
    (cipherText : Fin 4 → Fr) : Circuit (List Fr) :=
  poseidonDecrypt pos 1 encryptionKey nonce (List.ofFn cipherText)

end poseidon

/-! ## `pkg/circuits` -/

namespace circuits

open babyjub

/-- The struct `PublicKey`. -/
structure PublicKey where
  P : Point

/-- The struct `ElGamalCiphertext`. -/
structure ElGamalCiphertext where
  C1 : Point
  C2 : Point

/-- The struct `Randomness`. -/
structure Randomness where
  R : Fr

/-- The struct `PoseidonCiphertext`. -/
structure PoseidonCiphertext where
  Ciphertext : Fin 4 → Fr
  AuthKey : Point
  Nonce : Fr
  Random : Fr

/-- The struct `Sender`. -/
structure Sender where
  PrivateKey : Fr
  PublicKey : PublicKey
  Balance : Fr
  BalanceEGCT : ElGamalCiphertext
  ValueEGCT : ElGamalCiphertext

/-- The struct `WithdrawSender`. -/
structure WithdrawSender where
  PrivateKey : Fr
  PublicKey : PublicKey
  Balance : Fr
  BalanceEGCT : ElGamalCiphertext

/-- The struct `Receiver`. -/
structure Receiver where
  PublicKey : PublicKey
  ValueEGCT : ElGamalCiphertext
  ValueRandom : Randomness
  PCT : PoseidonCiphertext

/-- The struct `RegistrationSender`. -/
structure RegistrationSender where
  PrivateKey : Fr
  PublicKey : PublicKey
  Address : Fr
  ChainID : Fr
  RegistrationHash : Fr

/-- The struct `Auditor`. -/
structure Auditor where
  PublicKey : PublicKey
  PCT : PoseidonCiphertext

/-- The struct `MintNullifier`. -/
structure MintNullifier where
  ChainID : Fr
  NullifierHash : Fr

/-- The interface `KeyHolder`. -/
class KeyHolder (α : Type) where
  GetPrivateKey : α → Fr
  GetPublicKeyX : α → Fr
  GetPublicKeyY : α → Fr

instance : KeyHolder Sender where
  GetPrivateKey s := s.PrivateKey
  GetPublicKeyX s := s.PublicKey.P.X
  GetPublicKeyY s := s.PublicKey.P.Y

instance : KeyHolder RegistrationSender where
  GetPrivateKey s := s.PrivateKey
  GetPublicKeyX s := s.PublicKey.P.X
  GetPublicKeyY s := s.PublicKey.P.Y

/-- `CheckPublicKey`. -/
def CheckPublicKey {α : Type} [KeyHolder α] (bj : BjWrapper) (keyHolder : α) : Circuit Unit := do
  api.AssertIsLessOrEqual (KeyHolder.GetPrivateKey keyHolder)
    (api.Sub (bj.BasePointOrder : Fr) 1)
  let generatedPublicKey := bj.MulWithBasePoint (KeyHolder.GetPrivateKey keyHolder)
  bj.AssertPoint generatedPublicKey (KeyHolder.GetPublicKeyX keyHolder)
    (KeyHolder.GetPublicKeyY keyHolder)

/-- `CheckRegistrationPublicKey`. -/
def CheckRegistrationPublicKey (bj : BjWrapper) (sender : RegistrationSender) : Circuit Unit := do
  api.AssertIsLessOrEqual sender.PrivateKey (api.Sub (bj.BasePointOrder : Fr) 1)
  let generatedSenderPublicKey := bj.MulWithBasePoint sender.PrivateKey
  bj.AssertPoint generatedSenderPublicKey sender.PublicKey.P.X sender.PublicKey.P.Y

/-- `CheckBalance`. -/
def CheckBalance (bj : BjWrapper) (sender : Sender) : Circuit Unit := do
  api.AssertIsLessOrEqual sender.Balance (api.Sub (bj.BasePointOrder : Fr) 1)
  let decSenderBalanceP ← bj.ElGamalDecrypt
    (sender.BalanceEGCT.C1.X, sender.BalanceEGCT.C1.Y)
    (sender.BalanceEGCT.C2.X, sender.BalanceEGCT.C2.Y) sender.PrivateKey
  let givenSenderBalanceP := bj.MulWithBasePoint sender.Balance
  bj.AssertPoint givenSenderBalanceP decSenderBalanceP.X decSenderBalanceP.Y

/-- `CheckPositiveValue`. -/
def CheckPositiveValue (bj : BjWrapper) (sender : Sender) (value : Fr) : Circuit Unit := do
  api.AssertIsLessOrEqual value (api.Sub (bj.BasePointOrder : Fr) 1)
  let positiveValueP := bj.MulWithBasePoint value
  let decSenderValueP ← bj.ElGamalDecrypt
    (sender.ValueEGCT.C1.X, sender.ValueEGCT.C1.Y)
    (sender.ValueEGCT.C2.X, sender.ValueEGCT.C2.Y) sender.PrivateKey
  bj.AssertPoint positiveValueP decSenderValueP.X decSenderValueP.Y

/-- `CheckValue`. -/
def CheckValue (bj : BjWrapper) (receiver : Receiver) (value : Fr) : Circuit Unit := do
  api.AssertIsLessOrEqual value (api.Sub (bj.BasePointOrder : Fr) 1)
  api.AssertIsLessOrEqual receiver.ValueRandom.R (api.Sub (bj.BasePointOrder : Fr) 1)
  let (reEncC1, reEncC2) ← bj.ElGamalEncrypt receiver.PublicKey.P (bj.MulWithBasePoint value)
    receiver.ValueRandom.R
  bj.AssertPoint receiver.ValueEGCT.C1 reEncC1.X reEncC1.Y
  bj.AssertPoint receiver.ValueEGCT.C2 reEncC2.X reEncC2.Y

/-- `CheckPCTReceiver`. -/
def CheckPCTReceiver (pos : poseidon.Primitives) (bj : BjWrapper) (receiver : Receiver)
    (value : Fr) : Circuit Unit := do
  api.AssertIsLessOrEqual receiver.PCT.Random (api.Sub (bj.BasePointOrder : Fr) 1)
  let poseidonAuthKey := bj.MulWithBasePoint receiver.PCT.Random
  bj.AssertPoint poseidonAuthKey receiver.PCT.AuthKey.X receiver.PCT.AuthKey.Y
  -- r * pk
  let poseidonEncryptionKey ← bj.MulWithScalar receiver.PublicKey.P.X receiver.PublicKey.P.Y
    receiver.PCT.Random
  -- Decrypt the ciphertext
  let decrypted ← poseidon.PoseidonDecryptSingle pos
    (poseidonEncryptionKey.X, poseidonEncryptionKey.Y) receiver.PCT.Nonce receiver.PCT.Ciphertext
  let d0 ← poseidon.index decrypted 0
  api.AssertIsEqual d0 value

/-- `CheckPCTAuditor`. -/
def CheckPCTAuditor (pos : poseidon.Primitives) (bj : BjWrapper) (auditor : Auditor)
    (value : Fr) : Circuit Unit := do
  api.AssertIsLessOrEqual auditor.PCT.Random (api.Sub (bj.BasePointOrder : Fr) 1)
  let poseidonAuthKey := bj.MulWithBasePoint auditor.PCT.Random
  bj.AssertPoint poseidonAuthKey auditor.PCT.AuthKey.X auditor.PCT.AuthKey.Y
  -- r * pk
  let poseidonEncryptionKey ← bj.MulWithScalar auditor.PublicKey.P.X auditor.PublicKey.P.Y
    auditor.PCT.Random
  -- Decrypt the ciphertext
  let decrypted ← poseidon.PoseidonDecryptSingle pos
    (poseidonEncryptionKey.X, poseidonEncryptionKey.Y) auditor.PCT.Nonce auditor.PCT.Ciphertext
  let d0 ← poseidon.index decrypted 0
  api.AssertIsEqual d0 value

/-- `CheckRegistrationHash`. -/
def CheckRegistrationHash (pos : poseidon.Primitives) (sender : RegistrationSender) :
    Circuit Unit := do
  let hash := pos.Hash3 sender.ChainID sender.PrivateKey sender.Address
  api.AssertIsEqual hash sender.RegistrationHash

/-- `CheckNullifierHash`. -/
def CheckNullifierHash (pos : poseidon.Primitives) (auditor : Auditor)
    (nullifier : MintNullifier) : Circuit Unit := do
  let hash := pos.CalculateNullifierHash nullifier.ChainID (List.ofFn auditor.PCT.Ciphertext)
  api.AssertIsEqual hash nullifier.NullifierHash

/-- The struct `RegistrationCircuit`. -/
structure RegistrationCircuit where
  Sender : RegistrationSender

/-- The struct `MintCircuit`. -/
structure MintCircuit where
  Receiver : Receiver
  Auditor : Auditor
  MintNullifier : MintNullifier
  ValueToMint : Fr

/-- The struct `TransferCircuit`. -/
structure TransferCircuit where
  Sender : Sender
  Receiver : Receiver
  Auditor : Auditor
  ValueToTransfer : Fr

/-- The struct `WithdrawCircuit`. -/
structure WithdrawCircuit where
  Sender : WithdrawSender
  Auditor : Auditor
  ValueToBurn : Fr

/-- `RegistrationCircuit.Define`; `curve` is the gadget `NewEdCurve(api, BN254)` returns. -/
def RegistrationCircuit.Define (curve : Curve) (pos : poseidon.Primitives)
    (circuit : RegistrationCircuit) : Circuit Unit := do
  let babyjub := NewBjWrapper curve
  CheckPublicKey babyjub circuit.Sender
  CheckRegistrationHash pos circuit.Sender

/-- `MintCircuit.Define`. -/
def MintCircuit.Define (curve : Curve) (pos : poseidon.Primitives)
    (circuit : MintCircuit) : Circuit Unit := do
  let babyjub := NewBjWrapper curve
  CheckValue babyjub circuit.Receiver circuit.ValueToMint
  CheckNullifierHash pos circuit.Auditor circuit.MintNullifier
  CheckPCTReceiver pos babyjub circuit.Receiver circuit.ValueToMint
  CheckPCTAuditor pos babyjub circuit.Auditor circuit.ValueToMint

/-- `TransferCircuit.Define`. -/
def TransferCircuit.Define (curve : Curve) (pos : poseidon.Primitives)
    (circuit : TransferCircuit) : Circuit Unit := do
  let babyjub := NewBjWrapper curve
  api.AssertIsLessOrEqual circuit.ValueToTransfer circuit.Sender.Balance
  CheckPublicKey babyjub circuit.Sender
  CheckBalance babyjub circuit.Sender
  CheckPositiveValue babyjub circuit.Sender circuit.ValueToTransfer
  CheckValue babyjub circuit.Receiver circuit.ValueToTransfer
  CheckPCTReceiver pos babyjub circuit.Receiver circuit.ValueToTransfer
  CheckPCTAuditor pos babyjub circuit.Auditor circuit.ValueToTransfer

open babyjub

/-- `WithdrawCircuit.Define`: the `WithdrawSender` is copied into a `Sender`
whose remaining fields keep their zero value. -/
def WithdrawCircuit.Define (curve : Curve) (pos : poseidon.Primitives)
    (circuit : WithdrawCircuit) : Circuit Unit := do
  let babyjub := NewBjWrapper curve
  api.AssertIsLessOrEqual circuit.ValueToBurn circuit.Sender.Balance
  CheckPublicKey babyjub
    ({ PrivateKey := circuit.Sender.PrivateKey
       PublicKey := circuit.Sender.PublicKey
       Balance := 0
       BalanceEGCT := { C1 := { X := 0, Y := 0 }, C2 := { X := 0, Y := 0 } }
       ValueEGCT := { C1 := { X := 0, Y := 0 }, C2 := { X := 0, Y := 0 } } } : circuits.Sender)
  CheckBalance babyjub
    ({ PrivateKey := circuit.Sender.PrivateKey
       PublicKey := circuit.Sender.PublicKey
       Balance := circuit.Sender.Balance
       BalanceEGCT := circuit.Sender.BalanceEGCT
       ValueEGCT := { C1 := { X := 0, Y := 0 }, C2 := { X := 0, Y := 0 } } } : circuits.Sender)
  CheckPCTAuditor pos babyjub circuit.Auditor circuit.ValueToBurn

end circuits

/-! ## The encryption matching `PoseidonDecryptSingle` -/

namespace poseidon

/-- The first permutation state `strategies[0]` of a decryption with logical length `1`:
the permutation applied to `[key0, key1, nonce + 1 * 2^128]` with carry `0`. -/
def initialState (pos : Primitives) (encryptionKey : Fr × Fr) (nonce : Fr) : List Fr :=
  pos.PoseidonEx
    [encryptionKey.1, encryptionKey.2,
      api.Add nonce (api.Mul ((1 : Nat) : Fr) ((340282366920938463463374607431768211456 : Nat) : Fr))]
    0 4

/-- The permutation state `strategies[1]` after absorbing the ciphertext block
`[c0, c1, c2]` with the carry of the first state. -/
def absorbedState (pos : Primitives) (encryptionKey : Fr × Fr) (nonce : Fr) (c0 c1 c2 : Fr) :
    List Fr :=
  pos.PoseidonEx [c0, c1, c2] ((initialState pos encryptionKey nonce).getD 0 0) 4

/-- The encryption matching `PoseidonDecryptSingle`, as the round-trip property describes it
(the sources contain the decryption only): `ct0 = v + S0[1]`, `ct1 = S0[2]`, `ct2 = S0[3]`,
and the tag is the value the verifier recomputes after absorbing `ct0..ct2`. -/
def encryptSingle (pos : Primitives) (encryptionKey : Fr × Fr) (nonce : Fr) (v : Fr) :
    Fin 4 → Fr :=
  let S0 := initialState pos encryptionKey nonce
  let ct0 := v + S0.getD 1 0
  let ct1 := S0.getD 2 0
  let ct2 := S0.getD 3 0
  ![ct0, ct1, ct2, (absorbedState pos encryptionKey nonce ct0 ct1 ct2).getD 1 0]

end poseidon

/-! ## A backend that meets the contract

The contract `Curve.Lawful` is satisfiable over the scalar field: the additive
group of pairs of field elements, with every pair accepted as a point, is a
lawful gadget.  It serves to instantiate the theorems below at concrete
inputs. -/

namespace model

open babyjub circuits

/-- The additive group of pairs of field elements as a curve gadget. -/
def additiveCurve : Curve where
  Params := { A := 0, D := 0, Base := (0, 0) }
  add _ p q := { X := p.X + q.X, Y := p.Y + q.Y }
  neg _ p := { X := -p.X, Y := -p.Y }
  scalarMul _ p s := { X := s * p.X, Y := s * p.Y }
  isOnCurve _ _ := true

/-- A permutation of the four-element state `[carry, in0, in1, in2]`: it
exchanges the first two elements.  The hashes are linear forms. -/
def swapPrimitives : poseidon.Primitives where
  PoseidonEx inputs initialState nOuts :=
    match inputs with
    | [a, b, c] => [a, initialState, b, c].take nOuts
    | _ => List.replicate nOuts 0
  Hash3 a b c := a + 2 * b + 3 * c
  CalculateNullifierHash chainId cipherText := chainId + cipherText.sum

/-- The wrapper over the additive backend. -/
def bj : BjWrapper := NewBjWrapper additiveCurve

/-- A sender with private key `7` and the public key it generates; the balance
ciphertext encrypts `100 * G` with randomness `5`. -/
def sender : Sender where
  PrivateKey := 7
  PublicKey := { P := bj.MulWithBasePoint 7 }
  Balance := 100
  BalanceEGCT :=
    { C1 := bj.Curve.ScalarMul bj.base8 5
      C2 := bj.Curve.Add (bj.Curve.ScalarMul (bj.MulWithBasePoint 7) 5) (bj.MulWithBasePoint 100) }
  ValueEGCT := { C1 := { X := 0, Y := 0 }, C2 := { X := 0, Y := 0 } }

/-- A sender whose balance is the order of the base point, one more than the range
assertion allows; its balance ciphertext is the encryption of `Balance * G` under its own
key with randomness `0`. -/
def overflowSender : Sender where
  PrivateKey := 7
  PublicKey := { P := bj.MulWithBasePoint 7 }
  Balance := (bj.BasePointOrder : Fr)
  BalanceEGCT :=
    { C1 := bj.Curve.ScalarMul bj.base8 0
      C2 := bj.Curve.Add (bj.Curve.ScalarMul (bj.MulWithBasePoint 7) 0)
              (bj.MulWithBasePoint (bj.BasePointOrder : Fr)) }
  ValueEGCT := { C1 := { X := 0, Y := 0 }, C2 := { X := 0, Y := 0 } }

/-- A registration record: private key `7`, chain `1`, address `10`. -/
def registrationSender : RegistrationSender where
  PrivateKey := 7
  PublicKey := { P := bj.MulWithBasePoint 7 }
  Address := 10
  ChainID := 1
  RegistrationHash := swapPrimitives.Hash3 1 7 10

/-- A party with an all-zero summary ciphertext. -/
def pct : PoseidonCiphertext where
  Ciphertext := ![0, 0, 0, 0]
  AuthKey := { X := 0, Y := 0 }
  Nonce := 0
  Random := 0

/-- A transfer of `150` from a balance of `100`. -/
def overdraft : TransferCircuit where
  Sender := sender
  Receiver :=
    { PublicKey := { P := bj.MulWithBasePoint 9 }
      ValueEGCT := { C1 := { X := 0, Y := 0 }, C2 := { X := 0, Y := 0 } }
      ValueRandom := { R := 3 }
      PCT := pct }
  Auditor := { PublicKey := { P := bj.MulWithBasePoint 11 }, PCT := pct }
  ValueToTransfer := 150

/-- A summary ciphertext the swap permutation accepts for key `(1, 2)` and nonce `5`: it
decrypts to `42`. -/
def acceptedCiphertext : Fin 4 → Fr :=
  ![42, 2, 5 + ((340282366920938463463374607431768211456 : Nat) : Fr), 1]

/-- A sender whose private key is the order of the base point, one more than the range
assertion of `CheckPublicKey` allows; its balance ciphertext is `(0 * G, Balance * G)`. -/
def unboundedKeySender : Sender where
  PrivateKey := (bj.BasePointOrder : Fr)
  PublicKey := { P := bj.MulWithBasePoint (bj.BasePointOrder : Fr) }
  Balance := 100
  BalanceEGCT :=
    { C1 := bj.Curve.ScalarMul bj.base8 0
      C2 := bj.MulWithBasePoint 100 }
  ValueEGCT := { C1 := { X := 0, Y := 0 }, C2 := { X := 0, Y := 0 } }

/-- A receiver with value randomness `3` and an all-zero summary ciphertext. -/
def receiver : Receiver where
  PublicKey := { P := bj.MulWithBasePoint 9 }
  ValueEGCT := { C1 := { X := 0, Y := 0 }, C2 := { X := 0, Y := 0 } }
  ValueRandom := { R := 3 }
  PCT := pct

/-- An auditor with an all-zero summary ciphertext. -/
def auditor : Auditor where
  PublicKey := { P := bj.MulWithBasePoint 11 }
  PCT := pct

end model

namespace model

open babyjub circuits

/-- A withdrawal of `30` by the sender with private key `7` and balance `100`. -/
def withdrawal : WithdrawCircuit where
  Sender :=
    { PrivateKey := sender.PrivateKey
      PublicKey := sender.PublicKey
      Balance := sender.Balance
      BalanceEGCT := sender.BalanceEGCT }
  Auditor := auditor
  ValueToBurn := 30

end model

namespace model

open babyjub circuits

/-- The slope `baseY / baseX` of the line through the origin and the base point. -/
def slope : Fr :=
  16245957581198686654970312280733759945624071972278898262747435575667401401592

/-- A second lawful backend, with points off the curve: the curve is the line through the
origin and the base point, a subgroup of the additive group of pairs. -/
def lineCurve : Curve where
  Params := { A := 0, D := 0, Base := (0, 0) }
  add _ p q := { X := p.X + q.X, Y := p.Y + q.Y }
  neg _ p := { X := -p.X, Y := -p.Y }
  scalarMul _ p s := { X := s * p.X, Y := s * p.Y }
  isOnCurve _ p := decide (p.Y = slope * p.X)

/-- An auditor whose public key `(1, 0)` is not a point of the line; its summary is the
encryption of `42` under the shared key `1 * pk`, with authentication key `1 * G`. -/
def offCurveAuditor : Auditor where
  PublicKey := { P := { X := 1, Y := 0 } }
  PCT :=
    { Ciphertext := poseidon.encryptSingle swapPrimitives (1, 0) 5 42
      AuthKey := (NewBjWrapper lineCurve).MulWithBasePoint 1
      Nonce := 5
      Random := 1 }

end model

/-! ## Declared visibility of the circuit inputs (`gnark` struct tags) -/

namespace schema

/-- The visibility a `gnark:",public"` or `gnark:",secret"` struct tag declares; a field
without a tag is `Unset`. -/
inductive Visibility where
  | Unset
  | Secret
  | Public
deriving DecidableEq

mutual
/-- The shape of a circuit type: a `frontend.Variable`, or a struct given by its fields. -/
inductive Shape where
  | Variable : Shape
  | Struct : Fields → Shape
/-- The fields of a struct in declaration order: name, tag and type of each. -/
inductive Fields where
  | nil : Fields
  | cons : String → Visibility → Shape → Fields → Fields
end

/-- The visibility a field passes on, from the one it inherits and its own tag.  In the
circuits of this repository no tagged field lies below another tagged field, so which of
the two wins there is left open as `parentWins`. -/
def inherit (parentWins : Bool) (parent tag : Visibility) : Visibility :=
  if parent = .Unset then tag
  else if tag = .Unset then parent
  else if parentWins then parent else tag

mutual
/-- The variables of a type in the order the schema walk meets them (depth first, fields in
declaration order), each with its path and visibility; a variable reached with no tag is
secret. -/
def Shape.leaves (parentWins : Bool) :
    Shape → List String → Visibility → List (List String × Visibility)
  | .Variable, path, v => [(path, if v = .Unset then .Secret else v)]
  | .Struct fs, path, v => fs.leaves parentWins path v
/-- The variables of a list of fields, in order. -/
def Fields.leaves (parentWins : Bool) :
    Fields → List String → Visibility → List (List String × Visibility)
  | .nil, _, _ => []
  | .cons name tag ty rest, path, v =>
    ty.leaves parentWins (path ++ [name]) (inherit parentWins v tag)
      ++ rest.leaves parentWins path v
end

/-- The public inputs of a circuit type, in witness order. -/
def publicInputs (parentWins : Bool) (circuit : Shape) : List (List String) :=
  ((circuit.leaves parentWins [] .Unset).filter (fun l => l.2 = .Public)).map (fun l => l.1)

/-- The secret inputs of a circuit type, in witness order. -/
def secretInputs (parentWins : Bool) (circuit : Shape) : List (List String) :=
  ((circuit.leaves parentWins [] .Unset).filter (fun l => l.2 = .Secret)).map (fun l => l.1)

/-- The order of the full witness vector: the public inputs, then the secret ones. -/
def witnessOrder (parentWins : Bool) (circuit : Shape) : List (List String) :=
  publicInputs parentWins circuit ++ secretInputs parentWins circuit

/-- The struct `twistededwards.Point`: `X, Y frontend.Variable`. -/
def Point : Shape :=
  .Struct (.cons "X" .Unset .Variable (.cons "Y" .Unset .Variable .nil))

/-- The struct `PublicKey`: `P twistededwards.Point` tagged `gnark:",public"`. -/
def PublicKey : Shape :=
  .Struct (.cons "P" .Public Point .nil)

/-- The struct `RegistrationSender`. -/
def RegistrationSender : Shape :=
  .Struct
    (.cons "PrivateKey" .Unset .Variable
    (.cons "PublicKey" .Unset PublicKey
    (.cons "Address" .Public .Variable
    (.cons "ChainID" .Public .Variable
    (.cons "RegistrationHash" .Public .Variable .nil)))))

/-- The struct `RegistrationCircuit`. -/
def RegistrationCircuit : Shape :=
  .Struct (.cons "Sender" .Unset RegistrationSender .nil)

end schema

/-! ## `pkg/utils`: writing the proof -/

namespace utils

/-- A Go `byte`. -/
abbrev Byte : Type := Fin 256

/-- `new(big.Int).SetBytes(buf)`: the bytes read as a big-endian unsigned integer. -/
def SetBytes (buf : List Byte) : Nat :=
  buf.foldl (fun acc b => acc * 256 + b.val) 0

/-- The slice expression `s[lo:hi]`: bounds out of range panic.  The capacity of the slice
is taken to be its length. -/
def sliceRange (s : List Byte) (lo hi : Nat) : Option (List Byte) :=
  if lo ≤ hi ∧ hi ≤ s.length then some ((s.drop lo).take (hi - lo)) else none

/-- `new(big.Int).SetBytes(proofBytes[lo:hi]).String()`: the decimal text of the integer. -/
def field (proofBytes : List Byte) (lo hi : Nat) : Option String :=
  (sliceRange proofBytes lo hi).map fun buf => Nat.repr (SetBytes buf)

/-- The arrays `a [2]string`, `b [2][2]string`, `c [2]string` of a proof. -/
structure ProofABC where
  a : String × String
  b : (String × String) × (String × String)
  c : String × String
deriving DecidableEq

/-- `setProofABC`: fills `a`, `b`, `c` from the raw proof, 32 bytes for each entry. -/
def setProofABC (proofBytes : List Byte) : Option ProofABC := do
  let fpSize := 4 * 8
  let a0 ← field proofBytes (fpSize * 0) (fpSize * 1)
  let a1 ← field proofBytes (fpSize * 1) (fpSize * 2)
  let b00 ← field proofBytes (fpSize * 2) (fpSize * 3)
  let b01 ← field proofBytes (fpSize * 3) (fpSize * 4)
  let b10 ← field proofBytes (fpSize * 4) (fpSize * 5)
  let b11 ← field proofBytes (fpSize * 5) (fpSize * 6)
  let c0 ← field proofBytes (fpSize * 6) (fpSize * 7)
  let c1 ← field proofBytes (fpSize * 7) (fpSize * 8)
  return { a := (a0, a1), b := ((b00, b01), (b10, b11)), c := (c0, c1) }

/-- A `groth16.Proof` as `SetProof` uses it: `WriteRawTo` gives the raw bytes or fails. -/
structure Proof where
  WriteRawTo : Option (List Byte)

/-- `SetProof`: panics when the proof cannot be written, else fills `a`, `b`, `c`. -/
def SetProof (proof : Proof) : Option ProofABC :=
  match proof.WriteRawTo with
  | none => none
  | some proofBytes => setProofABC proofBytes

/-- `WriteProof`: the Go map with the one key `proof`, whose value is the slice of the eight
strings of `a`, `b`, `c`, paired with the name of the file its JSON text is written to.  A
map is given as the list of its keys with their values. -/
def WriteProof (output : String) (p : ProofABC) : String × List (String × List String) :=
  (output,
    [("proof", [p.a.1, p.a.2, p.b.1.1, p.b.1.2, p.b.2.1, p.b.2.2, p.c.1, p.c.2])])

/-- The integer the spec reads from the bytes `[32k, 32k+32)` of the raw proof: byte `32k+i`
has weight `256^(31-i)`. -/
def bigEndianValue (proofBytes : List Byte) (k : Nat) : Nat :=
  ∑ i in Finset.range 32, (proofBytes.getD (32 * k + i) 0).val * 256 ^ (31 - i)

end utils

/-! ## The decryption as the specification describes it -/

namespace poseidon

/-- The permutation states of the specification for logical length `L`:
`S_0 = P([key0, key1, nonce + L * 2^128])` and `S_(i+1) = P` over the ciphertext block
`[cipherText[3i], cipherText[3i+1], cipherText[3i+2]]` with carry `S_i[0]`. -/
def permutationState (pos : Primitives) (L : Nat) (encryptionKey : Fr × Fr) (nonce : Fr)
    (cipherText : List Fr) : Nat → List Fr
  | 0 => pos.PoseidonEx [encryptionKey.1, encryptionKey.2, nonce + (L : Fr) * 2 ^ 128] 0 4
  | i + 1 =>
    pos.PoseidonEx
      [cipherText.getD (3 * i) 0, cipherText.getD (3 * i + 1) 0, cipherText.getD (3 * i + 2) 0]
      ((permutationState pos L encryptionKey nonce cipherText i).getD 0 0) 4

/-- The plaintext element `k` of the specification: `cipherText[k] - S_i[(k mod 3) + 1]` with
`i = k div 3`. -/
def plaintext (pos : Primitives) (L : Nat) (encryptionKey : Fr × Fr) (nonce : Fr)
    (cipherText : List Fr) (k : Nat) : Fr :=
  cipherText.getD k 0
    - (permutationState pos L encryptionKey nonce cipherText (k / 3)).getD (k % 3 + 1) 0

end poseidon

namespace poseidon

/-- The slice `out` of `poseidonDecrypt` after `m` blocks: the slots of the first `m` blocks
hold the plaintext, the others are still `0`. -/
def outAfter (pos : Primitives) (L : Nat) (encryptionKey : Fr × Fr) (nonce : Fr)
    (cipherText : List Fr) (m : Nat) : List Fr :=
  (List.range (padLoop L)).map fun k =>
    if k < m * 3 then plaintext pos L encryptionKey nonce cipherText k else 0

/-- The slice `strategies` of `poseidonDecrypt` after `m` blocks: the states `0..m` are
set, the others are still empty. -/
def strategiesAfter (pos : Primitives) (L : Nat) (encryptionKey : Fr × Fr) (nonce : Fr)
    (cipherText : List Fr) (m : Nat) : List (List Fr) :=
  (List.range ((padLoop L + 1) / 3 + 1)).map fun i =>
    if i ≤ m then permutationState pos L encryptionKey nonce cipherText i else []

end poseidon

namespace model

/-- A ciphertext of seven elements, for the logical length `4` (two blocks and the tag). -/
def longCiphertext : List Fr := [11, 12, 13, 14, 15, 16, 17]

/-- A ciphertext whose nonce `2^128` is out of range. -/
def nonceOutOfRange : Fr := ((340282366920938463463374607431768211456 : Nat) : Fr)

end model

/-! ## Honestly built witnesses

The sources contain the verifier side only.  The witnesses a prover who follows the protocol
would supply are built here from the choices of the parties, with the operations of the
wrapper; they serve to show that the circuits are satisfiable at given amounts. -/

namespace circuits

open babyjub

/-- The choices of the parties of a transfer or a withdrawal: the sender's private key,
balance and amount, the private keys of receiver and auditor, the randomness of each
encryption and the nonces of the two summaries. -/
structure Choice where
  PrivateKey : Fr
  Balance : Fr
  Value : Fr
  BalanceRandom : Fr
  ValueRandom : Fr
  ReceiverKey : Fr
  ReceiverRandom : Fr
  ReceiverSummaryRandom : Fr
  ReceiverNonce : Fr
  AuditorKey : Fr
  AuditorSummaryRandom : Fr
  AuditorNonce : Fr

/-- The choices the circuits accept: the amount is at most the balance, the private key,
the balance and the randomness that the circuits bound are at most `order - 1`, and the
nonces are below `2^128`. -/
def Choice.InRange (ch : Choice) (order : Nat) : Prop :=
  ch.Value.val ≤ ch.Balance.val ∧ ch.PrivateKey.val ≤ order - 1 ∧ ch.Balance.val ≤ order - 1 ∧
  ch.ReceiverRandom.val ≤ order - 1 ∧ ch.ReceiverSummaryRandom.val ≤ order - 1 ∧
  ch.AuditorSummaryRandom.val ≤ order - 1 ∧
  ch.ReceiverNonce.val < 2 ^ 128 ∧ ch.AuditorNonce.val < 2 ^ 128

instance (ch : Choice) (order : Nat) : Decidable (ch.InRange order) := by
  unfold Choice.InRange; infer_instance

/-- The ElGamal encryption `(r * G, r * pk + m * G)` of the amount `m` under `pk`. -/
def honestEGCT (bj : BjWrapper) (pk : Point) (m r : Fr) : ElGamalCiphertext :=
  { C1 := bj.Curve.ScalarMul bj.base8 r
    C2 := bj.Curve.Add (bj.Curve.ScalarMul pk r) (bj.MulWithBasePoint m) }

/-- The summary of the amount `value` for the holder of `pk`: the Poseidon encryption under
the shared key `random * pk`, with the authentication key `random * G`. -/
def honestPCT (pos : poseidon.Primitives) (bj : BjWrapper) (pk : Point)
    (random nonce value : Fr) : PoseidonCiphertext :=
  { Ciphertext :=
      poseidon.encryptSingle pos
        ((bj.Curve.ScalarMul pk random).X, (bj.Curve.ScalarMul pk random).Y) nonce value
    AuthKey := bj.MulWithBasePoint random
    Nonce := nonce
    Random := random }

/-- The transfer witness built from the choices. -/
def honestTransfer (curve : Curve) (pos : poseidon.Primitives) (ch : Choice) : TransferCircuit :=
  let bj := NewBjWrapper curve
  { Sender :=
      { PrivateKey := ch.PrivateKey
        PublicKey := { P := bj.MulWithBasePoint ch.PrivateKey }
        Balance := ch.Balance
        BalanceEGCT :=
          honestEGCT bj (bj.MulWithBasePoint ch.PrivateKey) ch.Balance ch.BalanceRandom
        ValueEGCT :=
          honestEGCT bj (bj.MulWithBasePoint ch.PrivateKey) ch.Value ch.ValueRandom }
    Receiver :=
      { PublicKey := { P := bj.MulWithBasePoint ch.ReceiverKey }
        ValueEGCT :=
          honestEGCT bj (bj.MulWithBasePoint ch.ReceiverKey) ch.Value ch.ReceiverRandom
        ValueRandom := { R := ch.ReceiverRandom }
        PCT :=
          honestPCT pos bj (bj.MulWithBasePoint ch.ReceiverKey) ch.ReceiverSummaryRandom
            ch.ReceiverNonce ch.Value }
    Auditor :=
      { PublicKey := { P := bj.MulWithBasePoint ch.AuditorKey }
        PCT :=
          honestPCT pos bj (bj.MulWithBasePoint ch.AuditorKey) ch.AuditorSummaryRandom
            ch.AuditorNonce ch.Value }
    ValueToTransfer := ch.Value }

/-- The withdrawal witness built from the choices. -/
def honestWithdrawal (curve : Curve) (pos : poseidon.Primitives) (ch : Choice) :
    WithdrawCircuit :=
  let bj := NewBjWrapper curve
  { Sender :=
      { PrivateKey := ch.PrivateKey
        PublicKey := { P := bj.MulWithBasePoint ch.PrivateKey }
        Balance := ch.Balance
        BalanceEGCT :=
          honestEGCT bj (bj.MulWithBasePoint ch.PrivateKey) ch.Balance ch.BalanceRandom }
    Auditor :=
      { PublicKey := { P := bj.MulWithBasePoint ch.AuditorKey }
        PCT :=
          honestPCT pos bj (bj.MulWithBasePoint ch.AuditorKey) ch.AuditorSummaryRandom
            ch.AuditorNonce ch.Value }
    ValueToBurn := ch.Value }

end circuits

namespace model

open circuits

/-- The choices of a transfer of `30` from a balance of `100`. -/
def choice : Choice where
  PrivateKey := 7
  Balance := 100
  Value := 30
  BalanceRandom := 5
  ValueRandom := 6
  ReceiverKey := 9
  ReceiverRandom := 3
  ReceiverSummaryRandom := 4
  ReceiverNonce := 21
  AuditorKey := 11
  AuditorSummaryRandom := 8
  AuditorNonce := 22

/-- The choices of a transfer of `0` from a balance of `100`. -/
def zeroChoice : Choice := { choice with Value := 0 }

end model

namespace poseidon

/-- Modelled from the spec: `PoseidonEx` is not among the sources.  The spec says of the
permutation that any tampering with a ciphertext element changes the chained state and
fails the tag assertion.  For the state after a block is absorbed this is the property
here: when one element of the absorbed block changes and the carry does not, the element
of the new state that the tag is compared with (position `1`) changes. -/
def Primitives.TamperEvident (pos : Primitives) : Prop :=
  ∀ (carry a b c x : Fr),
    (x ≠ a →
      (pos.PoseidonEx [x, b, c] carry 4).getD 1 0 ≠ (pos.PoseidonEx [a, b, c] carry 4).getD 1 0) ∧
    (x ≠ b →
      (pos.PoseidonEx [a, x, c] carry 4).getD 1 0 ≠ (pos.PoseidonEx [a, b, c] carry 4).getD 1 0) ∧
    (x ≠ c →
      (pos.PoseidonEx [a, b, x] carry 4).getD 1 0 ≠ (pos.PoseidonEx [a, b, c] carry 4).getD 1 0)

end poseidon

namespace model

/-- A bijection of the four-element state `[carry, in0, in1, in2]` whose second output is
the sum of the four elements, so that it changes with each absorbed element.  The hashes
are linear forms. -/
def mixPrimitives : poseidon.Primitives where
  PoseidonEx inputs initialState nOuts :=
    match inputs with
    | [a, b, c] => [a, initialState + a + b + c, b, c].take nOuts
    | _ => List.replicate nOuts 0
  Hash3 a b c := a + 2 * b + 3 * c
  CalculateNullifierHash chainId cipherText := chainId + cipherText.sum

end model

/-! ## Reasoning about recorded assertions -/

open babyjub circuits

theorem Circuit.satisfied_some {α : Type} (c : Curve) (a : α) (cs : List Constraint) :
    Circuit.Satisfied c (some (a, cs)) ↔ ∀ k ∈ cs, k.Holds c := Iff.rfl

theorem Circuit.not_satisfied_none {α : Type} (c : Curve) :
    ¬ Circuit.Satisfied c (none : Circuit α) := fun h => h

theorem Circuit.bind_eq {α β : Type} (x : Circuit α) (f : α → Circuit β) :
    (x >>= f) = Circuit.bind x f := rfl

/-- Two checks in sequence are satisfied exactly when both are. -/
theorem Circuit.satisfied_seq {β : Type} (c : Curve) (x : Circuit Unit) (y : Circuit β) :
    Circuit.Satisfied c (x >>= fun _ => y) ↔ Circuit.Satisfied c x ∧ Circuit.Satisfied c y := by
  rcases x with _ | ⟨⟨⟩, cs⟩
  · simp [Circuit.bind_eq, Circuit.bind, Circuit.Satisfied]
  · rcases y with _ | ⟨b, ds⟩
    · simp [Circuit.bind_eq, Circuit.bind, Circuit.Satisfied]
    · simp only [Circuit.bind_eq, Circuit.bind, Circuit.Satisfied, List.mem_append]
      constructor
      · intro h
        exact ⟨fun k hk => h k (Or.inl hk), fun k hk => h k (Or.inr hk)⟩
      · rintro ⟨h1, h2⟩ k (hk | hk)
        · exact h1 k hk
        · exact h2 k hk

theorem model.additiveCurve_lawful (params : CurveParams) :
    Curve.Lawful { model.additiveCurve with Params := params } := by
  refine ⟨Fr × Fr, inferInstance, fun a => { X := a.1, Y := a.2 }, ?_, ?_, ?_, ?_, ?_⟩
  · intro a b h
    cases a; cases b
    simp only [Point.mk.injEq] at h
    simp [h.1, h.2]
  · intro P
    constructor
    · intro _
      exact ⟨(P.X, P.Y), rfl⟩
    · intro _
      rfl
  · intro a b
    rfl
  · intro a
    rfl
  · intro a s
    show ({ X := s * a.1, Y := s * a.2 } : Point) = _
    have h1 : (s.val • a).1 = s * a.1 := by
      rw [Prod.smul_fst, nsmul_eq_mul, ZMod.natCast_zmod_val]
    have h2 : (s.val • a).2 = s * a.2 := by
      rw [Prod.smul_snd, nsmul_eq_mul, ZMod.natCast_zmod_val]
    show _ = ({ X := (s.val • a).1, Y := (s.val • a).2 } : Point)
    rw [h1, h2]

/-- The point `curve.Params().Base` of the wrapper `NewBjWrapper` builds is its `base8`. -/
theorem babyjub.NewBjWrapper_base (curve : Curve) :
    ({ X := ((NewBjWrapper curve).Curve.Params.Base.1 : Fr),
       Y := ((NewBjWrapper curve).Curve.Params.Base.2 : Fr) } : Point)
      = (NewBjWrapper curve).base8 := rfl

theorem babyjub.MulWithBasePoint_New (curve : Curve) (s : Fr) :
    (NewBjWrapper curve).MulWithBasePoint s
      = (NewBjWrapper curve).Curve.ScalarMul (NewBjWrapper curve).base8 s := rfl

theorem babyjub.NewBjWrapper_order (curve : Curve) :
    (NewBjWrapper curve).BasePointOrder
      = 2736030358979909402780800718157159386076813972158567259200215660948447373041 := rfl

theorem babyjub.NewBjWrapper_order_le (curve : Curve) :
    (NewBjWrapper curve).BasePointOrder ≤ frontend.modulus := by
  rw [babyjub.NewBjWrapper_order]; decide

theorem babyjub.NewBjWrapper_order_pos (curve : Curve) :
    0 < (NewBjWrapper curve).BasePointOrder := by
  rw [babyjub.NewBjWrapper_order]; decide

theorem babyjub.ElGamalEncrypt_eq (bj : BjWrapper) (publicKey msg : Point) (random : Fr) :
    bj.ElGamalEncrypt publicKey msg random
      = some ((bj.Curve.ScalarMul bj.base8 random,
                bj.Curve.Add (bj.Curve.ScalarMul publicKey random) msg),
              [.AssertIsOnCurve (bj.Curve.ScalarMul publicKey random)]) := rfl

theorem babyjub.ElGamalDecrypt_eq (bj : BjWrapper) (c1 c2 : Fr × Fr) (secretKey : Fr) :
    bj.ElGamalDecrypt c1 c2 secretKey
      = some (bj.Curve.Add (bj.Curve.Neg (bj.Curve.ScalarMul { X := c1.1, Y := c1.2 } secretKey))
                { X := c2.1, Y := c2.2 },
              [.AssertIsOnCurve (bj.Curve.ScalarMul { X := c1.1, Y := c1.2 } secretKey),
               .AssertIsOnCurve
                 (bj.Curve.Add (bj.Curve.Neg (bj.Curve.ScalarMul { X := c1.1, Y := c1.2 } secretKey))
                   { X := c2.1, Y := c2.2 }),
               .AssertIsOnCurve
                 (bj.Curve.Neg (bj.Curve.ScalarMul { X := c1.1, Y := c1.2 } secretKey))]) := rfl

theorem babyjub.AssertPoint_eq (bj : BjWrapper) (p1 : Point) (x y : Fr) :
    bj.AssertPoint p1 x y
      = some ((), [.AssertIsOnCurve p1, .AssertIsOnCurve { X := x, Y := y },
                   .AssertIsEqual p1.X x, .AssertIsEqual p1.Y y]) := rfl

/-- C1. ElGamal round trip: over a lawful curve gadget, for every private key `sk` with
`pk = MulWithBasePoint(sk)`, every message point `m` on the curve and every randomness `r`,
`ElGamalDecrypt(ElGamalEncrypt(pk, m, r), sk)` returns the point `m` itself, and every
on-curve assertion the two operations record holds. -/
theorem C1_elgamal_round_trip (curve : Curve) (sk r : Fr) (m : Point)
    (hlaw : (NewBjWrapper curve).Curve.Lawful)
    (hbase : (NewBjWrapper curve).Curve.IsOnCurve (NewBjWrapper curve).base8)
    (hm : (NewBjWrapper curve).Curve.IsOnCurve m) :
    Circuit.result
        ((NewBjWrapper curve).ElGamalEncrypt ((NewBjWrapper curve).MulWithBasePoint sk) m r >>=
          fun ct => (NewBjWrapper curve).ElGamalDecrypt (ct.1.X, ct.1.Y) (ct.2.X, ct.2.Y) sk)
      = some m ∧
    Circuit.Satisfied (NewBjWrapper curve).Curve
        ((NewBjWrapper curve).ElGamalEncrypt ((NewBjWrapper curve).MulWithBasePoint sk) m r >>=
          fun ct => (NewBjWrapper curve).ElGamalDecrypt (ct.1.X, ct.1.Y) (ct.2.X, ct.2.Y) sk) := by
  obtain ⟨G, inst, φ, _, hon, hadd, hneg, hsmul⟩ := hlaw
  obtain ⟨g, hg⟩ := (hon _).1 hbase
  obtain ⟨μ, hμ⟩ := (hon _).1 hm
  have hcomm : r.val • sk.val • g = sk.val • r.val • g := smul_comm _ _ _
  have hdec : -(sk.val • r.val • g) + (r.val • sk.val • g + μ) = μ := by
    rw [hcomm]; abel
  simp only [babyjub.ElGamalEncrypt_eq, babyjub.ElGamalDecrypt_eq, Circuit.bind_eq, Circuit.bind,
    Circuit.result, Circuit.Satisfied, babyjub.MulWithBasePoint_New, ← hg, ← hμ, hsmul, hadd,
    hneg, hdec, List.mem_append, List.mem_cons, List.mem_singleton, List.not_mem_nil, or_false,
    true_and]
  rintro k (rfl | rfl | rfl | rfl) <;> exact (hon _).2 ⟨_, rfl⟩

/-- The round trip at private key `7`, message `(3, 4)` and randomness `11`, over the
additive backend. -/
theorem C1_elgamal_round_trip_witness :
    Circuit.result
        ((NewBjWrapper model.additiveCurve).ElGamalEncrypt
            ((NewBjWrapper model.additiveCurve).MulWithBasePoint 7) { X := 3, Y := 4 } 11 >>=
          fun ct => (NewBjWrapper model.additiveCurve).ElGamalDecrypt
            (ct.1.X, ct.1.Y) (ct.2.X, ct.2.Y) 7)
      = some { X := 3, Y := 4 } ∧
    Circuit.Satisfied (NewBjWrapper model.additiveCurve).Curve
        ((NewBjWrapper model.additiveCurve).ElGamalEncrypt
            ((NewBjWrapper model.additiveCurve).MulWithBasePoint 7) { X := 3, Y := 4 } 11 >>=
          fun ct => (NewBjWrapper model.additiveCurve).ElGamalDecrypt
            (ct.1.X, ct.1.Y) (ct.2.X, ct.2.Y) 7) :=
  C1_elgamal_round_trip model.additiveCurve 7 11 { X := 3, Y := 4 }
    (model.additiveCurve_lawful _) rfl rfl

namespace poseidon

theorem padLoop_of_dvd (d : Nat) (h : d % 3 = 0) : padLoop d = d := by
  rw [padLoop]; simp [h]

theorem padLoop_step (d : Nat) (h : d % 3 ≠ 0) : padLoop d = padLoop (d + 1) := by
  rw [padLoop]; simp [h]

/-- The padding loop returns the least multiple of three that is not below its input. -/
theorem padLoop_eq (d : Nat) : padLoop d = d + (3 - d % 3) % 3 := by
  have h3 : d % 3 = 0 ∨ d % 3 = 1 ∨ d % 3 = 2 := by omega
  rcases h3 with h | h | h
  · rw [padLoop_of_dvd d h]; omega
  · rw [padLoop_step d (by omega), padLoop_step (d + 1) (by omega),
      padLoop_of_dvd (d + 1 + 1) (by omega)]; omega
  · rw [padLoop_step d (by omega), padLoop_of_dvd (d + 1) (by omega)]; omega

theorem padLoop_one : padLoop 1 = 3 := by rw [padLoop_eq]

/-- The run of `PoseidonDecryptSingle` when the two permutation calls return four elements. -/
theorem PoseidonDecryptSingle_eq (pos : Primitives) (k0 k1 nonce : Fr) (ct : Fin 4 → Fr)
    (s0 s1 s2 s3 t0 t1 t2 t3 : Fr)
    (hS :
      pos.PoseidonEx [k0, k1, nonce + 1 * ((340282366920938463463374607431768211456 : Nat) : Fr)] 0 4
        = [s0, s1, s2, s3])
    (hT : pos.PoseidonEx [ct 0, ct 1, ct 2] s0 4 = [t0, t1, t2, t3]) :
    PoseidonDecryptSingle pos (k0, k1) nonce ct
      = some ([ct 0 - s1],
          [.AssertIsLessOrEqual nonce (((340282366920938463463374607431768211456 : Nat) : Fr) - 1),
           .AssertIsEqual (ct 1 - s2) 0,
           .AssertIsEqual (ct 2 - s3) 0,
           .AssertIsEqual (ct 3) t1]) := by
  unfold PoseidonDecryptSingle poseidonDecrypt
  simp only [padLoop_one]
  simp only [one_mul, Nat.cast_ofNat] at hS
  simp [Circuit.bind_eq, Circuit.bind, blockLoop, subtractBlock, absorbBlock, assertPadding,
    index, assign, slice, api.Sub, api.Add, api.Mul, api.AssertIsEqual, api.AssertIsLessOrEqual,
    hS, hT, List.range_succ, List.range'_succ, List.ofFn_succ, pure]
  rfl

end poseidon

namespace circuits

/-- The value of the bound `api.Sub(bj.BasePointOrder, 1)` of the wrapper `NewBjWrapper` builds. -/
theorem order_sub_one_val (curve : Curve) :
    (api.Sub ((NewBjWrapper curve).BasePointOrder : Fr) 1).val
      = (NewBjWrapper curve).BasePointOrder - 1 := by
  show (api.Sub ((2736030358979909402780800718157159386076813972158567259200215660948447373041 :
    Nat) : Fr) 1).val = 2736030358979909402780800718157159386076813972158567259200215660948447373041 - 1
  decide

theorem CheckPublicKey_eq {α : Type} [KeyHolder α] (bj : BjWrapper) (keyHolder : α) :
    CheckPublicKey bj keyHolder
      = some ((),
          [.AssertIsLessOrEqual (KeyHolder.GetPrivateKey keyHolder)
              (api.Sub (bj.BasePointOrder : Fr) 1),
           .AssertIsOnCurve (bj.MulWithBasePoint (KeyHolder.GetPrivateKey keyHolder)),
           .AssertIsOnCurve
              { X := KeyHolder.GetPublicKeyX keyHolder, Y := KeyHolder.GetPublicKeyY keyHolder },
           .AssertIsEqual (bj.MulWithBasePoint (KeyHolder.GetPrivateKey keyHolder)).X
              (KeyHolder.GetPublicKeyX keyHolder),
           .AssertIsEqual (bj.MulWithBasePoint (KeyHolder.GetPrivateKey keyHolder)).Y
              (KeyHolder.GetPublicKeyY keyHolder)]) := rfl

/-- `CheckPublicKey` is satisfied exactly when the private key is in range and the
public key is the on-curve point the private key generates. -/
theorem CheckPublicKey_satisfied_iff {α : Type} [KeyHolder α] (bj : BjWrapper) (keyHolder : α) :
    (CheckPublicKey bj keyHolder).Satisfied bj.Curve ↔
      (KeyHolder.GetPrivateKey keyHolder).val ≤ (api.Sub (bj.BasePointOrder : Fr) 1).val ∧
      bj.Curve.IsOnCurve (bj.MulWithBasePoint (KeyHolder.GetPrivateKey keyHolder)) ∧
      bj.MulWithBasePoint (KeyHolder.GetPrivateKey keyHolder)
        = { X := KeyHolder.GetPublicKeyX keyHolder, Y := KeyHolder.GetPublicKeyY keyHolder } := by
  rw [CheckPublicKey_eq, Circuit.satisfied_some]
  simp only [List.forall_mem_cons, List.not_mem_nil, Constraint.Holds]
  constructor
  · rintro ⟨h1, h2, -, h4, h5, -⟩
    refine ⟨h1, h2, ?_⟩
    cases hp : bj.MulWithBasePoint (KeyHolder.GetPrivateKey keyHolder)
    rw [hp] at h4 h5
    simp only at h4 h5
    rw [h4, h5]
  · rintro ⟨h1, h2, h3⟩
    refine ⟨h1, h2, ?_, ?_, ?_, ?_⟩
    · rw [← h3]; exact h2
    · rw [h3]
    · rw [h3]
    · intro x hx; exact absurd hx (by simp)

/-- Below the order of the base point, the scalar determines the multiple of the base point. -/
theorem scalarMul_injective_below (c : Curve) (P : Point) (l : Nat)
    (hlaw : c.Lawful) (hP : c.IsOnCurve P) (hord : c.OrderAtLeast P l) (hl : l ≤ frontend.modulus)
    (s t : Fr) (hs : s.val < l) (ht : t.val < l)
    (h : c.ScalarMul P s = c.ScalarMul P t) : s = t := by
  obtain ⟨G, inst, φ, hinj, hon, hadd, hneg, hsmul⟩ := hlaw
  obtain ⟨g, rfl⟩ := (hon _).1 hP
  have key : ∀ a b : Fr, a.val ≤ b.val → b.val < l → a.val • g = b.val • g → a = b := by
    intro a b hab hb hg
    by_contra hne
    have hlt : a.val < b.val := by
      rcases Nat.lt_or_ge a.val b.val with h | h
      · exact h
      · exact absurd (ZMod.val_injective _ (le_antisymm hab h)) hne
    have hd : (b.val - a.val) • g = 0 := by
      have h1 : b.val • g = (b.val - a.val) • g + a.val • g := by
        rw [← add_smul]; congr 1; omega
      rw [← hg] at h1
      exact (add_left_eq_self.mp h1.symm)
    have hdlt : b.val - a.val < frontend.modulus := by omega
    have hval : ((b.val - a.val : Nat) : Fr).val = b.val - a.val := ZMod.val_natCast_of_lt hdlt
    have hne0 : ((b.val - a.val : Nat) : Fr) ≠ 0 := by
      intro h0
      rw [h0, ZMod.val_zero] at hval
      omega
    apply hord _ hne0 (by rw [hval]; omega)
    rw [hsmul, hsmul, hval, hd, ZMod.val_zero, zero_smul]
  rw [hsmul, hsmul] at h
  have hg := hinj h
  rcases Nat.le_total s.val t.val with hst | hst
  · exact key s t hst ht hg
  · exact (key t s hst hs hg.symm).symm

end circuits

namespace model

theorem bj_lawful : bj.Curve.Lawful := additiveCurve_lawful _

theorem bj_base : bj.Curve.IsOnCurve bj.base8 := rfl

/-- The base point has order at least `BasePointOrder` in the additive backend: its
first coordinate is invertible. -/
theorem bj_order : bj.Curve.OrderAtLeast bj.base8 bj.BasePointOrder := by
  intro s hs _ h
  apply hs
  have hx : s * bj.base8.X = 0 * bj.base8.X := congrArg Point.X h
  have hu : bj.base8.X *
      (5022248055885445985249691643713121992048579170861714009615710763768504146004 : Fr) = 1 := by
    decide
  calc s = s * (bj.base8.X *
        (5022248055885445985249691643713121992048579170861714009615710763768504146004 : Fr)) := by
        rw [hu, mul_one]
    _ = (s * bj.base8.X) *
        (5022248055885445985249691643713121992048579170861714009615710763768504146004 : Fr) := by
        ring
    _ = 0 := by rw [hx]; ring

end model

namespace circuits

/-- C2. Key consistency binds the key pair: over a lawful curve gadget whose base point has
order at least `BasePointOrder`, for `sk <= order - 1` and `pk = sk * G`, `CheckPublicKey`
is satisfied on `(sk, pk)` and on no `(sk', pk)` with `sk' ≠ sk`; a private key
`sk' >= order` fails the recorded range assertion `sk' <= order - 1`. -/
theorem C2_key_consistency_binds {α : Type} [KeyHolder α] (curve : Curve) (keyHolder : α)
    (hlaw : (NewBjWrapper curve).Curve.Lawful)
    (hbase : (NewBjWrapper curve).Curve.IsOnCurve (NewBjWrapper curve).base8)
    (hord : (NewBjWrapper curve).Curve.OrderAtLeast (NewBjWrapper curve).base8
      (NewBjWrapper curve).BasePointOrder)
    (hsk : (KeyHolder.GetPrivateKey keyHolder).val ≤ (NewBjWrapper curve).BasePointOrder - 1)
    (hpk : (NewBjWrapper curve).MulWithBasePoint (KeyHolder.GetPrivateKey keyHolder)
      = { X := KeyHolder.GetPublicKeyX keyHolder, Y := KeyHolder.GetPublicKeyY keyHolder }) :
    (CheckPublicKey (NewBjWrapper curve) keyHolder).Satisfied (NewBjWrapper curve).Curve ∧
    (∀ other : α,
      KeyHolder.GetPublicKeyX other = KeyHolder.GetPublicKeyX keyHolder →
      KeyHolder.GetPublicKeyY other = KeyHolder.GetPublicKeyY keyHolder →
      KeyHolder.GetPrivateKey other ≠ KeyHolder.GetPrivateKey keyHolder →
      ¬ (CheckPublicKey (NewBjWrapper curve) other).Satisfied (NewBjWrapper curve).Curve) ∧
    (∀ other : α,
      (NewBjWrapper curve).BasePointOrder ≤ (KeyHolder.GetPrivateKey other).val →
      Constraint.AssertIsLessOrEqual (KeyHolder.GetPrivateKey other)
          (api.Sub ((NewBjWrapper curve).BasePointOrder : Fr) 1)
        ∈ (CheckPublicKey (NewBjWrapper curve) other).constraints ∧
      ¬ Constraint.Holds (NewBjWrapper curve).Curve
        (.AssertIsLessOrEqual (KeyHolder.GetPrivateKey other)
          (api.Sub ((NewBjWrapper curve).BasePointOrder : Fr) 1))) := by
  have hl : (NewBjWrapper curve).BasePointOrder ≤ frontend.modulus :=
    babyjub.NewBjWrapper_order_le curve
  have hpos : 0 < (NewBjWrapper curve).BasePointOrder := babyjub.NewBjWrapper_order_pos curve
  have hon : ∀ s, (NewBjWrapper curve).Curve.IsOnCurve ((NewBjWrapper curve).MulWithBasePoint s) := by
    intro s
    obtain ⟨G, inst, φ, _, hon, _, _, hsmul⟩ := hlaw
    obtain ⟨g, hg⟩ := (hon _).1 hbase
    rw [babyjub.MulWithBasePoint_New, ← hg, hsmul]
    exact (hon _).2 ⟨_, rfl⟩
  refine ⟨?_, ?_, ?_⟩
  · rw [CheckPublicKey_satisfied_iff, order_sub_one_val]
    exact ⟨hsk, hon _, hpk⟩
  · intro other hx hy hne hsat
    rw [CheckPublicKey_satisfied_iff, order_sub_one_val] at hsat
    obtain ⟨h1, -, h3⟩ := hsat
    apply hne
    rw [hx, hy, ← hpk, babyjub.MulWithBasePoint_New, babyjub.MulWithBasePoint_New] at h3
    exact scalarMul_injective_below _ _ _ hlaw hbase hord hl _ _ (by omega) (by omega) h3
  · intro other hge
    refine ⟨by rw [CheckPublicKey_eq]; exact List.mem_cons_self _ _, ?_⟩
    show ¬ _ ≤ _
    rw [order_sub_one_val]
    omega

/-- Key consistency at the sender with private key `7`, over the additive backend. -/
theorem C2_key_consistency_binds_witness :
    (CheckPublicKey model.bj model.sender).Satisfied model.bj.Curve ∧
    (∀ other : Sender,
      KeyHolder.GetPublicKeyX other = KeyHolder.GetPublicKeyX model.sender →
      KeyHolder.GetPublicKeyY other = KeyHolder.GetPublicKeyY model.sender →
      KeyHolder.GetPrivateKey other ≠ KeyHolder.GetPrivateKey model.sender →
      ¬ (CheckPublicKey model.bj other).Satisfied model.bj.Curve) ∧
    (∀ other : Sender,
      model.bj.BasePointOrder ≤ (KeyHolder.GetPrivateKey other).val →
      Constraint.AssertIsLessOrEqual (KeyHolder.GetPrivateKey other)
          (api.Sub (model.bj.BasePointOrder : Fr) 1)
        ∈ (CheckPublicKey model.bj other).constraints ∧
      ¬ Constraint.Holds model.bj.Curve
        (.AssertIsLessOrEqual (KeyHolder.GetPrivateKey other)
          (api.Sub (model.bj.BasePointOrder : Fr) 1))) :=
  C2_key_consistency_binds model.additiveCurve model.sender model.bj_lawful model.bj_base
    model.bj_order (by decide) rfl

theorem CheckBalance_eq (bj : BjWrapper) (sender : Sender) :
    CheckBalance bj sender
      = some ((),
          [.AssertIsLessOrEqual sender.Balance (api.Sub (bj.BasePointOrder : Fr) 1),
           .AssertIsOnCurve (bj.Curve.ScalarMul sender.BalanceEGCT.C1 sender.PrivateKey),
           .AssertIsOnCurve
              (bj.Curve.Add (bj.Curve.Neg (bj.Curve.ScalarMul sender.BalanceEGCT.C1 sender.PrivateKey))
                sender.BalanceEGCT.C2),
           .AssertIsOnCurve (bj.Curve.Neg (bj.Curve.ScalarMul sender.BalanceEGCT.C1 sender.PrivateKey)),
           .AssertIsOnCurve (bj.MulWithBasePoint sender.Balance),
           .AssertIsOnCurve
              (bj.Curve.Add (bj.Curve.Neg (bj.Curve.ScalarMul sender.BalanceEGCT.C1 sender.PrivateKey))
                sender.BalanceEGCT.C2),
           .AssertIsEqual (bj.MulWithBasePoint sender.Balance).X
              (bj.Curve.Add (bj.Curve.Neg (bj.Curve.ScalarMul sender.BalanceEGCT.C1 sender.PrivateKey))
                sender.BalanceEGCT.C2).X,
           .AssertIsEqual (bj.MulWithBasePoint sender.Balance).Y
              (bj.Curve.Add (bj.Curve.Neg (bj.Curve.ScalarMul sender.BalanceEGCT.C1 sender.PrivateKey))
                sender.BalanceEGCT.C2).Y]) := rfl

theorem Point.ext_iff' (p q : Point) : p = q ↔ p.X = q.X ∧ p.Y = q.Y := by
  cases p; cases q; simp

/-- `CheckBalance` on points of the curve: the range assertion and the decryption equation. -/
theorem CheckBalance_satisfied_iff (curve : Curve) (sender : Sender)
    (hlaw : (NewBjWrapper curve).Curve.Lawful)
    (hbase : (NewBjWrapper curve).Curve.IsOnCurve (NewBjWrapper curve).base8)
    (h1 : (NewBjWrapper curve).Curve.IsOnCurve sender.BalanceEGCT.C1)
    (h2 : (NewBjWrapper curve).Curve.IsOnCurve sender.BalanceEGCT.C2) :
    (CheckBalance (NewBjWrapper curve) sender).Satisfied (NewBjWrapper curve).Curve ↔
      sender.Balance.val ≤ (NewBjWrapper curve).BasePointOrder - 1 ∧
      sender.BalanceEGCT.C2
        = (NewBjWrapper curve).Curve.Add
            ((NewBjWrapper curve).Curve.ScalarMul sender.BalanceEGCT.C1 sender.PrivateKey)
            ((NewBjWrapper curve).MulWithBasePoint sender.Balance) := by
  obtain ⟨G, inst, φ, hinj, hon, hadd, hneg, hsmul⟩ := hlaw
  obtain ⟨g, hg⟩ := (hon _).1 hbase
  obtain ⟨a, ha⟩ := (hon _).1 h1
  obtain ⟨b, hb⟩ := (hon _).1 h2
  rw [CheckBalance_eq, Circuit.satisfied_some]
  simp only [List.forall_mem_cons, List.not_mem_nil, Constraint.Holds, order_sub_one_val,
    babyjub.MulWithBasePoint_New, ← hg, ← ha, ← hb, hsmul, hadd, hneg, hinj.eq_iff]
  have hon' : ∀ x, (NewBjWrapper curve).Curve.IsOnCurve (φ x) := fun x => (hon _).2 ⟨x, rfl⟩
  constructor
  · rintro ⟨hr, -, -, -, -, -, hX, hY, -⟩
    refine ⟨hr, ?_⟩
    have he := hinj ((Point.ext_iff' _ _).2 ⟨hX, hY⟩)
    rw [he]; abel
  · rintro ⟨hr, he⟩
    have he' : sender.Balance.val • g = -(sender.PrivateKey.val • a) + b := by
      rw [he]; abel
    refine ⟨hr, hon' _, hon' _, hon' _, hon' _, hon' _, ?_, ?_, ?_⟩
    · rw [he']
    · rw [he']
    · intro x hx; exact absurd hx id

/-- C3 (as stated, refuted). The sender `model.overflowSender` holds the ElGamal
encryption, under its own key and with randomness `0`, of `Balance * G` for its
`Balance`, the order of the base point; `CheckBalance` is not satisfied on it, because
the range assertion `Balance <= order - 1` fails. -/
theorem C3_counterexample :
    ¬ ((CheckBalance model.bj model.overflowSender).Satisfied model.bj.Curve ↔
        ∃ r : Fr,
          model.overflowSender.BalanceEGCT.C1 = model.bj.Curve.ScalarMul model.bj.base8 r ∧
          model.overflowSender.BalanceEGCT.C2
            = model.bj.Curve.Add
                (model.bj.Curve.ScalarMul model.overflowSender.PublicKey.P r)
                (model.bj.MulWithBasePoint model.overflowSender.Balance)) := by
  intro h
  have hsat := h.2 ⟨0, rfl, rfl⟩
  rw [CheckBalance_eq, Circuit.satisfied_some] at hsat
  have hrange := hsat _ (List.mem_cons_self _ _)
  revert hrange
  show ¬ ((model.bj.BasePointOrder : Fr).val ≤ (api.Sub (model.bj.BasePointOrder : Fr) 1).val)
  decide

/-- C3 (amended). For a lawful curve gadget: on a ciphertext of curve points,
`CheckBalance` is satisfied exactly when `Balance <= order - 1` and
`C2 = PrivateKey * C1 + Balance * G`; in particular it is satisfied by every ElGamal
encryption `(r * G, r * pk + Balance * G)` under the sender's own key `pk = PrivateKey * G`
of a balance with `Balance <= order - 1`. -/
theorem C3_check_balance (curve : Curve) (sender : Sender)
    (hlaw : (NewBjWrapper curve).Curve.Lawful)
    (hbase : (NewBjWrapper curve).Curve.IsOnCurve (NewBjWrapper curve).base8) :
    ((NewBjWrapper curve).Curve.IsOnCurve sender.BalanceEGCT.C1 →
      (NewBjWrapper curve).Curve.IsOnCurve sender.BalanceEGCT.C2 →
      ((CheckBalance (NewBjWrapper curve) sender).Satisfied (NewBjWrapper curve).Curve ↔
        sender.Balance.val ≤ (NewBjWrapper curve).BasePointOrder - 1 ∧
        sender.BalanceEGCT.C2
          = (NewBjWrapper curve).Curve.Add
              ((NewBjWrapper curve).Curve.ScalarMul sender.BalanceEGCT.C1 sender.PrivateKey)
              ((NewBjWrapper curve).MulWithBasePoint sender.Balance))) ∧
    (∀ r : Fr,
      sender.Balance.val ≤ (NewBjWrapper curve).BasePointOrder - 1 →
      sender.PublicKey.P = (NewBjWrapper curve).MulWithBasePoint sender.PrivateKey →
      sender.BalanceEGCT.C1 = (NewBjWrapper curve).Curve.ScalarMul (NewBjWrapper curve).base8 r →
      sender.BalanceEGCT.C2
        = (NewBjWrapper curve).Curve.Add
            ((NewBjWrapper curve).Curve.ScalarMul sender.PublicKey.P r)
            ((NewBjWrapper curve).MulWithBasePoint sender.Balance) →
      (CheckBalance (NewBjWrapper curve) sender).Satisfied (NewBjWrapper curve).Curve) := by
  refine ⟨fun h1 h2 => CheckBalance_satisfied_iff curve sender hlaw hbase h1 h2, ?_⟩
  intro r hr hpk hc1 hc2
  obtain ⟨G, inst, φ, hinj, hon, hadd, hneg, hsmul⟩ := id hlaw
  obtain ⟨g, hg⟩ := (hon _).1 hbase
  have e1 : sender.BalanceEGCT.C1 = φ (r.val • g) := by rw [hc1, ← hg, hsmul]
  have e2 : sender.BalanceEGCT.C2
      = φ (r.val • sender.PrivateKey.val • g + sender.Balance.val • g) := by
    rw [hc2, hpk, babyjub.MulWithBasePoint_New, babyjub.MulWithBasePoint_New, ← hg, hsmul,
      hsmul, hsmul, hadd]
  rw [CheckBalance_satisfied_iff curve sender hlaw hbase ((hon _).2 ⟨_, e1.symm⟩)
    ((hon _).2 ⟨_, e2.symm⟩)]
  refine ⟨hr, ?_⟩
  rw [e2, e1, babyjub.MulWithBasePoint_New, ← hg, hsmul, hsmul, hadd,
    smul_comm r.val sender.PrivateKey.val g]

/-- The balance check at the sender with balance `100`, over the additive backend. -/
theorem C3_check_balance_witness :
    (model.bj.Curve.IsOnCurve model.sender.BalanceEGCT.C1 →
      model.bj.Curve.IsOnCurve model.sender.BalanceEGCT.C2 →
      ((CheckBalance model.bj model.sender).Satisfied model.bj.Curve ↔
        model.sender.Balance.val ≤ model.bj.BasePointOrder - 1 ∧
        model.sender.BalanceEGCT.C2
          = model.bj.Curve.Add
              (model.bj.Curve.ScalarMul model.sender.BalanceEGCT.C1 model.sender.PrivateKey)
              (model.bj.MulWithBasePoint model.sender.Balance))) ∧
    (∀ r : Fr,
      model.sender.Balance.val ≤ model.bj.BasePointOrder - 1 →
      model.sender.PublicKey.P = model.bj.MulWithBasePoint model.sender.PrivateKey →
      model.sender.BalanceEGCT.C1 = model.bj.Curve.ScalarMul model.bj.base8 r →
      model.sender.BalanceEGCT.C2
        = model.bj.Curve.Add
            (model.bj.Curve.ScalarMul model.sender.PublicKey.P r)
            (model.bj.MulWithBasePoint model.sender.Balance) →
      (CheckBalance model.bj model.sender).Satisfied model.bj.Curve) :=
  C3_check_balance model.additiveCurve model.sender model.bj_lawful model.bj_base

theorem satisfied_AssertIsLessOrEqual (c : Curve) (v bound : Fr) :
    (api.AssertIsLessOrEqual v bound).Satisfied c ↔ v.val ≤ bound.val := by
  show (∀ k ∈ [Constraint.AssertIsLessOrEqual v bound], k.Holds c) ↔ _
  simp [Constraint.Holds]

theorem satisfied_AssertIsEqual (c : Curve) (i1 i2 : Fr) :
    (api.AssertIsEqual i1 i2).Satisfied c ↔ i1 = i2 := by
  show (∀ k ∈ [Constraint.AssertIsEqual i1 i2], k.Holds c) ↔ _
  simp [Constraint.Holds]

/-- C4. A transfer of more than the balance is never satisfied: when the canonical integer
of `ValueToTransfer` exceeds that of `Sender.Balance`, the Transfer circuit is unsatisfied,
whatever the other fields of the witness, the curve gadget and the permutation are. -/
theorem C4_transfer_over_balance_unsatisfied (curve : Curve) (pos : poseidon.Primitives)
    (circuit : TransferCircuit)
    (h : circuit.Sender.Balance.val < circuit.ValueToTransfer.val) :
    ¬ (TransferCircuit.Define curve pos circuit).Satisfied (NewBjWrapper curve).Curve := by
  unfold TransferCircuit.Define
  rw [Circuit.satisfied_seq, satisfied_AssertIsLessOrEqual]
  intro hsat
  omega

/-- The transfer of `150` from a balance of `100` is unsatisfied. -/
theorem C4_transfer_over_balance_unsatisfied_witness :
    ¬ (TransferCircuit.Define model.additiveCurve model.swapPrimitives model.overdraft).Satisfied
        (NewBjWrapper model.additiveCurve).Curve :=
  C4_transfer_over_balance_unsatisfied model.additiveCurve model.swapPrimitives model.overdraft
    (by decide)

/-- `Register` is `CheckPublicKey` followed by `CheckRegistrationHash`. -/
theorem RegistrationCircuit.satisfied_iff (curve : Curve) (pos : poseidon.Primitives)
    (circuit : RegistrationCircuit) :
    (RegistrationCircuit.Define curve pos circuit).Satisfied (NewBjWrapper curve).Curve ↔
      (CheckPublicKey (NewBjWrapper curve) circuit.Sender).Satisfied (NewBjWrapper curve).Curve ∧
      (CheckRegistrationHash pos circuit.Sender).Satisfied (NewBjWrapper curve).Curve := by
  unfold RegistrationCircuit.Define
  rw [Circuit.satisfied_seq]

theorem CheckRegistrationHash_satisfied_iff (c : Curve) (pos : poseidon.Primitives)
    (sender : RegistrationSender) :
    (CheckRegistrationHash pos sender).Satisfied c ↔
      pos.Hash3 sender.ChainID sender.PrivateKey sender.Address = sender.RegistrationHash :=
  satisfied_AssertIsEqual c _ _

/-- C5. The Register circuit is satisfied by every witness with `sk <= order - 1`,
`pk = sk * G` and `registrationHash = H3(chainId, sk, address)`; replacing only the
registration hash by a different field element, `registrationHash + 1` for one, makes it
unsatisfied; and Register is satisfied exactly when `CheckPublicKey` and
`CheckRegistrationHash` are. -/
theorem C5_register (curve : Curve) (pos : poseidon.Primitives) (circuit : RegistrationCircuit)
    (hlaw : (NewBjWrapper curve).Curve.Lawful)
    (hbase : (NewBjWrapper curve).Curve.IsOnCurve (NewBjWrapper curve).base8)
    (hsk : circuit.Sender.PrivateKey.val ≤ (NewBjWrapper curve).BasePointOrder - 1)
    (hpk : circuit.Sender.PublicKey.P
      = (NewBjWrapper curve).MulWithBasePoint circuit.Sender.PrivateKey)
    (hhash : circuit.Sender.RegistrationHash
      = pos.Hash3 circuit.Sender.ChainID circuit.Sender.PrivateKey circuit.Sender.Address) :
    (RegistrationCircuit.Define curve pos circuit).Satisfied (NewBjWrapper curve).Curve ∧
    (∀ altered : Fr, altered ≠ circuit.Sender.RegistrationHash →
      ¬ (RegistrationCircuit.Define curve pos
          { Sender := { circuit.Sender with RegistrationHash := altered } }).Satisfied
        (NewBjWrapper curve).Curve) ∧
    ¬ (RegistrationCircuit.Define curve pos
        { Sender := { circuit.Sender with
            RegistrationHash := circuit.Sender.RegistrationHash + 1 } }).Satisfied
      (NewBjWrapper curve).Curve ∧
    (∀ other : RegistrationCircuit,
      (RegistrationCircuit.Define curve pos other).Satisfied (NewBjWrapper curve).Curve ↔
        (CheckPublicKey (NewBjWrapper curve) other.Sender).Satisfied (NewBjWrapper curve).Curve ∧
        (CheckRegistrationHash pos other.Sender).Satisfied (NewBjWrapper curve).Curve) := by
  have halt : ∀ altered : Fr, altered ≠ circuit.Sender.RegistrationHash →
      ¬ (RegistrationCircuit.Define curve pos
          { Sender := { circuit.Sender with RegistrationHash := altered } }).Satisfied
        (NewBjWrapper curve).Curve := by
    intro altered hne hsat
    rw [RegistrationCircuit.satisfied_iff, CheckRegistrationHash_satisfied_iff] at hsat
    exact hne (hsat.2.symm.trans hhash.symm)
  have hone : circuit.Sender.RegistrationHash + 1 ≠ circuit.Sender.RegistrationHash := by
    intro h
    have h1 : (1 : Fr) = 0 := add_left_cancel (h.trans (add_zero _).symm)
    revert h1
    decide
  refine ⟨?_, halt, halt _ hone, fun other => RegistrationCircuit.satisfied_iff curve pos other⟩
  · rw [RegistrationCircuit.satisfied_iff, CheckRegistrationHash_satisfied_iff,
      CheckPublicKey_satisfied_iff, order_sub_one_val]
    refine ⟨⟨hsk, ?_, hpk.symm⟩, hhash.symm⟩
    obtain ⟨G, inst, φ, _, hon, _, _, hsmul⟩ := hlaw
    obtain ⟨g, hg⟩ := (hon _).1 hbase
    rw [babyjub.MulWithBasePoint_New, ← hg, hsmul]
    exact (hon _).2 ⟨_, rfl⟩

/-- The Register circuit at `sk = 7`, `chainId = 1`, `address = 10`. -/
theorem C5_register_witness :
    (RegistrationCircuit.Define model.additiveCurve model.swapPrimitives
        { Sender := model.registrationSender }).Satisfied model.bj.Curve ∧
    (∀ altered : Fr, altered ≠ model.registrationSender.RegistrationHash →
      ¬ (RegistrationCircuit.Define model.additiveCurve model.swapPrimitives
          { Sender := { model.registrationSender with RegistrationHash := altered } }).Satisfied
        model.bj.Curve) ∧
    ¬ (RegistrationCircuit.Define model.additiveCurve model.swapPrimitives
        { Sender := { model.registrationSender with
            RegistrationHash := model.registrationSender.RegistrationHash + 1 } }).Satisfied
      model.bj.Curve ∧
    (∀ other : RegistrationCircuit,
      (RegistrationCircuit.Define model.additiveCurve model.swapPrimitives other).Satisfied
          model.bj.Curve ↔
        (CheckPublicKey model.bj other.Sender).Satisfied model.bj.Curve ∧
        (CheckRegistrationHash model.swapPrimitives other.Sender).Satisfied model.bj.Curve) :=
  C5_register model.additiveCurve model.swapPrimitives { Sender := model.registrationSender }
    model.bj_lawful model.bj_base (by decide) rfl rfl

end circuits

namespace poseidon

/-- A list of four elements is the list of its four entries. -/
theorem eq_of_length_four (l : List Fr) (h : l.length = 4) :
    l = [l.getD 0 0, l.getD 1 0, l.getD 2 0, l.getD 3 0] := by
  match l, h with
  | [a, b, c, d], _ => rfl

/-- The constant `two128` of `poseidonDecrypt`. -/
theorem two128_sub_one_val :
    (((340282366920938463463374607431768211456 : Nat) : Fr) - 1).val
      = 340282366920938463463374607431768211456 - 1 := by
  decide

/-- The run of `PoseidonDecryptSingle` for a permutation that returns four elements, in
terms of the two permutation states. -/
theorem PoseidonDecryptSingle_run (pos : Primitives) (key : Fr × Fr) (nonce : Fr)
    (ct : Fin 4 → Fr) (hpos : pos.FourOutputs) :
    PoseidonDecryptSingle pos key nonce ct
      = some ([ct 0 - (initialState pos key nonce).getD 1 0],
          [.AssertIsLessOrEqual nonce (((340282366920938463463374607431768211456 : Nat) : Fr) - 1),
           .AssertIsEqual (ct 1 - (initialState pos key nonce).getD 2 0) 0,
           .AssertIsEqual (ct 2 - (initialState pos key nonce).getD 3 0) 0,
           .AssertIsEqual (ct 3) ((absorbedState pos key nonce (ct 0) (ct 1) (ct 2)).getD 1 0)]) := by
  obtain ⟨k0, k1⟩ := key
  have hS := eq_of_length_four (initialState pos (k0, k1) nonce) (hpos _ _)
  have hT := eq_of_length_four (absorbedState pos (k0, k1) nonce (ct 0) (ct 1) (ct 2)) (hpos _ _)
  exact PoseidonDecryptSingle_eq pos k0 k1 nonce ct _ _ _ _ _ _ _ _ hS hT

/-- When the permutation returns four elements, `PoseidonDecryptSingle` is satisfied exactly
when the nonce is below `2^128`, the two padded slots are zero and the tag matches. -/
theorem PoseidonDecryptSingle_satisfied_iff (c : Curve) (pos : Primitives) (key : Fr × Fr)
    (nonce : Fr) (ct : Fin 4 → Fr) (hpos : pos.FourOutputs) :
    (PoseidonDecryptSingle pos key nonce ct).Satisfied c ↔
      nonce.val < 2 ^ 128 ∧
      ct 1 = (initialState pos key nonce).getD 2 0 ∧
      ct 2 = (initialState pos key nonce).getD 3 0 ∧
      ct 3 = (absorbedState pos key nonce (ct 0) (ct 1) (ct 2)).getD 1 0 := by
  rw [PoseidonDecryptSingle_run pos key nonce ct hpos, Circuit.satisfied_some]
  simp only [List.forall_mem_cons, List.not_mem_nil, Constraint.Holds, two128_sub_one_val,
    sub_eq_zero]
  have h2 : (2 : Nat) ^ 128 = 340282366920938463463374607431768211456 := by norm_num
  constructor
  · rintro ⟨h1, h3, h4, h5, -⟩
    exact ⟨by omega, h3, h4, h5⟩
  · rintro ⟨h1, h3, h4, h5⟩
    exact ⟨by omega, h3, h4, h5, fun _ h => absurd h id⟩

/-- C6. Hybrid encryption round trip: for every key, nonce below `2^128` and value `v`,
`PoseidonDecryptSingle` run on the matching encryption of `v` with the same key and nonce
satisfies every assertion and returns exactly `[v]`. -/
theorem C6_poseidon_round_trip (c : Curve) (pos : Primitives) (key : Fr × Fr) (n v : Fr)
    (hpos : pos.FourOutputs) (hn : n.val < 2 ^ 128) :
    (PoseidonDecryptSingle pos key n (encryptSingle pos key n v)).result = some [v] ∧
    (PoseidonDecryptSingle pos key n (encryptSingle pos key n v)).Satisfied c := by
  constructor
  · rw [PoseidonDecryptSingle_run pos key n _ hpos]
    simp [Circuit.result, encryptSingle]
  · rw [PoseidonDecryptSingle_satisfied_iff c pos key n _ hpos]
    exact ⟨hn, rfl, rfl, rfl⟩

end poseidon

namespace model

theorem swapPrimitives_fourOutputs : swapPrimitives.FourOutputs := by
  intro inputs initialState
  unfold swapPrimitives
  simp only
  split <;> simp

end model

namespace poseidon

/-- The round trip at key `(1, 2)`, nonce `5` and value `42`, with the swap permutation. -/
theorem C6_poseidon_round_trip_witness :
    (PoseidonDecryptSingle model.swapPrimitives (1, 2) 5
        (encryptSingle model.swapPrimitives (1, 2) 5 42)).result = some [42] ∧
    (PoseidonDecryptSingle model.swapPrimitives (1, 2) 5
        (encryptSingle model.swapPrimitives (1, 2) 5 42)).Satisfied model.additiveCurve :=
  C6_poseidon_round_trip model.additiveCurve model.swapPrimitives (1, 2) 5 42
    model.swapPrimitives_fourOutputs (by decide)

end poseidon

namespace babyjub

/-- C8 (as stated, refuted). In the wrapper `NewBjWrapper` builds, the point `base8` used
by `ElGamalEncrypt` is not distinct from the point `curve.Params().Base` used by
`MulWithBasePoint`. -/
theorem C8_counterexample :
    ¬ ((NewBjWrapper model.additiveCurve).base8
        ≠ { X := ((NewBjWrapper model.additiveCurve).Curve.Params.Base.1 : Fr),
            Y := ((NewBjWrapper model.additiveCurve).Curve.Params.Base.2 : Fr) }) :=
  fun h => h rfl

/-- C8 (amended). `ElGamalEncrypt(pk, m, r)` returns `C1 = r * base8` and
`C2 = r * pk + m`, asserting `r * pk` on the curve, and `base8` is the same point as the
generator `curve.Params().Base` that `MulWithBasePoint` multiplies. -/
theorem C8_elgamal_encrypt (curve : Curve) (publicKey msg : Point) (random s : Fr) :
    (NewBjWrapper curve).ElGamalEncrypt publicKey msg random
      = some (((NewBjWrapper curve).Curve.ScalarMul (NewBjWrapper curve).base8 random,
                (NewBjWrapper curve).Curve.Add
                  ((NewBjWrapper curve).Curve.ScalarMul publicKey random) msg),
              [.AssertIsOnCurve ((NewBjWrapper curve).Curve.ScalarMul publicKey random)]) ∧
    (NewBjWrapper curve).base8
      = { X := ((NewBjWrapper curve).Curve.Params.Base.1 : Fr),
          Y := ((NewBjWrapper curve).Curve.Params.Base.2 : Fr) } ∧
    (NewBjWrapper curve).MulWithBasePoint s
      = (NewBjWrapper curve).Curve.ScalarMul (NewBjWrapper curve).base8 s :=
  ⟨rfl, rfl, rfl⟩

end babyjub

namespace circuits

theorem CheckPositiveValue_eq (bj : BjWrapper) (sender : Sender) (value : Fr) :
    CheckPositiveValue bj sender value
      = some ((),
          [.AssertIsLessOrEqual value (api.Sub (bj.BasePointOrder : Fr) 1),
           .AssertIsOnCurve (bj.Curve.ScalarMul sender.ValueEGCT.C1 sender.PrivateKey),
           .AssertIsOnCurve
              (bj.Curve.Add (bj.Curve.Neg (bj.Curve.ScalarMul sender.ValueEGCT.C1 sender.PrivateKey))
                sender.ValueEGCT.C2),
           .AssertIsOnCurve (bj.Curve.Neg (bj.Curve.ScalarMul sender.ValueEGCT.C1 sender.PrivateKey)),
           .AssertIsOnCurve (bj.MulWithBasePoint value),
           .AssertIsOnCurve
              (bj.Curve.Add (bj.Curve.Neg (bj.Curve.ScalarMul sender.ValueEGCT.C1 sender.PrivateKey))
                sender.ValueEGCT.C2),
           .AssertIsEqual (bj.MulWithBasePoint value).X
              (bj.Curve.Add (bj.Curve.Neg (bj.Curve.ScalarMul sender.ValueEGCT.C1 sender.PrivateKey))
                sender.ValueEGCT.C2).X,
           .AssertIsEqual (bj.MulWithBasePoint value).Y
              (bj.Curve.Add (bj.Curve.Neg (bj.Curve.ScalarMul sender.ValueEGCT.C1 sender.PrivateKey))
                sender.ValueEGCT.C2).Y]) := rfl

theorem CheckValue_eq (bj : BjWrapper) (receiver : Receiver) (value : Fr) :
    CheckValue bj receiver value
      = some ((),
          [.AssertIsLessOrEqual value (api.Sub (bj.BasePointOrder : Fr) 1),
           .AssertIsLessOrEqual receiver.ValueRandom.R (api.Sub (bj.BasePointOrder : Fr) 1),
           .AssertIsOnCurve (bj.Curve.ScalarMul receiver.PublicKey.P receiver.ValueRandom.R),
           .AssertIsOnCurve receiver.ValueEGCT.C1,
           .AssertIsOnCurve (bj.Curve.ScalarMul bj.base8 receiver.ValueRandom.R),
           .AssertIsEqual receiver.ValueEGCT.C1.X
              (bj.Curve.ScalarMul bj.base8 receiver.ValueRandom.R).X,
           .AssertIsEqual receiver.ValueEGCT.C1.Y
              (bj.Curve.ScalarMul bj.base8 receiver.ValueRandom.R).Y,
           .AssertIsOnCurve receiver.ValueEGCT.C2,
           .AssertIsOnCurve
              (bj.Curve.Add (bj.Curve.ScalarMul receiver.PublicKey.P receiver.ValueRandom.R)
                (bj.MulWithBasePoint value)),
           .AssertIsEqual receiver.ValueEGCT.C2.X
              (bj.Curve.Add (bj.Curve.ScalarMul receiver.PublicKey.P receiver.ValueRandom.R)
                (bj.MulWithBasePoint value)).X,
           .AssertIsEqual receiver.ValueEGCT.C2.Y
              (bj.Curve.Add (bj.Curve.ScalarMul receiver.PublicKey.P receiver.ValueRandom.R)
                (bj.MulWithBasePoint value)).Y]) := rfl

/-- The summary check of a party `(pk, PCT)`, as both `CheckPCTReceiver` and
`CheckPCTAuditor` run it when the permutation returns four elements. -/
theorem CheckPCTReceiver_eq (pos : poseidon.Primitives) (bj : BjWrapper) (receiver : Receiver)
    (value : Fr) (hpos : pos.FourOutputs) :
    CheckPCTReceiver pos bj receiver value
      = some ((),
          [.AssertIsLessOrEqual receiver.PCT.Random (api.Sub (bj.BasePointOrder : Fr) 1),
           .AssertIsOnCurve (bj.MulWithBasePoint receiver.PCT.Random),
           .AssertIsOnCurve receiver.PCT.AuthKey,
           .AssertIsEqual (bj.MulWithBasePoint receiver.PCT.Random).X receiver.PCT.AuthKey.X,
           .AssertIsEqual (bj.MulWithBasePoint receiver.PCT.Random).Y receiver.PCT.AuthKey.Y,
           .AssertIsOnCurve (bj.Curve.ScalarMul receiver.PublicKey.P receiver.PCT.Random)]
          ++ (poseidon.PoseidonDecryptSingle pos
                ((bj.Curve.ScalarMul receiver.PublicKey.P receiver.PCT.Random).X,
                 (bj.Curve.ScalarMul receiver.PublicKey.P receiver.PCT.Random).Y)
                receiver.PCT.Nonce receiver.PCT.Ciphertext).constraints
          ++ [.AssertIsEqual
                (receiver.PCT.Ciphertext 0 -
                  (poseidon.initialState pos
                    ((bj.Curve.ScalarMul receiver.PublicKey.P receiver.PCT.Random).X,
                     (bj.Curve.ScalarMul receiver.PublicKey.P receiver.PCT.Random).Y)
                    receiver.PCT.Nonce).getD 1 0)
                value]) := by
  unfold CheckPCTReceiver
  simp only [poseidon.PoseidonDecryptSingle_run pos _ _ _ hpos, Circuit.constraints]
  rfl

theorem CheckPCTAuditor_eq (pos : poseidon.Primitives) (bj : BjWrapper) (auditor : Auditor)
    (value : Fr) (hpos : pos.FourOutputs) :
    CheckPCTAuditor pos bj auditor value
      = some ((),
          [.AssertIsLessOrEqual auditor.PCT.Random (api.Sub (bj.BasePointOrder : Fr) 1),
           .AssertIsOnCurve (bj.MulWithBasePoint auditor.PCT.Random),
           .AssertIsOnCurve auditor.PCT.AuthKey,
           .AssertIsEqual (bj.MulWithBasePoint auditor.PCT.Random).X auditor.PCT.AuthKey.X,
           .AssertIsEqual (bj.MulWithBasePoint auditor.PCT.Random).Y auditor.PCT.AuthKey.Y,
           .AssertIsOnCurve (bj.Curve.ScalarMul auditor.PublicKey.P auditor.PCT.Random)]
          ++ (poseidon.PoseidonDecryptSingle pos
                ((bj.Curve.ScalarMul auditor.PublicKey.P auditor.PCT.Random).X,
                 (bj.Curve.ScalarMul auditor.PublicKey.P auditor.PCT.Random).Y)
                auditor.PCT.Nonce auditor.PCT.Ciphertext).constraints
          ++ [.AssertIsEqual
                (auditor.PCT.Ciphertext 0 -
                  (poseidon.initialState pos
                    ((bj.Curve.ScalarMul auditor.PublicKey.P auditor.PCT.Random).X,
                     (bj.Curve.ScalarMul auditor.PublicKey.P auditor.PCT.Random).Y)
                    auditor.PCT.Nonce).getD 1 0)
                value]) := by
  unfold CheckPCTAuditor
  simp only [poseidon.PoseidonDecryptSingle_run pos _ _ _ hpos, Circuit.constraints]
  rfl

/-- C9 (as stated, refuted). `CheckBalance` passes `sender.PrivateKey` to `ElGamalDecrypt`
without asserting its range: on `model.sender` (private key `7`, balance `100`) no recorded
assertion bounds the private key, and on `model.unboundedKeySender`, whose private key is
the order of the base point, `CheckBalance` is satisfied. -/
theorem C9_counterexample :
    Constraint.AssertIsLessOrEqual model.sender.PrivateKey
        (api.Sub (model.bj.BasePointOrder : Fr) 1)
      ∉ (CheckBalance model.bj model.sender).constraints ∧
    ¬ (model.unboundedKeySender.PrivateKey.val
        ≤ (api.Sub (model.bj.BasePointOrder : Fr) 1).val) ∧
    (CheckBalance model.bj model.unboundedKeySender).Satisfied model.bj.Curve := by
  refine ⟨?_, by decide, ?_⟩
  · rw [CheckBalance_eq]
    simp only [Circuit.constraints, List.mem_cons, List.not_mem_nil, or_false, not_or]
    refine ⟨?_, ?_, ?_, ?_, ?_, ?_, ?_, ?_⟩ <;> intro h <;> try exact Constraint.noConfusion h
    have h7 : (7 : Fr) = 100 := (Constraint.AssertIsLessOrEqual.inj h).1
    revert h7
    decide
  · rw [CheckBalance_eq, Circuit.satisfied_some]
    simp only [List.forall_mem_cons, List.not_mem_nil, Constraint.Holds]
    refine ⟨by decide, rfl, rfl, rfl, rfl, rfl, ?_, ?_, fun _ h => absurd h id⟩
    · show (100 : Fr) * _ = -(_ * ((0 : Fr) * _)) + (100 : Fr) * _
      ring
    · show (100 : Fr) * _ = -(_ * ((0 : Fr) * _)) + (100 : Fr) * _
      ring

/-- C9 (amended). The range assertions each predicate records, all of them made before any
other assertion: `CheckPublicKey` bounds the private key, `CheckValue` the value and the
randomness, `CheckPCTReceiver` and `CheckPCTAuditor` the summary randomness (the nonce is
bounded by `2^128 - 1` inside the decryption); `CheckBalance` and `CheckPositiveValue` bound
the balance, respectively the value, and nothing else: not the private key they decrypt
with. -/
theorem C9_range_assertions (pos : poseidon.Primitives) (bj : BjWrapper) (sender : Sender)
    (receiver : Receiver) (auditor : Auditor) (value : Fr) (hpos : pos.FourOutputs) :
    ((CheckPublicKey bj sender).constraints.head?
        = some (.AssertIsLessOrEqual sender.PrivateKey (api.Sub (bj.BasePointOrder : Fr) 1)) ∧
      Constraint.rangeAssertions (CheckPublicKey bj sender).constraints
        = [(sender.PrivateKey, api.Sub (bj.BasePointOrder : Fr) 1)]) ∧
    ((CheckBalance bj sender).constraints.head?
        = some (.AssertIsLessOrEqual sender.Balance (api.Sub (bj.BasePointOrder : Fr) 1)) ∧
      Constraint.rangeAssertions (CheckBalance bj sender).constraints
        = [(sender.Balance, api.Sub (bj.BasePointOrder : Fr) 1)]) ∧
    ((CheckPositiveValue bj sender value).constraints.head?
        = some (.AssertIsLessOrEqual value (api.Sub (bj.BasePointOrder : Fr) 1)) ∧
      Constraint.rangeAssertions (CheckPositiveValue bj sender value).constraints
        = [(value, api.Sub (bj.BasePointOrder : Fr) 1)]) ∧
    ((CheckValue bj receiver value).constraints.take 2
        = [.AssertIsLessOrEqual value (api.Sub (bj.BasePointOrder : Fr) 1),
           .AssertIsLessOrEqual receiver.ValueRandom.R (api.Sub (bj.BasePointOrder : Fr) 1)] ∧
      Constraint.rangeAssertions (CheckValue bj receiver value).constraints
        = [(value, api.Sub (bj.BasePointOrder : Fr) 1),
           (receiver.ValueRandom.R, api.Sub (bj.BasePointOrder : Fr) 1)]) ∧
    ((CheckPCTReceiver pos bj receiver value).constraints.head?
        = some (.AssertIsLessOrEqual receiver.PCT.Random (api.Sub (bj.BasePointOrder : Fr) 1)) ∧
      Constraint.rangeAssertions (CheckPCTReceiver pos bj receiver value).constraints
        = [(receiver.PCT.Random, api.Sub (bj.BasePointOrder : Fr) 1),
           (receiver.PCT.Nonce,
            ((340282366920938463463374607431768211456 : Nat) : Fr) - 1)]) ∧
    ((CheckPCTAuditor pos bj auditor value).constraints.head?
        = some (.AssertIsLessOrEqual auditor.PCT.Random (api.Sub (bj.BasePointOrder : Fr) 1)) ∧
      Constraint.rangeAssertions (CheckPCTAuditor pos bj auditor value).constraints
        = [(auditor.PCT.Random, api.Sub (bj.BasePointOrder : Fr) 1),
           (auditor.PCT.Nonce,
            ((340282366920938463463374607431768211456 : Nat) : Fr) - 1)]) := by
  refine ⟨⟨rfl, rfl⟩, ⟨rfl, rfl⟩, ⟨rfl, rfl⟩, ⟨rfl, rfl⟩, ?_, ?_⟩
  · rw [CheckPCTReceiver_eq pos bj receiver value hpos,
      poseidon.PoseidonDecryptSingle_run pos _ _ _ hpos]
    exact ⟨rfl, rfl⟩
  · rw [CheckPCTAuditor_eq pos bj auditor value hpos,
      poseidon.PoseidonDecryptSingle_run pos _ _ _ hpos]
    exact ⟨rfl, rfl⟩

/-- The range assertions of the six predicates at the model parties and value `150`. -/
theorem C9_range_assertions_witness :
    ((CheckPublicKey model.bj model.sender).constraints.head?
        = some (.AssertIsLessOrEqual model.sender.PrivateKey
            (api.Sub (model.bj.BasePointOrder : Fr) 1)) ∧
      Constraint.rangeAssertions (CheckPublicKey model.bj model.sender).constraints
        = [(model.sender.PrivateKey, api.Sub (model.bj.BasePointOrder : Fr) 1)]) ∧
    ((CheckBalance model.bj model.sender).constraints.head?
        = some (.AssertIsLessOrEqual model.sender.Balance
            (api.Sub (model.bj.BasePointOrder : Fr) 1)) ∧
      Constraint.rangeAssertions (CheckBalance model.bj model.sender).constraints
        = [(model.sender.Balance, api.Sub (model.bj.BasePointOrder : Fr) 1)]) ∧
    ((CheckPositiveValue model.bj model.sender 150).constraints.head?
        = some (.AssertIsLessOrEqual 150 (api.Sub (model.bj.BasePointOrder : Fr) 1)) ∧
      Constraint.rangeAssertions (CheckPositiveValue model.bj model.sender 150).constraints
        = [(150, api.Sub (model.bj.BasePointOrder : Fr) 1)]) ∧
    ((CheckValue model.bj model.receiver 150).constraints.take 2
        = [.AssertIsLessOrEqual 150 (api.Sub (model.bj.BasePointOrder : Fr) 1),
           .AssertIsLessOrEqual model.receiver.ValueRandom.R
             (api.Sub (model.bj.BasePointOrder : Fr) 1)] ∧
      Constraint.rangeAssertions (CheckValue model.bj model.receiver 150).constraints
        = [(150, api.Sub (model.bj.BasePointOrder : Fr) 1),
           (model.receiver.ValueRandom.R, api.Sub (model.bj.BasePointOrder : Fr) 1)]) ∧
    ((CheckPCTReceiver model.swapPrimitives model.bj model.receiver 150).constraints.head?
        = some (.AssertIsLessOrEqual model.receiver.PCT.Random
            (api.Sub (model.bj.BasePointOrder : Fr) 1)) ∧
      Constraint.rangeAssertions
          (CheckPCTReceiver model.swapPrimitives model.bj model.receiver 150).constraints
        = [(model.receiver.PCT.Random, api.Sub (model.bj.BasePointOrder : Fr) 1),
           (model.receiver.PCT.Nonce,
            ((340282366920938463463374607431768211456 : Nat) : Fr) - 1)]) ∧
    ((CheckPCTAuditor model.swapPrimitives model.bj model.auditor 150).constraints.head?
        = some (.AssertIsLessOrEqual model.auditor.PCT.Random
            (api.Sub (model.bj.BasePointOrder : Fr) 1)) ∧
      Constraint.rangeAssertions
          (CheckPCTAuditor model.swapPrimitives model.bj model.auditor 150).constraints
        = [(model.auditor.PCT.Random, api.Sub (model.bj.BasePointOrder : Fr) 1),
           (model.auditor.PCT.Nonce,
            ((340282366920938463463374607431768211456 : Nat) : Fr) - 1)]) :=
  C9_range_assertions model.swapPrimitives model.bj model.sender model.receiver model.auditor
    150 model.swapPrimitives_fourOutputs

/-- The assertions of two checks in sequence are those of the first followed by those of
the second, when neither panics. -/
theorem Circuit.constraints_seq {β : Type} (x : Circuit Unit) (y : Circuit β)
    (h : (x >>= fun _ => y).result ≠ none) :
    (x >>= fun _ => y).constraints = x.constraints ++ y.constraints := by
  rcases x with _ | ⟨⟨⟩, cs⟩
  · exact absurd rfl h
  · rcases y with _ | ⟨b, ds⟩
    · exact absurd rfl h
    · rfl

theorem Circuit.result_seq_right {β : Type} (x : Circuit Unit) (y : Circuit β)
    (h : (x >>= fun _ => y).result ≠ none) : y.result ≠ none := by
  rcases x with _ | ⟨⟨⟩, cs⟩
  · exact absurd rfl h
  · rcases y with _ | ⟨b, ds⟩
    · exact absurd rfl h
    · simp [Circuit.result]

/-- C10. The Transfer circuit is the conjunction of its seven checks: it is satisfied
exactly when `ValueToTransfer <= Sender.Balance` and the six predicates are, and when it
runs to the end the assertions it records are those of the seven checks, in order, and no
others. -/
theorem C10_transfer_iff_seven_conjuncts (curve : Curve) (pos : poseidon.Primitives)
    (circuit : TransferCircuit) :
    ((TransferCircuit.Define curve pos circuit).Satisfied (NewBjWrapper curve).Curve ↔
      circuit.ValueToTransfer.val ≤ circuit.Sender.Balance.val ∧
      (CheckPublicKey (NewBjWrapper curve) circuit.Sender).Satisfied (NewBjWrapper curve).Curve ∧
      (CheckBalance (NewBjWrapper curve) circuit.Sender).Satisfied (NewBjWrapper curve).Curve ∧
      (CheckPositiveValue (NewBjWrapper curve) circuit.Sender circuit.ValueToTransfer).Satisfied
        (NewBjWrapper curve).Curve ∧
      (CheckValue (NewBjWrapper curve) circuit.Receiver circuit.ValueToTransfer).Satisfied
        (NewBjWrapper curve).Curve ∧
      (CheckPCTReceiver pos (NewBjWrapper curve) circuit.Receiver
        circuit.ValueToTransfer).Satisfied (NewBjWrapper curve).Curve ∧
      (CheckPCTAuditor pos (NewBjWrapper curve) circuit.Auditor
        circuit.ValueToTransfer).Satisfied (NewBjWrapper curve).Curve) ∧
    ((TransferCircuit.Define curve pos circuit).result ≠ none →
      (TransferCircuit.Define curve pos circuit).constraints
        = .AssertIsLessOrEqual circuit.ValueToTransfer circuit.Sender.Balance
          :: ((CheckPublicKey (NewBjWrapper curve) circuit.Sender).constraints
            ++ ((CheckBalance (NewBjWrapper curve) circuit.Sender).constraints
            ++ ((CheckPositiveValue (NewBjWrapper curve) circuit.Sender
                  circuit.ValueToTransfer).constraints
            ++ ((CheckValue (NewBjWrapper curve) circuit.Receiver
                  circuit.ValueToTransfer).constraints
            ++ ((CheckPCTReceiver pos (NewBjWrapper curve) circuit.Receiver
                  circuit.ValueToTransfer).constraints
            ++ (CheckPCTAuditor pos (NewBjWrapper curve) circuit.Auditor
                  circuit.ValueToTransfer).constraints)))))) := by
  unfold TransferCircuit.Define
  constructor
  · simp only [Circuit.satisfied_seq, satisfied_AssertIsLessOrEqual]
  · intro h
    have h1 := Circuit.result_seq_right _ _ h
    have h2 := Circuit.result_seq_right _ _ h1
    have h3 := Circuit.result_seq_right _ _ h2
    have h4 := Circuit.result_seq_right _ _ h3
    have h5 := Circuit.result_seq_right _ _ h4
    rw [Circuit.constraints_seq _ _ h, Circuit.constraints_seq _ _ h1,
      Circuit.constraints_seq _ _ h2, Circuit.constraints_seq _ _ h3,
      Circuit.constraints_seq _ _ h4, Circuit.constraints_seq _ _ h5]
    rfl

end circuits

namespace circuits

/-- The run of a computation decides its satisfaction: a bind is satisfied exactly when the
first step ran, its assertions hold and the continuation is satisfied. -/
theorem Circuit.satisfied_bind {α β : Type} (c : Curve) (x : Circuit α) (f : α → Circuit β) :
    Circuit.Satisfied c (x >>= f) ↔
      ∃ a cs, x = some (a, cs) ∧ (∀ k ∈ cs, k.Holds c) ∧ Circuit.Satisfied c (f a) := by
  rcases x with _ | ⟨a, cs⟩
  · simp [Circuit.bind_eq, Circuit.bind, Circuit.Satisfied]
  · constructor
    · intro h
      refine ⟨a, cs, rfl, ?_, ?_⟩
      · rcases hf : f a with _ | ⟨b, ds⟩
        · simp [Circuit.bind_eq, Circuit.bind, hf, Circuit.Satisfied] at h
        · simp only [Circuit.bind_eq, Circuit.bind, hf, Circuit.Satisfied, List.mem_append] at h
          exact fun k hk => h k (Or.inl hk)
      · rcases hf : f a with _ | ⟨b, ds⟩
        · simp [Circuit.bind_eq, Circuit.bind, hf, Circuit.Satisfied] at h
        · simp only [Circuit.bind_eq, Circuit.bind, hf, Circuit.Satisfied, List.mem_append] at h
          exact fun k hk => h k (Or.inr hk)
    · rintro ⟨a', cs', heq, h1, h2⟩
      cases heq
      rcases hf : f a with _ | ⟨b, ds⟩
      · rw [hf] at h2; exact absurd h2 (Circuit.not_satisfied_none c)
      · rw [hf] at h2
        simp only [Circuit.bind_eq, Circuit.bind, hf, Circuit.Satisfied, List.mem_append]
        rintro k (hk | hk)
        · exact h1 k hk
        · exact h2 k hk

/-- `CheckPublicKey` over a lawful curve gadget: the range of the private key and the
equation `pk = sk * G`. -/
theorem CheckPublicKey_satisfied_iff_lawful {α : Type} [KeyHolder α] (curve : Curve)
    (keyHolder : α)
    (hlaw : (NewBjWrapper curve).Curve.Lawful)
    (hbase : (NewBjWrapper curve).Curve.IsOnCurve (NewBjWrapper curve).base8) :
    (CheckPublicKey (NewBjWrapper curve) keyHolder).Satisfied (NewBjWrapper curve).Curve ↔
      (KeyHolder.GetPrivateKey keyHolder).val ≤ (NewBjWrapper curve).BasePointOrder - 1 ∧
      ({ X := KeyHolder.GetPublicKeyX keyHolder, Y := KeyHolder.GetPublicKeyY keyHolder } : Point)
        = (NewBjWrapper curve).MulWithBasePoint (KeyHolder.GetPrivateKey keyHolder) := by
  rw [CheckPublicKey_satisfied_iff, order_sub_one_val]
  have hon : (NewBjWrapper curve).Curve.IsOnCurve
      ((NewBjWrapper curve).MulWithBasePoint (KeyHolder.GetPrivateKey keyHolder)) := by
    obtain ⟨G, inst, φ, _, hon, _, _, hsmul⟩ := hlaw
    obtain ⟨g, hg⟩ := (hon _).1 hbase
    rw [babyjub.MulWithBasePoint_New, ← hg, hsmul]
    exact (hon _).2 ⟨_, rfl⟩
  constructor
  · rintro ⟨h1, -, h3⟩
    exact ⟨h1, h3.symm⟩
  · rintro ⟨h1, h3⟩
    exact ⟨h1, hon, h3.symm⟩

/-- `CheckBalance` over a lawful curve gadget: the range of the balance, the assertions of
the decryption, and the decrypted point `Balance * G`. -/
theorem CheckBalance_satisfied_iff_decrypt (curve : Curve) (sender : Sender)
    (hlaw : (NewBjWrapper curve).Curve.Lawful)
    (hbase : (NewBjWrapper curve).Curve.IsOnCurve (NewBjWrapper curve).base8) :
    (CheckBalance (NewBjWrapper curve) sender).Satisfied (NewBjWrapper curve).Curve ↔
      sender.Balance.val ≤ (NewBjWrapper curve).BasePointOrder - 1 ∧
      ((NewBjWrapper curve).ElGamalDecrypt
          (sender.BalanceEGCT.C1.X, sender.BalanceEGCT.C1.Y)
          (sender.BalanceEGCT.C2.X, sender.BalanceEGCT.C2.Y) sender.PrivateKey).Satisfied
        (NewBjWrapper curve).Curve ∧
      ((NewBjWrapper curve).ElGamalDecrypt
          (sender.BalanceEGCT.C1.X, sender.BalanceEGCT.C1.Y)
          (sender.BalanceEGCT.C2.X, sender.BalanceEGCT.C2.Y) sender.PrivateKey).result
        = some ((NewBjWrapper curve).MulWithBasePoint sender.Balance) := by
  have hon : (NewBjWrapper curve).Curve.IsOnCurve
      ((NewBjWrapper curve).MulWithBasePoint sender.Balance) := by
    obtain ⟨G, inst, φ, _, hon, _, _, hsmul⟩ := hlaw
    obtain ⟨g, hg⟩ := (hon _).1 hbase
    rw [babyjub.MulWithBasePoint_New, ← hg, hsmul]
    exact (hon _).2 ⟨_, rfl⟩
  rw [CheckBalance_eq, babyjub.ElGamalDecrypt_eq, Circuit.satisfied_some,
    Circuit.satisfied_some]
  simp only [List.forall_mem_cons, List.not_mem_nil, Constraint.Holds, order_sub_one_val,
    Circuit.result, Option.some.injEq]
  constructor
  · rintro ⟨h1, h2, h3, h4, -, -, hX, hY, -⟩
    exact ⟨h1, ⟨h2, h3, h4, fun _ h => absurd h id⟩,
      ((Point.ext_iff' _ _).2 ⟨hX, hY⟩).symm⟩
  · rintro ⟨h1, ⟨h2, h3, h4, -⟩, he⟩
    refine ⟨h1, h2, h3, h4, hon, h3, ?_, ?_, fun _ h => absurd h id⟩
    · exact congrArg Point.X he.symm
    · exact congrArg Point.Y he.symm

/-- C11. The Withdraw circuit is satisfied exactly when `ValueToBurn <= Sender.Balance`,
key consistency, balance well-formedness and `CheckPCTAuditor(Auditor, ValueToBurn)` hold,
where over a lawful curve gadget key consistency is `sk <= order - 1` with `pk = sk * G`
and balance well-formedness is `Balance <= order - 1` with
`ElGamalDecrypt(BalanceEGCT, sk) = Balance * G`; `CheckPublicKey` and `CheckBalance` run the
same on every `Sender` that agrees with the `WithdrawSender` on the fields they read,
whatever the fields left unset hold. -/
theorem C11_withdraw_iff_four_conjuncts (curve : Curve) (pos : poseidon.Primitives)
    (circuit : WithdrawCircuit)
    (hlaw : (NewBjWrapper curve).Curve.Lawful)
    (hbase : (NewBjWrapper curve).Curve.IsOnCurve (NewBjWrapper curve).base8) :
    ((WithdrawCircuit.Define curve pos circuit).Satisfied (NewBjWrapper curve).Curve ↔
      circuit.ValueToBurn.val ≤ circuit.Sender.Balance.val ∧
      (circuit.Sender.PrivateKey.val ≤ (NewBjWrapper curve).BasePointOrder - 1 ∧
        circuit.Sender.PublicKey.P
          = (NewBjWrapper curve).MulWithBasePoint circuit.Sender.PrivateKey) ∧
      (circuit.Sender.Balance.val ≤ (NewBjWrapper curve).BasePointOrder - 1 ∧
        ((NewBjWrapper curve).ElGamalDecrypt
            (circuit.Sender.BalanceEGCT.C1.X, circuit.Sender.BalanceEGCT.C1.Y)
            (circuit.Sender.BalanceEGCT.C2.X, circuit.Sender.BalanceEGCT.C2.Y)
            circuit.Sender.PrivateKey).Satisfied (NewBjWrapper curve).Curve ∧
        ((NewBjWrapper curve).ElGamalDecrypt
            (circuit.Sender.BalanceEGCT.C1.X, circuit.Sender.BalanceEGCT.C1.Y)
            (circuit.Sender.BalanceEGCT.C2.X, circuit.Sender.BalanceEGCT.C2.Y)
            circuit.Sender.PrivateKey).result
          = some ((NewBjWrapper curve).MulWithBasePoint circuit.Sender.Balance)) ∧
      (CheckPCTAuditor pos (NewBjWrapper curve) circuit.Auditor circuit.ValueToBurn).Satisfied
        (NewBjWrapper curve).Curve) ∧
    (∀ sender : Sender,
      sender.PrivateKey = circuit.Sender.PrivateKey →
      sender.PublicKey = circuit.Sender.PublicKey →
      ((WithdrawCircuit.Define curve pos circuit).Satisfied (NewBjWrapper curve).Curve ↔
        circuit.ValueToBurn.val ≤ circuit.Sender.Balance.val ∧
        (CheckPublicKey (NewBjWrapper curve) sender).Satisfied (NewBjWrapper curve).Curve ∧
        (CheckBalance (NewBjWrapper curve)
          { sender with
            Balance := circuit.Sender.Balance
            BalanceEGCT := circuit.Sender.BalanceEGCT }).Satisfied (NewBjWrapper curve).Curve ∧
        (CheckPCTAuditor pos (NewBjWrapper curve) circuit.Auditor
          circuit.ValueToBurn).Satisfied (NewBjWrapper curve).Curve)) ∧
    (∀ s t : Sender, s.PrivateKey = t.PrivateKey → s.PublicKey = t.PublicKey →
      CheckPublicKey (NewBjWrapper curve) s = CheckPublicKey (NewBjWrapper curve) t) ∧
    (∀ s t : Sender, s.PrivateKey = t.PrivateKey → s.Balance = t.Balance →
      s.BalanceEGCT = t.BalanceEGCT →
      CheckBalance (NewBjWrapper curve) s = CheckBalance (NewBjWrapper curve) t) := by
  have hpk : ∀ s t : Sender, s.PrivateKey = t.PrivateKey → s.PublicKey = t.PublicKey →
      CheckPublicKey (NewBjWrapper curve) s = CheckPublicKey (NewBjWrapper curve) t := by
    intro s t h1 h2
    rw [CheckPublicKey_eq, CheckPublicKey_eq]
    show some ((), [Constraint.AssertIsLessOrEqual s.PrivateKey _, _, _, _, _])
      = some ((), [Constraint.AssertIsLessOrEqual t.PrivateKey _, _, _, _, _])
    simp only [KeyHolder.GetPrivateKey, KeyHolder.GetPublicKeyX, KeyHolder.GetPublicKeyY, h1, h2]
  have hbal : ∀ s t : Sender, s.PrivateKey = t.PrivateKey → s.Balance = t.Balance →
      s.BalanceEGCT = t.BalanceEGCT →
      CheckBalance (NewBjWrapper curve) s = CheckBalance (NewBjWrapper curve) t := by
    intro s t h1 h2 h3
    rw [CheckBalance_eq, CheckBalance_eq, h1, h2, h3]
  have hdef : (WithdrawCircuit.Define curve pos circuit).Satisfied (NewBjWrapper curve).Curve ↔
      circuit.ValueToBurn.val ≤ circuit.Sender.Balance.val ∧
      (CheckPublicKey (NewBjWrapper curve)
        ({ PrivateKey := circuit.Sender.PrivateKey
           PublicKey := circuit.Sender.PublicKey
           Balance := 0
           BalanceEGCT := { C1 := { X := 0, Y := 0 }, C2 := { X := 0, Y := 0 } }
           ValueEGCT := { C1 := { X := 0, Y := 0 }, C2 := { X := 0, Y := 0 } } } :
          Sender)).Satisfied (NewBjWrapper curve).Curve ∧
      (CheckBalance (NewBjWrapper curve)
        ({ PrivateKey := circuit.Sender.PrivateKey
           PublicKey := circuit.Sender.PublicKey
           Balance := circuit.Sender.Balance
           BalanceEGCT := circuit.Sender.BalanceEGCT
           ValueEGCT := { C1 := { X := 0, Y := 0 }, C2 := { X := 0, Y := 0 } } } :
          Sender)).Satisfied (NewBjWrapper curve).Curve ∧
      (CheckPCTAuditor pos (NewBjWrapper curve) circuit.Auditor circuit.ValueToBurn).Satisfied
        (NewBjWrapper curve).Curve := by
    unfold WithdrawCircuit.Define
    simp only [Circuit.satisfied_seq, satisfied_AssertIsLessOrEqual]
  refine ⟨?_, ?_, hpk, hbal⟩
  · rw [hdef, CheckPublicKey_satisfied_iff_lawful curve _ hlaw hbase,
      CheckBalance_satisfied_iff_decrypt curve _ hlaw hbase]
    rfl
  · intro sender h1 h2
    have e1 := hpk sender
      { PrivateKey := circuit.Sender.PrivateKey
        PublicKey := circuit.Sender.PublicKey
        Balance := 0
        BalanceEGCT := { C1 := { X := 0, Y := 0 }, C2 := { X := 0, Y := 0 } }
        ValueEGCT := { C1 := { X := 0, Y := 0 }, C2 := { X := 0, Y := 0 } } } h1 h2
    have e2 := hbal
      { sender with
        Balance := circuit.Sender.Balance
        BalanceEGCT := circuit.Sender.BalanceEGCT }
      { PrivateKey := circuit.Sender.PrivateKey
        PublicKey := circuit.Sender.PublicKey
        Balance := circuit.Sender.Balance
        BalanceEGCT := circuit.Sender.BalanceEGCT
        ValueEGCT := { C1 := { X := 0, Y := 0 }, C2 := { X := 0, Y := 0 } } } h1 rfl rfl
    rw [hdef, e1, e2]

/-- The Withdraw circuit at the withdrawal of `30` from a balance of `100`. -/
theorem C11_withdraw_iff_four_conjuncts_witness :
    ((WithdrawCircuit.Define model.additiveCurve model.swapPrimitives
        model.withdrawal).Satisfied model.bj.Curve ↔
      model.withdrawal.ValueToBurn.val ≤ model.withdrawal.Sender.Balance.val ∧
      (model.withdrawal.Sender.PrivateKey.val ≤ model.bj.BasePointOrder - 1 ∧
        model.withdrawal.Sender.PublicKey.P
          = model.bj.MulWithBasePoint model.withdrawal.Sender.PrivateKey) ∧
      (model.withdrawal.Sender.Balance.val ≤ model.bj.BasePointOrder - 1 ∧
        (model.bj.ElGamalDecrypt
            (model.withdrawal.Sender.BalanceEGCT.C1.X, model.withdrawal.Sender.BalanceEGCT.C1.Y)
            (model.withdrawal.Sender.BalanceEGCT.C2.X, model.withdrawal.Sender.BalanceEGCT.C2.Y)
            model.withdrawal.Sender.PrivateKey).Satisfied model.bj.Curve ∧
        (model.bj.ElGamalDecrypt
            (model.withdrawal.Sender.BalanceEGCT.C1.X, model.withdrawal.Sender.BalanceEGCT.C1.Y)
            (model.withdrawal.Sender.BalanceEGCT.C2.X, model.withdrawal.Sender.BalanceEGCT.C2.Y)
            model.withdrawal.Sender.PrivateKey).result
          = some (model.bj.MulWithBasePoint model.withdrawal.Sender.Balance)) ∧
      (CheckPCTAuditor model.swapPrimitives model.bj model.withdrawal.Auditor
        model.withdrawal.ValueToBurn).Satisfied model.bj.Curve) ∧
    (∀ sender : Sender,
      sender.PrivateKey = model.withdrawal.Sender.PrivateKey →
      sender.PublicKey = model.withdrawal.Sender.PublicKey →
      ((WithdrawCircuit.Define model.additiveCurve model.swapPrimitives
          model.withdrawal).Satisfied model.bj.Curve ↔
        model.withdrawal.ValueToBurn.val ≤ model.withdrawal.Sender.Balance.val ∧
        (CheckPublicKey model.bj sender).Satisfied model.bj.Curve ∧
        (CheckBalance model.bj
          { sender with
            Balance := model.withdrawal.Sender.Balance
            BalanceEGCT := model.withdrawal.Sender.BalanceEGCT }).Satisfied model.bj.Curve ∧
        (CheckPCTAuditor model.swapPrimitives model.bj model.withdrawal.Auditor
          model.withdrawal.ValueToBurn).Satisfied model.bj.Curve)) ∧
    (∀ s t : Sender, s.PrivateKey = t.PrivateKey → s.PublicKey = t.PublicKey →
      CheckPublicKey model.bj s = CheckPublicKey model.bj t) ∧
    (∀ s t : Sender, s.PrivateKey = t.PrivateKey → s.Balance = t.Balance →
      s.BalanceEGCT = t.BalanceEGCT →
      CheckBalance model.bj s = CheckBalance model.bj t) :=
  C11_withdraw_iff_four_conjuncts model.additiveCurve model.swapPrimitives model.withdrawal
    model.bj_lawful model.bj_base

end circuits

namespace circuits

/-- C12. `CheckValue(receiver, value)` is satisfied exactly when `value <= order - 1`,
`receiver.ValueRandom.R <= order - 1`, the re-encryption
`ElGamalEncrypt(receiver.PublicKey, value * G, R)` satisfies its own assertion, and the
receiver's given ciphertext equals it coordinate by coordinate, the given points `C1`, `C2`
and the recomputed points being on the curve. -/
theorem C12_check_value_iff (bj : BjWrapper) (receiver : Receiver) (value : Fr) :
    (CheckValue bj receiver value).Satisfied bj.Curve ↔
      ∃ (reEncC1 reEncC2 : Point) (asserts : List Constraint),
        bj.ElGamalEncrypt receiver.PublicKey.P (bj.MulWithBasePoint value)
            receiver.ValueRandom.R = some ((reEncC1, reEncC2), asserts) ∧
        value.val ≤ (api.Sub (bj.BasePointOrder : Fr) 1).val ∧
        receiver.ValueRandom.R.val ≤ (api.Sub (bj.BasePointOrder : Fr) 1).val ∧
        (∀ k ∈ asserts, k.Holds bj.Curve) ∧
        bj.Curve.IsOnCurve receiver.ValueEGCT.C1 ∧ bj.Curve.IsOnCurve reEncC1 ∧
        receiver.ValueEGCT.C1.X = reEncC1.X ∧ receiver.ValueEGCT.C1.Y = reEncC1.Y ∧
        bj.Curve.IsOnCurve receiver.ValueEGCT.C2 ∧ bj.Curve.IsOnCurve reEncC2 ∧
        receiver.ValueEGCT.C2.X = reEncC2.X ∧ receiver.ValueEGCT.C2.Y = reEncC2.Y := by
  have key : (CheckValue bj receiver value).Satisfied bj.Curve ↔
      value.val ≤ (api.Sub (bj.BasePointOrder : Fr) 1).val ∧
      receiver.ValueRandom.R.val ≤ (api.Sub (bj.BasePointOrder : Fr) 1).val ∧
      bj.Curve.IsOnCurve (bj.Curve.ScalarMul receiver.PublicKey.P receiver.ValueRandom.R) ∧
      bj.Curve.IsOnCurve receiver.ValueEGCT.C1 ∧
      bj.Curve.IsOnCurve (bj.Curve.ScalarMul bj.base8 receiver.ValueRandom.R) ∧
      receiver.ValueEGCT.C1.X = (bj.Curve.ScalarMul bj.base8 receiver.ValueRandom.R).X ∧
      receiver.ValueEGCT.C1.Y = (bj.Curve.ScalarMul bj.base8 receiver.ValueRandom.R).Y ∧
      bj.Curve.IsOnCurve receiver.ValueEGCT.C2 ∧
      bj.Curve.IsOnCurve
        (bj.Curve.Add (bj.Curve.ScalarMul receiver.PublicKey.P receiver.ValueRandom.R)
          (bj.MulWithBasePoint value)) ∧
      receiver.ValueEGCT.C2.X
        = (bj.Curve.Add (bj.Curve.ScalarMul receiver.PublicKey.P receiver.ValueRandom.R)
            (bj.MulWithBasePoint value)).X ∧
      receiver.ValueEGCT.C2.Y
        = (bj.Curve.Add (bj.Curve.ScalarMul receiver.PublicKey.P receiver.ValueRandom.R)
            (bj.MulWithBasePoint value)).Y := by
    rw [CheckValue_eq, Circuit.satisfied_some]
    simp only [List.forall_mem_cons, List.not_mem_nil, Constraint.Holds]
    constructor
    · rintro ⟨h1, h2, h3, h4, h5, h6, h7, h8, h9, h10, h11, -⟩
      exact ⟨h1, h2, h3, h4, h5, h6, h7, h8, h9, h10, h11⟩
    · rintro ⟨h1, h2, h3, h4, h5, h6, h7, h8, h9, h10, h11⟩
      exact ⟨h1, h2, h3, h4, h5, h6, h7, h8, h9, h10, h11, fun _ h => absurd h id⟩
  rw [key, babyjub.ElGamalEncrypt_eq]
  constructor
  · rintro ⟨h1, h2, h3, h4, h5, h6, h7, h8, h9, h10, h11⟩
    refine ⟨_, _, _, rfl, h1, h2, ?_, h4, h5, h6, h7, h8, h9, h10, h11⟩
    intro k hk
    rw [List.mem_singleton] at hk
    subst hk
    exact h3
  · rintro ⟨c1, c2, asserts, heq, h1, h2, h3, h4, h5, h6, h7, h8, h9, h10, h11⟩
    cases heq
    exact ⟨h1, h2, h3 _ (List.mem_singleton.2 rfl), h4, h5, h6, h7, h8, h9, h10, h11⟩

/-- `CheckValue` over the wrapper of the circuits: the bounds are `order - 1` and the
re-encryption is `(R * G, R * pk + value * G)`. -/
theorem CheckValue_satisfied_iff (curve : Curve) (receiver : Receiver) (value : Fr) :
    (CheckValue (NewBjWrapper curve) receiver value).Satisfied (NewBjWrapper curve).Curve ↔
      value.val ≤ (NewBjWrapper curve).BasePointOrder - 1 ∧
      receiver.ValueRandom.R.val ≤ (NewBjWrapper curve).BasePointOrder - 1 ∧
      (NewBjWrapper curve).Curve.IsOnCurve
        ((NewBjWrapper curve).Curve.ScalarMul receiver.PublicKey.P receiver.ValueRandom.R) ∧
      (NewBjWrapper curve).Curve.IsOnCurve receiver.ValueEGCT.C1 ∧
      (NewBjWrapper curve).Curve.IsOnCurve receiver.ValueEGCT.C2 ∧
      receiver.ValueEGCT.C1
        = (NewBjWrapper curve).Curve.ScalarMul (NewBjWrapper curve).base8
            receiver.ValueRandom.R ∧
      receiver.ValueEGCT.C2
        = (NewBjWrapper curve).Curve.Add
            ((NewBjWrapper curve).Curve.ScalarMul receiver.PublicKey.P receiver.ValueRandom.R)
            ((NewBjWrapper curve).MulWithBasePoint value) := by
  rw [CheckValue_eq, Circuit.satisfied_some]
  simp only [List.forall_mem_cons, List.not_mem_nil, Constraint.Holds, order_sub_one_val]
  constructor
  · rintro ⟨h1, h2, h3, h4, h5, h6, h7, h8, h9, h10, h11, -⟩
    exact ⟨h1, h2, h3, h4, h8, (Point.ext_iff' _ _).2 ⟨h6, h7⟩, (Point.ext_iff' _ _).2 ⟨h10, h11⟩⟩
  · rintro ⟨h1, h2, h3, h4, h8, e1, e2⟩
    refine ⟨h1, h2, h3, h4, e1 ▸ h4, congrArg Point.X e1, congrArg Point.Y e1, h8, e2 ▸ h8,
      congrArg Point.X e2, congrArg Point.Y e2, fun _ h => absurd h id⟩

end circuits

namespace poseidon

/-- The matching encryption is accepted and decrypts to the value (auxiliary form of the
round trip, for use in later proofs). -/
theorem encryptSingle_accepted (c : Curve) (pos : Primitives) (key : Fr × Fr) (n v : Fr)
    (hpos : pos.FourOutputs) (hn : n.val < 2 ^ 128) :
    (PoseidonDecryptSingle pos key n (encryptSingle pos key n v)).result = some [v] ∧
    (PoseidonDecryptSingle pos key n (encryptSingle pos key n v)).Satisfied c := by
  constructor
  · rw [PoseidonDecryptSingle_run pos key n _ hpos]
    simp [Circuit.result, encryptSingle]
  · rw [PoseidonDecryptSingle_satisfied_iff c pos key n _ hpos]
    exact ⟨hn, rfl, rfl, rfl⟩

end poseidon

namespace model

theorem lineCurve_lawful (params : CurveParams) :
    Curve.Lawful { lineCurve with Params := params } := by
  refine ⟨Fr, inferInstance, fun a => { X := a, Y := slope * a }, ?_, ?_, ?_, ?_, ?_⟩
  · intro a b h
    exact congrArg Point.X h
  · intro P
    constructor
    · intro h
      have hY : P.Y = slope * P.X := of_decide_eq_true h
      exact ⟨P.X, by cases P; simp only at hY; simp [hY]⟩
    · rintro ⟨a, rfl⟩
      exact decide_eq_true rfl
  · intro a b
    show ({ X := a + b, Y := slope * a + slope * b } : Point) = _
    rw [← mul_add]
  · intro a
    show ({ X := -a, Y := -(slope * a) } : Point) = _
    rw [← mul_neg]
  · intro a s
    show ({ X := s * a, Y := s * (slope * a) } : Point) = _
    rw [nsmul_eq_mul, ZMod.natCast_zmod_val, mul_left_comm]

theorem lineCurve_base :
    (NewBjWrapper lineCurve).Curve.IsOnCurve (NewBjWrapper lineCurve).base8 := by
  decide

end model

namespace circuits

theorem satisfied_AssertIsOnCurve (c : Curve) (p1 : Point) :
    (api.AssertIsOnCurve p1).Satisfied c ↔ c.IsOnCurve p1 := by
  show (∀ k ∈ [Constraint.AssertIsOnCurve p1], k.Holds c) ↔ _
  simp [Constraint.Holds]

theorem AssertPoint_satisfied_iff (bj : BjWrapper) (p1 : Point) (x y : Fr) :
    (bj.AssertPoint p1 x y).Satisfied bj.Curve ↔
      bj.Curve.IsOnCurve p1 ∧ bj.Curve.IsOnCurve { X := x, Y := y } ∧ p1 = { X := x, Y := y } := by
  rw [babyjub.AssertPoint_eq, Circuit.satisfied_some]
  simp only [List.forall_mem_cons, List.not_mem_nil, Constraint.Holds]
  constructor
  · rintro ⟨h1, h2, h3, h4, -⟩
    exact ⟨h1, h2, (Point.ext_iff' _ _).2 ⟨h3, h4⟩⟩
  · rintro ⟨h1, h2, h3⟩
    exact ⟨h1, h2, congrArg Point.X h3, congrArg Point.Y h3, fun _ h => absurd h id⟩

/-- The last step of a summary check: the first decrypted element is the value. -/
theorem satisfied_first_element (c : Curve) (decrypted : List Fr) (value : Fr) :
    Circuit.Satisfied c (poseidon.index decrypted 0 >>= fun d0 => api.AssertIsEqual d0 value) ↔
      ∃ rest, decrypted = value :: rest := by
  rcases decrypted with _ | ⟨d0, rest⟩
  · simp [poseidon.index, Circuit.bind_eq, Circuit.bind, Circuit.Satisfied]
  · have : (poseidon.index (d0 :: rest) 0 >>= fun d0 => api.AssertIsEqual d0 value)
        = api.AssertIsEqual d0 value := by
      simp [poseidon.index, Circuit.bind_eq, Circuit.bind, api.AssertIsEqual]
    rw [this, satisfied_AssertIsEqual]
    simp

/-- A decryption followed by the comparison of its first element with the value. -/
theorem satisfied_decrypt_then_compare (c : Curve) (x : Circuit (List Fr)) (value : Fr) :
    Circuit.Satisfied c
        (x >>= fun decrypted => poseidon.index decrypted 0 >>= fun d0 =>
          api.AssertIsEqual d0 value) ↔
      Circuit.Satisfied c x ∧ ∃ rest, x.result = some (value :: rest) := by
  rw [Circuit.satisfied_bind]
  rcases x with _ | ⟨d, cs⟩
  · constructor
    · rintro ⟨a, cs, h, -⟩
      cases h
    · rintro ⟨h, -⟩
      exact absurd h (Circuit.not_satisfied_none c)
  · constructor
    · rintro ⟨a, cs', h, h1, h2⟩
      cases h
      obtain ⟨rest, hr⟩ := (satisfied_first_element c d value).1 h2
      exact ⟨h1, rest, by rw [hr]; rfl⟩
    · rintro ⟨h1, rest, hr⟩
      refine ⟨d, cs, rfl, h1, (satisfied_first_element c d value).2 ⟨rest, ?_⟩⟩
      simpa [Circuit.result] using hr

theorem babyjub.MulWithScalar_eq (bj : BjWrapper) (x y s : Fr) :
    bj.MulWithScalar x y s
      = some (bj.Curve.ScalarMul { X := x, Y := y } s,
              [.AssertIsOnCurve (bj.Curve.ScalarMul { X := x, Y := y } s)]) := rfl

/-- The summary check of a receiver, assertion by assertion. -/
theorem CheckPCTReceiver_satisfied_iff (pos : poseidon.Primitives) (bj : BjWrapper)
    (receiver : Receiver) (value : Fr) :
    (CheckPCTReceiver pos bj receiver value).Satisfied bj.Curve ↔
      receiver.PCT.Random.val ≤ (api.Sub (bj.BasePointOrder : Fr) 1).val ∧
      (bj.Curve.IsOnCurve (bj.MulWithBasePoint receiver.PCT.Random) ∧
        bj.Curve.IsOnCurve receiver.PCT.AuthKey ∧
        bj.MulWithBasePoint receiver.PCT.Random = receiver.PCT.AuthKey) ∧
      bj.Curve.IsOnCurve (bj.Curve.ScalarMul receiver.PublicKey.P receiver.PCT.Random) ∧
      (poseidon.PoseidonDecryptSingle pos
          ((bj.Curve.ScalarMul receiver.PublicKey.P receiver.PCT.Random).X,
           (bj.Curve.ScalarMul receiver.PublicKey.P receiver.PCT.Random).Y)
          receiver.PCT.Nonce receiver.PCT.Ciphertext).Satisfied bj.Curve ∧
      ∃ rest,
        (poseidon.PoseidonDecryptSingle pos
          ((bj.Curve.ScalarMul receiver.PublicKey.P receiver.PCT.Random).X,
           (bj.Curve.ScalarMul receiver.PublicKey.P receiver.PCT.Random).Y)
          receiver.PCT.Nonce receiver.PCT.Ciphertext).result = some (value :: rest) := by
  unfold CheckPCTReceiver
  rw [Circuit.satisfied_seq, satisfied_AssertIsLessOrEqual, Circuit.satisfied_seq,
    AssertPoint_satisfied_iff, Circuit.satisfied_bind]
  refine and_congr Iff.rfl (and_congr Iff.rfl ?_)
  constructor
  · rintro ⟨a, cs, h, h1, h2⟩
    rw [babyjub.MulWithScalar_eq] at h
    cases h
    exact ⟨h1 _ (List.mem_singleton.2 rfl), (satisfied_decrypt_then_compare _ _ _).1 h2⟩
  · rintro ⟨h1, h2⟩
    refine ⟨_, _, babyjub.MulWithScalar_eq _ _ _ _, ?_, (satisfied_decrypt_then_compare _ _ _).2 h2⟩
    intro k hk
    rw [List.mem_singleton] at hk
    subst hk
    exact h1

/-- `CheckPCTReceiver` and `CheckPCTAuditor` run the same computation on the same public
key, summary and value. -/
theorem CheckPCTReceiver_eq_Auditor (pos : poseidon.Primitives) (bj : BjWrapper)
    (receiver : Receiver) (auditor : Auditor) (value : Fr)
    (hpk : receiver.PublicKey = auditor.PublicKey) (hpct : receiver.PCT = auditor.PCT) :
    CheckPCTReceiver pos bj receiver value = CheckPCTAuditor pos bj auditor value := by
  unfold CheckPCTReceiver CheckPCTAuditor
  rw [hpk, hpct]

end circuits

namespace circuits

/-- The summary check of a receiver over a lawful curve gadget. -/
theorem CheckPCTReceiver_satisfied_iff_lawful (curve : Curve) (pos : poseidon.Primitives)
    (receiver : Receiver) (value : Fr)
    (hlaw : (NewBjWrapper curve).Curve.Lawful)
    (hbase : (NewBjWrapper curve).Curve.IsOnCurve (NewBjWrapper curve).base8) :
    (CheckPCTReceiver pos (NewBjWrapper curve) receiver value).Satisfied
        (NewBjWrapper curve).Curve ↔
      receiver.PCT.Random.val ≤ (NewBjWrapper curve).BasePointOrder - 1 ∧
      receiver.PCT.AuthKey = (NewBjWrapper curve).MulWithBasePoint receiver.PCT.Random ∧
      (NewBjWrapper curve).Curve.IsOnCurve
        ((NewBjWrapper curve).Curve.ScalarMul receiver.PublicKey.P receiver.PCT.Random) ∧
      (poseidon.PoseidonDecryptSingle pos
          (((NewBjWrapper curve).Curve.ScalarMul receiver.PublicKey.P receiver.PCT.Random).X,
           ((NewBjWrapper curve).Curve.ScalarMul receiver.PublicKey.P receiver.PCT.Random).Y)
          receiver.PCT.Nonce receiver.PCT.Ciphertext).Satisfied (NewBjWrapper curve).Curve ∧
      ∃ rest,
        (poseidon.PoseidonDecryptSingle pos
          (((NewBjWrapper curve).Curve.ScalarMul receiver.PublicKey.P receiver.PCT.Random).X,
           ((NewBjWrapper curve).Curve.ScalarMul receiver.PublicKey.P receiver.PCT.Random).Y)
          receiver.PCT.Nonce receiver.PCT.Ciphertext).result = some (value :: rest) := by
  have hon : (NewBjWrapper curve).Curve.IsOnCurve
      ((NewBjWrapper curve).MulWithBasePoint receiver.PCT.Random) := by
    obtain ⟨G, inst, φ, _, hon, _, _, hsmul⟩ := hlaw
    obtain ⟨g, hg⟩ := (hon _).1 hbase
    rw [babyjub.MulWithBasePoint_New, ← hg, hsmul]
    exact (hon _).2 ⟨_, rfl⟩
  rw [CheckPCTReceiver_satisfied_iff, order_sub_one_val]
  constructor
  · rintro ⟨h1, ⟨-, -, h4⟩, h5⟩
    exact ⟨h1, h4.symm, h5⟩
  · rintro ⟨h1, h4, h5⟩
    exact ⟨h1, ⟨hon, h4 ▸ hon, h4.symm⟩, h5⟩

/-- C13 (as stated, refuted). Over the lawful line backend, the auditor
`model.offCurveAuditor` has `PCT.Random = 1 <= order - 1`, `PCT.AuthKey = 1 * G`, and
`PoseidonDecryptSingle` run with the shared key `1 * pk = (1, 0)` accepts the ciphertext
and returns `[42]`; yet `CheckPCTAuditor` is not satisfied, because `MulWithScalar` asserts
the shared key on the curve and `(1, 0)` is not on it. -/
theorem C13_counterexample :
    (NewBjWrapper model.lineCurve).Curve.Lawful ∧
    (NewBjWrapper model.lineCurve).Curve.IsOnCurve (NewBjWrapper model.lineCurve).base8 ∧
    ¬ ((CheckPCTAuditor model.swapPrimitives (NewBjWrapper model.lineCurve)
          model.offCurveAuditor 42).Satisfied (NewBjWrapper model.lineCurve).Curve ↔
        model.offCurveAuditor.PCT.Random.val ≤ (NewBjWrapper model.lineCurve).BasePointOrder - 1 ∧
        model.offCurveAuditor.PCT.AuthKey
          = (NewBjWrapper model.lineCurve).MulWithBasePoint model.offCurveAuditor.PCT.Random ∧
        (poseidon.PoseidonDecryptSingle model.swapPrimitives
            (((NewBjWrapper model.lineCurve).Curve.ScalarMul model.offCurveAuditor.PublicKey.P
                model.offCurveAuditor.PCT.Random).X,
             ((NewBjWrapper model.lineCurve).Curve.ScalarMul model.offCurveAuditor.PublicKey.P
                model.offCurveAuditor.PCT.Random).Y)
            model.offCurveAuditor.PCT.Nonce model.offCurveAuditor.PCT.Ciphertext).Satisfied
          (NewBjWrapper model.lineCurve).Curve ∧
        ∃ rest,
          (poseidon.PoseidonDecryptSingle model.swapPrimitives
            (((NewBjWrapper model.lineCurve).Curve.ScalarMul model.offCurveAuditor.PublicKey.P
                model.offCurveAuditor.PCT.Random).X,
             ((NewBjWrapper model.lineCurve).Curve.ScalarMul model.offCurveAuditor.PublicKey.P
                model.offCurveAuditor.PCT.Random).Y)
            model.offCurveAuditor.PCT.Nonce model.offCurveAuditor.PCT.Ciphertext).result
            = some (42 :: rest)) := by
  refine ⟨model.lineCurve_lawful _, model.lineCurve_base, ?_⟩
  intro h
  have hkey : (((NewBjWrapper model.lineCurve).Curve.ScalarMul model.offCurveAuditor.PublicKey.P
        model.offCurveAuditor.PCT.Random).X,
      ((NewBjWrapper model.lineCurve).Curve.ScalarMul model.offCurveAuditor.PublicKey.P
        model.offCurveAuditor.PCT.Random).Y) = ((1 : Fr), (0 : Fr)) := by
    decide
  have hrun := poseidon.encryptSingle_accepted (NewBjWrapper model.lineCurve).Curve
    model.swapPrimitives (1, 0) 5 42 model.swapPrimitives_fourOutputs (by decide)
  have hsat := h.2 ⟨by decide, rfl, by rw [hkey]; exact hrun.2, [], by rw [hkey]; exact hrun.1⟩
  rw [← CheckPCTReceiver_eq_Auditor model.swapPrimitives _
      { PublicKey := model.offCurveAuditor.PublicKey
        ValueEGCT := { C1 := { X := 0, Y := 0 }, C2 := { X := 0, Y := 0 } }
        ValueRandom := { R := 0 }
        PCT := model.offCurveAuditor.PCT } model.offCurveAuditor 42 rfl rfl,
    CheckPCTReceiver_satisfied_iff] at hsat
  have hoff := hsat.2.2.1
  revert hoff
  decide

end circuits

namespace circuits

/-- C13 (amended). Over a lawful curve gadget, each of `CheckPCTReceiver` and
`CheckPCTAuditor`, on a party `(pk, PCT)` and a value, is satisfied exactly when
`PCT.Random <= order - 1`, `PCT.AuthKey = PCT.Random * G`, the shared key
`PCT.Random * pk` lies on the curve (as it does whenever `pk` does), and
`PoseidonDecryptSingle` run with the coordinates of the shared key, `PCT.Nonce` and
`PCT.Ciphertext` accepts and returns a first element equal to the value; the two functions
run the same computation on the same `pk`, `PCT` and value. -/
theorem C13_summary_check (curve : Curve) (pos : poseidon.Primitives) (receiver : Receiver)
    (auditor : Auditor) (value : Fr)
    (hlaw : (NewBjWrapper curve).Curve.Lawful)
    (hbase : (NewBjWrapper curve).Curve.IsOnCurve (NewBjWrapper curve).base8) :
    ((CheckPCTReceiver pos (NewBjWrapper curve) receiver value).Satisfied
        (NewBjWrapper curve).Curve ↔
      receiver.PCT.Random.val ≤ (NewBjWrapper curve).BasePointOrder - 1 ∧
      receiver.PCT.AuthKey = (NewBjWrapper curve).MulWithBasePoint receiver.PCT.Random ∧
      (NewBjWrapper curve).Curve.IsOnCurve
        ((NewBjWrapper curve).Curve.ScalarMul receiver.PublicKey.P receiver.PCT.Random) ∧
      (poseidon.PoseidonDecryptSingle pos
          (((NewBjWrapper curve).Curve.ScalarMul receiver.PublicKey.P receiver.PCT.Random).X,
           ((NewBjWrapper curve).Curve.ScalarMul receiver.PublicKey.P receiver.PCT.Random).Y)
          receiver.PCT.Nonce receiver.PCT.Ciphertext).Satisfied (NewBjWrapper curve).Curve ∧
      ∃ rest,
        (poseidon.PoseidonDecryptSingle pos
          (((NewBjWrapper curve).Curve.ScalarMul receiver.PublicKey.P receiver.PCT.Random).X,
           ((NewBjWrapper curve).Curve.ScalarMul receiver.PublicKey.P receiver.PCT.Random).Y)
          receiver.PCT.Nonce receiver.PCT.Ciphertext).result = some (value :: rest)) ∧
    ((CheckPCTAuditor pos (NewBjWrapper curve) auditor value).Satisfied
        (NewBjWrapper curve).Curve ↔
      auditor.PCT.Random.val ≤ (NewBjWrapper curve).BasePointOrder - 1 ∧
      auditor.PCT.AuthKey = (NewBjWrapper curve).MulWithBasePoint auditor.PCT.Random ∧
      (NewBjWrapper curve).Curve.IsOnCurve
        ((NewBjWrapper curve).Curve.ScalarMul auditor.PublicKey.P auditor.PCT.Random) ∧
      (poseidon.PoseidonDecryptSingle pos
          (((NewBjWrapper curve).Curve.ScalarMul auditor.PublicKey.P auditor.PCT.Random).X,
           ((NewBjWrapper curve).Curve.ScalarMul auditor.PublicKey.P auditor.PCT.Random).Y)
          auditor.PCT.Nonce auditor.PCT.Ciphertext).Satisfied (NewBjWrapper curve).Curve ∧
      ∃ rest,
        (poseidon.PoseidonDecryptSingle pos
          (((NewBjWrapper curve).Curve.ScalarMul auditor.PublicKey.P auditor.PCT.Random).X,
           ((NewBjWrapper curve).Curve.ScalarMul auditor.PublicKey.P auditor.PCT.Random).Y)
          auditor.PCT.Nonce auditor.PCT.Ciphertext).result = some (value :: rest)) ∧
    (∀ (P : Point) (s : Fr), (NewBjWrapper curve).Curve.IsOnCurve P →
      (NewBjWrapper curve).Curve.IsOnCurve ((NewBjWrapper curve).Curve.ScalarMul P s)) ∧
    (receiver.PublicKey = auditor.PublicKey → receiver.PCT = auditor.PCT →
      CheckPCTReceiver pos (NewBjWrapper curve) receiver value
        = CheckPCTAuditor pos (NewBjWrapper curve) auditor value) := by
  refine ⟨CheckPCTReceiver_satisfied_iff_lawful curve pos receiver value hlaw hbase, ?_, ?_,
    CheckPCTReceiver_eq_Auditor pos _ receiver auditor value⟩
  · rw [← CheckPCTReceiver_eq_Auditor pos _
      { PublicKey := auditor.PublicKey
        ValueEGCT := { C1 := { X := 0, Y := 0 }, C2 := { X := 0, Y := 0 } }
        ValueRandom := { R := 0 }
        PCT := auditor.PCT } auditor value rfl rfl]
    exact CheckPCTReceiver_satisfied_iff_lawful curve pos _ value hlaw hbase
  · intro P s hP
    obtain ⟨G, inst, φ, _, hon, _, _, hsmul⟩ := hlaw
    obtain ⟨a, rfl⟩ := (hon _).1 hP
    rw [hsmul]
    exact (hon _).2 ⟨_, rfl⟩

/-- The summary checks at the model receiver and auditor and value `150`, over the additive
backend. -/
theorem C13_summary_check_witness :
    ((CheckPCTReceiver model.swapPrimitives model.bj model.receiver 150).Satisfied
        model.bj.Curve ↔
      model.receiver.PCT.Random.val ≤ model.bj.BasePointOrder - 1 ∧
      model.receiver.PCT.AuthKey = model.bj.MulWithBasePoint model.receiver.PCT.Random ∧
      model.bj.Curve.IsOnCurve
        (model.bj.Curve.ScalarMul model.receiver.PublicKey.P model.receiver.PCT.Random) ∧
      (poseidon.PoseidonDecryptSingle model.swapPrimitives
          ((model.bj.Curve.ScalarMul model.receiver.PublicKey.P model.receiver.PCT.Random).X,
           (model.bj.Curve.ScalarMul model.receiver.PublicKey.P model.receiver.PCT.Random).Y)
          model.receiver.PCT.Nonce model.receiver.PCT.Ciphertext).Satisfied model.bj.Curve ∧
      ∃ rest,
        (poseidon.PoseidonDecryptSingle model.swapPrimitives
          ((model.bj.Curve.ScalarMul model.receiver.PublicKey.P model.receiver.PCT.Random).X,
           (model.bj.Curve.ScalarMul model.receiver.PublicKey.P model.receiver.PCT.Random).Y)
          model.receiver.PCT.Nonce model.receiver.PCT.Ciphertext).result
          = some (150 :: rest)) ∧
    ((CheckPCTAuditor model.swapPrimitives model.bj model.auditor 150).Satisfied
        model.bj.Curve ↔
      model.auditor.PCT.Random.val ≤ model.bj.BasePointOrder - 1 ∧
      model.auditor.PCT.AuthKey = model.bj.MulWithBasePoint model.auditor.PCT.Random ∧
      model.bj.Curve.IsOnCurve
        (model.bj.Curve.ScalarMul model.auditor.PublicKey.P model.auditor.PCT.Random) ∧
      (poseidon.PoseidonDecryptSingle model.swapPrimitives
          ((model.bj.Curve.ScalarMul model.auditor.PublicKey.P model.auditor.PCT.Random).X,
           (model.bj.Curve.ScalarMul model.auditor.PublicKey.P model.auditor.PCT.Random).Y)
          model.auditor.PCT.Nonce model.auditor.PCT.Ciphertext).Satisfied model.bj.Curve ∧
      ∃ rest,
        (poseidon.PoseidonDecryptSingle model.swapPrimitives
          ((model.bj.Curve.ScalarMul model.auditor.PublicKey.P model.auditor.PCT.Random).X,
           (model.bj.Curve.ScalarMul model.auditor.PublicKey.P model.auditor.PCT.Random).Y)
          model.auditor.PCT.Nonce model.auditor.PCT.Ciphertext).result
          = some (150 :: rest)) ∧
    (∀ (P : Point) (s : Fr), model.bj.Curve.IsOnCurve P →
      model.bj.Curve.IsOnCurve (model.bj.Curve.ScalarMul P s)) ∧
    (model.receiver.PublicKey = model.auditor.PublicKey →
      model.receiver.PCT = model.auditor.PCT →
      CheckPCTReceiver model.swapPrimitives model.bj model.receiver 150
        = CheckPCTAuditor model.swapPrimitives model.bj model.auditor 150) :=
  C13_summary_check model.additiveCurve model.swapPrimitives model.receiver model.auditor 150
    model.bj_lawful model.bj_base

/-- C14. `CheckNullifierHash` depends on the auditor through `PCT.Ciphertext` only: two
auditors with the same four ciphertext elements give the same run, whatever their public
keys, authentication keys, nonces and randomness; and for a chain id and ciphertext exactly
one nullifier hash is accepted, `H(chainId, ciphertext)`. -/
theorem C14_nullifier_hash (c : Curve) (pos : poseidon.Primitives) (auditor other : Auditor)
    (nullifier : MintNullifier) (h : auditor.PCT.Ciphertext = other.PCT.Ciphertext) :
    CheckNullifierHash pos auditor nullifier = CheckNullifierHash pos other nullifier ∧
    ((CheckNullifierHash pos auditor nullifier).Satisfied c ↔
      nullifier.NullifierHash
        = pos.CalculateNullifierHash nullifier.ChainID (List.ofFn auditor.PCT.Ciphertext)) ∧
    (∀ n m : MintNullifier, n.ChainID = m.ChainID →
      (CheckNullifierHash pos auditor n).Satisfied c →
      (CheckNullifierHash pos other m).Satisfied c →
      n.NullifierHash = m.NullifierHash) := by
  have hiff : ∀ (a : Auditor) (n : MintNullifier),
      (CheckNullifierHash pos a n).Satisfied c ↔
        n.NullifierHash = pos.CalculateNullifierHash n.ChainID (List.ofFn a.PCT.Ciphertext) := by
    intro a n
    unfold CheckNullifierHash
    rw [satisfied_AssertIsEqual]
    exact eq_comm
  refine ⟨?_, hiff _ _, ?_⟩
  · unfold CheckNullifierHash
    rw [h]
  · intro n m hc hn hm
    rw [(hiff _ _).1 hn, (hiff _ _).1 hm, hc, h]

/-- The nullifier check at two auditors that share the ciphertext and differ in all other
fields. -/
theorem C14_nullifier_hash_witness :
    CheckNullifierHash model.swapPrimitives model.auditor { ChainID := 1, NullifierHash := 1 }
      = CheckNullifierHash model.swapPrimitives
          { PublicKey := { P := { X := 5, Y := 6 } }
            PCT := { model.pct with AuthKey := { X := 7, Y := 8 }, Nonce := 9, Random := 10 } }
          { ChainID := 1, NullifierHash := 1 } ∧
    ((CheckNullifierHash model.swapPrimitives model.auditor
        { ChainID := 1, NullifierHash := 1 }).Satisfied model.additiveCurve ↔
      (1 : Fr) = model.swapPrimitives.CalculateNullifierHash 1
        (List.ofFn model.auditor.PCT.Ciphertext)) ∧
    (∀ n m : MintNullifier, n.ChainID = m.ChainID →
      (CheckNullifierHash model.swapPrimitives model.auditor n).Satisfied model.additiveCurve →
      (CheckNullifierHash model.swapPrimitives
          { PublicKey := { P := { X := 5, Y := 6 } }
            PCT := { model.pct with AuthKey := { X := 7, Y := 8 }, Nonce := 9, Random := 10 } }
          m).Satisfied model.additiveCurve →
      n.NullifierHash = m.NullifierHash) :=
  C14_nullifier_hash model.additiveCurve model.swapPrimitives model.auditor
    { PublicKey := { P := { X := 5, Y := 6 } }
      PCT := { model.pct with AuthKey := { X := 7, Y := 8 }, Nonce := 9, Random := 10 } }
    { ChainID := 1, NullifierHash := 1 } rfl

end circuits

namespace schema

/-- C15 (as stated, refuted). The declared public inputs of the Register circuit are not
`address, chainId, registrationHash` alone, and the public key is not a private input: its
two coordinates are public inputs and come first. -/
theorem C15_counterexample :
    ¬ (publicInputs true RegistrationCircuit
          = [["Sender", "Address"], ["Sender", "ChainID"], ["Sender", "RegistrationHash"]] ∧
        ["Sender", "PublicKey", "P", "X"] ∈ secretInputs true RegistrationCircuit ∧
        ["Sender", "PublicKey", "P", "Y"] ∈ secretInputs true RegistrationCircuit) ∧
    ¬ (publicInputs false RegistrationCircuit
          = [["Sender", "Address"], ["Sender", "ChainID"], ["Sender", "RegistrationHash"]] ∧
        ["Sender", "PublicKey", "P", "X"] ∈ secretInputs false RegistrationCircuit ∧
        ["Sender", "PublicKey", "P", "Y"] ∈ secretInputs false RegistrationCircuit) := by
  decide

/-- C15 (amended). The declared public inputs of the Register circuit are exactly the two
coordinates of the public key, the address, the chain id and the registration hash, in that
order; the private key is the only private input, and it comes after the public ones in the
witness order. -/
theorem C15_register_inputs (parentWins : Bool) :
    publicInputs parentWins RegistrationCircuit
      = [["Sender", "PublicKey", "P", "X"], ["Sender", "PublicKey", "P", "Y"],
         ["Sender", "Address"], ["Sender", "ChainID"], ["Sender", "RegistrationHash"]] ∧
    secretInputs parentWins RegistrationCircuit = [["Sender", "PrivateKey"]] ∧
    witnessOrder parentWins RegistrationCircuit
      = [["Sender", "PublicKey", "P", "X"], ["Sender", "PublicKey", "P", "Y"],
         ["Sender", "Address"], ["Sender", "ChainID"], ["Sender", "RegistrationHash"],
         ["Sender", "PrivateKey"]] := by
  cases parentWins <;> decide

end schema

namespace utils

theorem SetBytes_foldl (buf : List Byte) (acc : Nat) :
    buf.foldl (fun acc b => acc * 256 + b.val) acc
      = acc * 256 ^ buf.length
        + ∑ i in Finset.range buf.length, (buf.getD i 0).val * 256 ^ (buf.length - 1 - i) := by
  induction buf generalizing acc with
  | nil => simp
  | cons b rest ih =>
    rw [List.foldl_cons, ih, List.length_cons, Finset.sum_range_succ']
    have h : ∀ i, rest.length + 1 - 1 - (i + 1) = rest.length - 1 - i := fun i => by omega
    simp only [List.getD_cons_succ, List.getD_cons_zero, h]
    have h2 : rest.length + 1 - 1 - 0 = rest.length := by omega
    rw [h2]
    ring

theorem SetBytes_eq (buf : List Byte) :
    SetBytes buf
      = ∑ i in Finset.range buf.length, (buf.getD i 0).val * 256 ^ (buf.length - 1 - i) := by
  unfold SetBytes
  rw [SetBytes_foldl]
  simp

theorem SetBytes_block (proofBytes : List Byte) (k : Nat)
    (h : 32 * k + 32 ≤ proofBytes.length) :
    SetBytes ((proofBytes.drop (32 * k)).take 32) = bigEndianValue proofBytes k := by
  rw [SetBytes_eq]
  have hlen : ((proofBytes.drop (32 * k)).take 32).length = 32 := by
    simp only [List.length_take, List.length_drop]
    omega
  rw [hlen]
  unfold bigEndianValue
  apply Finset.sum_congr rfl
  intro i hi
  have hi32 : i < 32 := Finset.mem_range.1 hi
  have e : ((proofBytes.drop (32 * k)).take 32).getD i 0 = proofBytes.getD (32 * k + i) 0 := by
    simp only [List.getD_eq_getElem?_getD, List.getElem?_take, List.getElem?_drop, if_pos hi32]
  rw [e]

theorem field_eq (proofBytes : List Byte) (k : Nat) (h : 32 * k + 32 ≤ proofBytes.length) :
    field proofBytes (32 * k) (32 * k + 32) = some (Nat.repr (bigEndianValue proofBytes k)) := by
  have hc : 32 * k ≤ 32 * k + 32 ∧ 32 * k + 32 ≤ proofBytes.length := ⟨by omega, h⟩
  have e : 32 * k + 32 - 32 * k = 32 := by omega
  unfold field sliceRange
  rw [if_pos hc, e, Option.map_some', SetBytes_block proofBytes k h]

end utils

namespace utils

theorem setProofABC_eq (proofBytes : List Byte) (hlen : 256 ≤ proofBytes.length) :
    setProofABC proofBytes = some
      { a := (Nat.repr (bigEndianValue proofBytes 0), Nat.repr (bigEndianValue proofBytes 1))
        b := ((Nat.repr (bigEndianValue proofBytes 2), Nat.repr (bigEndianValue proofBytes 3)),
              (Nat.repr (bigEndianValue proofBytes 4), Nat.repr (bigEndianValue proofBytes 5)))
        c := (Nat.repr (bigEndianValue proofBytes 6), Nat.repr (bigEndianValue proofBytes 7)) } := by
  have h0 : field proofBytes (4 * 8 * 0) (4 * 8 * 1) = _ := field_eq proofBytes 0 (by omega)
  have h1 : field proofBytes (4 * 8 * 1) (4 * 8 * 2) = _ := field_eq proofBytes 1 (by omega)
  have h2 : field proofBytes (4 * 8 * 2) (4 * 8 * 3) = _ := field_eq proofBytes 2 (by omega)
  have h3 : field proofBytes (4 * 8 * 3) (4 * 8 * 4) = _ := field_eq proofBytes 3 (by omega)
  have h4 : field proofBytes (4 * 8 * 4) (4 * 8 * 5) = _ := field_eq proofBytes 4 (by omega)
  have h5 : field proofBytes (4 * 8 * 5) (4 * 8 * 6) = _ := field_eq proofBytes 5 (by omega)
  have h6 : field proofBytes (4 * 8 * 6) (4 * 8 * 7) = _ := field_eq proofBytes 6 (by omega)
  have h7 : field proofBytes (4 * 8 * 7) (4 * 8 * 8) = _ := field_eq proofBytes 7 (by omega)
  unfold setProofABC
  simp only [h0, h1, h2, h3, h4, h5, h6, h7, Option.bind_eq_bind, Option.some_bind,
    Option.pure_def]

/-- C16. For every raw proof of at least 256 bytes, `SetProof` (through `setProofABC`)
returns `a`, `b`, `c` without a panic, and `WriteProof` then produces the object with the
single key `"proof"` whose value has exactly eight entries in the order
`a0, a1, b00, b01, b10, b11, c0, c1`; entry `k` is the decimal text of the bytes
`[32k, 32k+32)` of the raw proof read as a big-endian unsigned integer. -/
theorem C16_proof_output (proof : Proof) (proofBytes : List Byte) (output : String)
    (hraw : proof.WriteRawTo = some proofBytes) (hlen : 256 ≤ proofBytes.length) :
    ∃ p, SetProof proof = some p ∧ setProofABC proofBytes = some p ∧
      p.a = (Nat.repr (bigEndianValue proofBytes 0), Nat.repr (bigEndianValue proofBytes 1)) ∧
      p.b = ((Nat.repr (bigEndianValue proofBytes 2), Nat.repr (bigEndianValue proofBytes 3)),
             (Nat.repr (bigEndianValue proofBytes 4), Nat.repr (bigEndianValue proofBytes 5))) ∧
      p.c = (Nat.repr (bigEndianValue proofBytes 6), Nat.repr (bigEndianValue proofBytes 7)) ∧
      WriteProof output p
        = (output,
            [("proof", (List.range 8).map fun k => Nat.repr (bigEndianValue proofBytes k))]) ∧
      ∀ k, k < 8 → bigEndianValue proofBytes k
        = SetBytes ((proofBytes.drop (32 * k)).take 32) := by
  refine ⟨_, ?_, setProofABC_eq proofBytes hlen, rfl, rfl, rfl, rfl, ?_⟩
  · unfold SetProof
    rw [hraw]
    exact setProofABC_eq proofBytes hlen
  · intro k hk
    exact (SetBytes_block proofBytes k (by omega)).symm

/-- The proof output at the raw proof whose 256 bytes are `0, 1, ..., 255`. -/
theorem C16_proof_output_witness :
    ∃ p, SetProof { WriteRawTo := some (List.ofFn fun i : Fin 256 => i) } = some p ∧
      setProofABC (List.ofFn fun i : Fin 256 => i) = some p ∧
      p.a = (Nat.repr (bigEndianValue (List.ofFn fun i : Fin 256 => i) 0),
             Nat.repr (bigEndianValue (List.ofFn fun i : Fin 256 => i) 1)) ∧
      p.b = ((Nat.repr (bigEndianValue (List.ofFn fun i : Fin 256 => i) 2),
              Nat.repr (bigEndianValue (List.ofFn fun i : Fin 256 => i) 3)),
             (Nat.repr (bigEndianValue (List.ofFn fun i : Fin 256 => i) 4),
              Nat.repr (bigEndianValue (List.ofFn fun i : Fin 256 => i) 5))) ∧
      p.c = (Nat.repr (bigEndianValue (List.ofFn fun i : Fin 256 => i) 6),
             Nat.repr (bigEndianValue (List.ofFn fun i : Fin 256 => i) 7)) ∧
      WriteProof "proof.json" p
        = ("proof.json",
            [("proof", (List.range 8).map fun k =>
                Nat.repr (bigEndianValue (List.ofFn fun i : Fin 256 => i) k))]) ∧
      ∀ k, k < 8 → bigEndianValue (List.ofFn fun i : Fin 256 => i) k
        = SetBytes (((List.ofFn fun i : Fin 256 => i).drop (32 * k)).take 32) :=
  C16_proof_output { WriteRawTo := some (List.ofFn fun i : Fin 256 => i) }
    (List.ofFn fun i : Fin 256 => i) "proof.json" rfl (le_of_eq (List.length_ofFn _).symm)

end utils

namespace poseidon

theorem Circuit.some_nil_bind {α β : Type} (a : α) (f : α → Circuit β) :
    @Bind.bind Circuit _ α β (some (a, [])) f = f a := by
  show (match f a with
    | none => none
    | some (b, ds) => some (b, [] ++ ds)) = f a
  rcases f a with _ | ⟨b, ds⟩ <;> rfl

theorem index_of_lt {α : Type} (xs : List α) (i : Nat) (d : α) (h : i < xs.length) :
    index xs i = some (xs.getD i d, []) := by
  unfold index
  rw [List.getD_eq_getElem?_getD, List.getElem?_eq_getElem h]
  rfl

theorem assign_of_lt {α : Type} (xs : List α) (i : Nat) (v : α) (h : i < xs.length) :
    assign xs i v = some (xs.set i v, []) := by
  unfold assign
  rw [if_pos h]

theorem two128_eq : ((340282366920938463463374607431768211456 : Nat) : Fr) = 2 ^ 128 := by
  norm_num

theorem permutationState_succ (pos : Primitives) (L : Nat) (key : Fr × Fr) (nonce : Fr)
    (ct : List Fr) (i : Nat) :
    permutationState pos L key nonce ct (i + 1)
      = pos.PoseidonEx [ct.getD (i * 3) 0, ct.getD (i * 3 + 1) 0, ct.getD (i * 3 + 2) 0]
          ((permutationState pos L key nonce ct i).getD 0 0) 4 := by
  rw [permutationState, Nat.mul_comm 3 i]

theorem permutationState_length (pos : Primitives) (hpos : pos.FourOutputs) (L : Nat)
    (key : Fr × Fr) (nonce : Fr) (ct : List Fr) (i : Nat) :
    (permutationState pos L key nonce ct i).length = 4 := by
  cases i <;> exact hpos _ _

/-- One run of the inner loop that fills a block of the output. -/
theorem subtractBlock_eq (ct : List Fr) (strategies : List (List Fr)) (i : Nat) (out : List Fr)
    (hct : i * 3 + 2 < ct.length) (hout : i * 3 + 2 < out.length) (hi : i < strategies.length)
    (hS : (strategies.getD i []).length = 4) :
    subtractBlock ct strategies i out
      = some (((out.set (i * 3) (ct.getD (i * 3) 0 - (strategies.getD i []).getD 1 0)).set
            (i * 3 + 1) (ct.getD (i * 3 + 1) 0 - (strategies.getD i []).getD 2 0)).set
            (i * 3 + 2) (ct.getD (i * 3 + 2) 0 - (strategies.getD i []).getD 3 0), []) := by
  unfold subtractBlock
  have hr : List.range 3 = [0, 1, 2] := rfl
  rw [hr]
  simp only [List.foldlM_cons, List.foldlM_nil]
  rw [index_of_lt ct (i * 3 + 0) 0 (by omega), Circuit.some_nil_bind,
    index_of_lt strategies i [] hi, Circuit.some_nil_bind,
    index_of_lt (strategies.getD i []) (0 + 1) 0 (by omega), Circuit.some_nil_bind,
    assign_of_lt _ _ _ (by omega), Circuit.some_nil_bind,
    index_of_lt ct (i * 3 + 1) 0 (by omega), Circuit.some_nil_bind,
    Circuit.some_nil_bind,
    index_of_lt (strategies.getD i []) (1 + 1) 0 (by omega), Circuit.some_nil_bind,
    assign_of_lt _ _ _ (by rw [List.length_set]; omega), Circuit.some_nil_bind,
    index_of_lt ct (i * 3 + 2) 0 (by omega), Circuit.some_nil_bind,
    Circuit.some_nil_bind,
    index_of_lt (strategies.getD i []) (2 + 1) 0 (by omega), Circuit.some_nil_bind,
    assign_of_lt _ _ _ (by rw [List.length_set, List.length_set]; omega), Circuit.some_nil_bind]
  rfl

/-- One run of the inner loop that copies a ciphertext block. -/
theorem absorbBlock_eq (ct : List Fr) (i : Nat) (hct : i * 3 + 2 < ct.length) :
    absorbBlock ct i
      = some ([ct.getD (i * 3) 0, ct.getD (i * 3 + 1) 0, ct.getD (i * 3 + 2) 0], []) := by
  unfold absorbBlock
  have hr : List.range 3 = [0, 1, 2] := rfl
  rw [hr]
  simp only [List.foldlM_cons, List.foldlM_nil]
  rw [index_of_lt ct (i * 3 + 0) 0 (by omega), Circuit.some_nil_bind,
    assign_of_lt _ _ _ (by simp), Circuit.some_nil_bind,
    index_of_lt ct (i * 3 + 1) 0 (by omega), Circuit.some_nil_bind,
    assign_of_lt _ _ _ (by simp), Circuit.some_nil_bind,
    index_of_lt ct (i * 3 + 2) 0 (by omega), Circuit.some_nil_bind,
    assign_of_lt _ _ _ (by simp), Circuit.some_nil_bind]
  rfl

end poseidon

namespace poseidon

theorem padLoop_mod (L : Nat) : padLoop L % 3 = 0 := by
  rw [padLoop_eq]; omega

theorem padLoop_blocks (L : Nat) : (padLoop L + 1) / 3 * 3 = padLoop L := by
  have := padLoop_mod L
  omega

theorem strategiesAfter_getD (pos : Primitives) (L : Nat) (key : Fr × Fr) (nonce : Fr)
    (ct : List Fr) (m i : Nat) (hi : i ≤ m) (hm : i ≤ (padLoop L + 1) / 3) :
    (strategiesAfter pos L key nonce ct m).getD i [] = permutationState pos L key nonce ct i := by
  unfold strategiesAfter
  rw [List.getD_eq_getElem?_getD, List.getElem?_map, List.getElem?_range (by omega)]
  simp [hi]

theorem outAfter_step (pos : Primitives) (L : Nat) (key : Fr × Fr) (nonce : Fr)
    (ct : List Fr) (m : Nat) :
    (((outAfter pos L key nonce ct m).set (m * 3)
        (ct.getD (m * 3) 0 - (permutationState pos L key nonce ct m).getD 1 0)).set (m * 3 + 1)
        (ct.getD (m * 3 + 1) 0 - (permutationState pos L key nonce ct m).getD 2 0)).set
        (m * 3 + 2)
        (ct.getD (m * 3 + 2) 0 - (permutationState pos L key nonce ct m).getD 3 0)
      = outAfter pos L key nonce ct (m + 1) := by
  have p0 : plaintext pos L key nonce ct (m * 3)
      = ct.getD (m * 3) 0 - (permutationState pos L key nonce ct m).getD 1 0 := by
    unfold plaintext
    rw [show m * 3 / 3 = m by omega, show m * 3 % 3 = 0 by omega]
  have p1 : plaintext pos L key nonce ct (m * 3 + 1)
      = ct.getD (m * 3 + 1) 0 - (permutationState pos L key nonce ct m).getD 2 0 := by
    unfold plaintext
    rw [show (m * 3 + 1) / 3 = m by omega, show (m * 3 + 1) % 3 = 1 by omega]
  have p2 : plaintext pos L key nonce ct (m * 3 + 2)
      = ct.getD (m * 3 + 2) 0 - (permutationState pos L key nonce ct m).getD 3 0 := by
    unfold plaintext
    rw [show (m * 3 + 2) / 3 = m by omega, show (m * 3 + 2) % 3 = 2 by omega]
  rw [← p0, ← p1, ← p2]
  unfold outAfter
  apply List.ext_getElem
  · simp
  · intro k h1 h2
    simp only [List.getElem_set, List.getElem_map, List.getElem_range]
    by_cases e2 : m * 3 + 2 = k
    · subst e2
      rw [if_pos rfl, if_pos (by omega)]
    · rw [if_neg e2]
      by_cases e1 : m * 3 + 1 = k
      · subst e1
        rw [if_pos rfl, if_pos (by omega)]
      · rw [if_neg e1]
        by_cases e0 : m * 3 = k
        · subst e0
          rw [if_pos rfl, if_pos (by omega)]
        · rw [if_neg e0]
          by_cases hk : k < m * 3
          · rw [if_pos hk, if_pos (by omega)]
          · rw [if_neg hk, if_neg (by omega)]

theorem strategiesAfter_step (pos : Primitives) (L : Nat) (key : Fr × Fr) (nonce : Fr)
    (ct : List Fr) (m : Nat) :
    (strategiesAfter pos L key nonce ct m).set (m + 1)
        (permutationState pos L key nonce ct (m + 1))
      = strategiesAfter pos L key nonce ct (m + 1) := by
  unfold strategiesAfter
  apply List.ext_getElem
  · simp
  · intro k h1 h2
    simp only [List.getElem_set, List.getElem_map, List.getElem_range]
    by_cases e : m + 1 = k
    · subst e
      rw [if_pos rfl, if_pos (le_refl _)]
    · rw [if_neg e]
      by_cases hk : k ≤ m
      · rw [if_pos hk, if_pos (by omega)]
      · rw [if_neg hk, if_neg (by omega)]

/-- The block loop from block `s` on, for `c` more blocks. -/
theorem blockLoop_from (pos : Primitives) (hpos : pos.FourOutputs) (L : Nat) (key : Fr × Fr)
    (nonce : Fr) (ct : List Fr) (hlen : padLoop L + 1 ≤ ct.length) (c s : Nat)
    (hs : s + c ≤ (padLoop L + 1) / 3) :
    ((List.range' s c).foldlM (fun (st : List Fr × List (List Fr)) i => do
        let out ← subtractBlock ct st.2 i st.1
        let strategiesInput ← absorbBlock ct i
        let si ← index st.2 i
        let carry ← index si 0
        let strategies ← assign st.2 (i + 1) (pos.PoseidonEx strategiesInput carry 4)
        return (out, strategies))
        (outAfter pos L key nonce ct s, strategiesAfter pos L key nonce ct s) :
        Circuit (List Fr × List (List Fr)))
      = some ((outAfter pos L key nonce ct (s + c),
          strategiesAfter pos L key nonce ct (s + c)), []) := by
  induction c generalizing s with
  | zero => rfl
  | succ c ih =>
    have hb := padLoop_blocks L
    have hS := strategiesAfter_getD pos L key nonce ct s s (le_refl _) (by omega)
    have hS4 := permutationState_length pos hpos L key nonce ct s
    have hlenS : (strategiesAfter pos L key nonce ct s).length = (padLoop L + 1) / 3 + 1 := by
      simp [strategiesAfter]
    have hlenO : (outAfter pos L key nonce ct s).length = padLoop L := by
      simp [outAfter]
    rw [List.range'_succ, List.foldlM_cons]
    simp only []
    rw [subtractBlock_eq ct _ s _ (by omega) (by omega) (by omega) (by rw [hS, hS4]),
      Circuit.some_nil_bind, absorbBlock_eq ct s (by omega), Circuit.some_nil_bind,
      index_of_lt _ s [] (by omega), Circuit.some_nil_bind, hS,
      index_of_lt _ 0 0 (by omega), Circuit.some_nil_bind,
      assign_of_lt _ _ _ (by omega), Circuit.some_nil_bind,
      ← permutationState_succ, outAfter_step, strategiesAfter_step]
    have := ih (s + 1) (by omega)
    rw [show s + (c + 1) = s + 1 + c by omega]
    exact (Circuit.some_nil_bind _ _).trans this

end poseidon

namespace poseidon

theorem Circuit.some_bind {α β : Type} (a : α) (cs : List Constraint) (f : α → Circuit β) :
    @Bind.bind Circuit _ α β (some (a, cs)) f
      = (match f a with
        | none => none
        | some (b, ds) => some (b, cs ++ ds)) := rfl

theorem padLoop_ge (L : Nat) : L ≤ padLoop L := by
  rw [padLoop_eq]; omega

theorem outAfter_all (pos : Primitives) (L : Nat) (key : Fr × Fr) (nonce : Fr)
    (ct : List Fr) :
    outAfter pos L key nonce ct ((padLoop L + 1) / 3)
      = (List.range (padLoop L)).map (plaintext pos L key nonce ct) := by
  unfold outAfter
  rw [padLoop_blocks]
  apply List.map_congr_left
  intro k hk
  rw [if_pos (List.mem_range.1 hk)]

theorem strategiesAfter_zero (pos : Primitives) (L : Nat) (key : Fr × Fr) (nonce : Fr)
    (ct : List Fr) :
    (List.replicate ((padLoop L + 1) / 3 + 1) ([] : List Fr)).set 0
        (pos.PoseidonEx [key.1, key.2,
          api.Add nonce (api.Mul (L : Fr) ((340282366920938463463374607431768211456 : Nat) : Fr))]
          0 4)
      = strategiesAfter pos L key nonce ct 0 := by
  unfold strategiesAfter
  apply List.ext_getElem
  · simp
  · intro k h1 h2
    simp only [List.getElem_set, List.getElem_map, List.getElem_range, List.getElem_replicate]
    by_cases e : 0 = k
    · subst e
      rw [if_pos rfl, if_pos (le_refl _), permutationState, ← two128_eq]
      rfl
    · rw [if_neg e, if_neg (by omega)]

theorem outAfter_zero (pos : Primitives) (L : Nat) (key : Fr × Fr) (nonce : Fr)
    (ct : List Fr) :
    List.replicate (padLoop L) (0 : Fr) = outAfter pos L key nonce ct 0 := by
  unfold outAfter
  apply List.ext_getElem
  · simp
  · intro k h1 h2
    simp

/-- The padding assertions over a list of indices in range. -/
theorem assertPadding_list (out : List Fr) (is : List Nat) (h : ∀ i ∈ is, i < out.length) :
    (is.foldlM (fun (_ : Unit) i => do
        let o ← index out i
        api.AssertIsEqual o 0) () : Circuit Unit)
      = some ((), is.map fun i => .AssertIsEqual (out.getD i 0) 0) := by
  induction is with
  | nil => rfl
  | cons i rest ih =>
    rw [List.foldlM_cons, index_of_lt out i 0 (h i (List.mem_cons_self _ _)),
      Circuit.some_nil_bind]
    have hA : api.AssertIsEqual (out.getD i 0) 0
        = some ((), [.AssertIsEqual (out.getD i 0) 0]) := rfl
    rw [hA, Circuit.some_bind, ih (fun j hj => h j (List.mem_cons_of_mem _ hj))]
    rfl

theorem assertPadding_eq (pos : Primitives) (L : Nat) (key : Fr × Fr) (nonce : Fr)
    (ct : List Fr) :
    assertPadding ((List.range (padLoop L)).map (plaintext pos L key nonce ct)) L (padLoop L)
      = some ((), (List.range' L (padLoop L - L)).map fun i =>
          .AssertIsEqual (plaintext pos L key nonce ct i) 0) := by
  unfold assertPadding
  have hge := padLoop_ge L
  rw [assertPadding_list _ _ (by
    intro i hi
    rw [List.mem_range'_1] at hi
    simp only [List.length_map, List.length_range]
    omega)]
  congr 2
  apply List.map_congr_left
  intro i hi
  rw [List.mem_range'_1] at hi
  rw [List.getD_eq_getElem?_getD, List.getElem?_map, List.getElem?_range (by omega)]
  rfl

end poseidon

namespace poseidon

theorem blockLoop_eq (pos : Primitives) (hpos : pos.FourOutputs) (L : Nat) (key : Fr × Fr)
    (nonce : Fr) (ct : List Fr) (hlen : padLoop L + 1 ≤ ct.length) :
    blockLoop pos ct ((padLoop L + 1) / 3) (outAfter pos L key nonce ct 0)
        (strategiesAfter pos L key nonce ct 0)
      = some (((List.range (padLoop L)).map (plaintext pos L key nonce ct),
          strategiesAfter pos L key nonce ct ((padLoop L + 1) / 3)), []) := by
  unfold blockLoop
  rw [List.range_eq_range', blockLoop_from pos hpos L key nonce ct hlen _ 0 (by omega),
    Nat.zero_add, outAfter_all]

/-- The run of `poseidonDecrypt` on a ciphertext of at least `L' + 1` elements, for a
permutation that returns four elements: the value returned and the assertions recorded, in
order. -/
theorem poseidonDecrypt_run (pos : Primitives) (hpos : pos.FourOutputs) (L : Nat)
    (key : Fr × Fr) (nonce : Fr) (ct : List Fr) (hlen : padLoop L + 1 ≤ ct.length) :
    poseidonDecrypt pos L key nonce ct
      = some ((List.range L).map (plaintext pos L key nonce ct),
          .AssertIsLessOrEqual nonce (((340282366920938463463374607431768211456 : Nat) : Fr) - 1)
            :: ((List.range' L (padLoop L - L)).map fun i =>
                  .AssertIsEqual (plaintext pos L key nonce ct i) 0)
            ++ [.AssertIsEqual (ct.getD (padLoop L) 0)
                  ((permutationState pos L key nonce ct ((padLoop L + 1) / 3)).getD 1 0)]) := by
  have hge := padLoop_ge L
  have hB : ∀ a b : Fr, api.AssertIsEqual a b = some ((), [.AssertIsEqual a b]) :=
    fun _ _ => rfl
  have tail : ∀ pads : List Constraint,
      (@Bind.bind Circuit _ PUnit (List Fr) (some (PUnit.unit, pads)) fun _ => do
        let tag ← index ct (padLoop L)
        let sn ← index (strategiesAfter pos L key nonce ct ((padLoop L + 1) / 3))
          ((padLoop L + 1) / 3)
        let sn1 ← index sn 1
        api.AssertIsEqual tag sn1
        slice ((List.range (padLoop L)).map (plaintext pos L key nonce ct)) L)
      = some ((List.range L).map (plaintext pos L key nonce ct),
          pads ++ [.AssertIsEqual (ct.getD (padLoop L) 0)
            ((permutationState pos L key nonce ct ((padLoop L + 1) / 3)).getD 1 0)]) := by
    intro pads
    rw [Circuit.some_bind, index_of_lt ct _ 0 (by omega), Circuit.some_nil_bind,
      index_of_lt _ ((padLoop L + 1) / 3) [] (by simp [strategiesAfter]),
      Circuit.some_nil_bind,
      strategiesAfter_getD pos L key nonce ct _ _ (le_refl _) (le_refl _),
      index_of_lt _ 1 0 (by rw [permutationState_length pos hpos]; omega),
      Circuit.some_nil_bind, hB, Circuit.some_bind]
    unfold slice
    rw [if_pos (by simp only [List.length_map, List.length_range]; exact hge)]
    simp only [← List.map_take, List.take_range, Nat.min_eq_left hge, List.append_nil,
      List.singleton_append, List.cons_append, List.nil_append]
  unfold poseidonDecrypt
  simp only []
  have hA : api.AssertIsLessOrEqual nonce
      (api.Sub ((340282366920938463463374607431768211456 : Nat) : Fr) 1)
      = some ((), [.AssertIsLessOrEqual nonce
          (((340282366920938463463374607431768211456 : Nat) : Fr) - 1)]) := rfl
  rw [hA, Circuit.some_bind, assign_of_lt _ _ _ (by simp), Circuit.some_nil_bind,
    strategiesAfter_zero pos L key nonce ct, outAfter_zero pos L key nonce ct,
    blockLoop_eq pos hpos L key nonce ct hlen, Circuit.some_nil_bind]
  simp only []
  by_cases h : L % 3 ≠ 0
  · rw [if_pos h, assertPadding_eq, tail]
    rfl
  · rw [if_neg h]
    have hP : (pure PUnit.unit : Circuit PUnit) = some (PUnit.unit, []) := rfl
    rw [hP, tail, padLoop_of_dvd L (by omega), Nat.sub_self]
    rfl

end poseidon

namespace poseidon

theorem initialState_eq (pos : Primitives) (key : Fr × Fr) (nonce : Fr) :
    initialState pos key nonce = pos.PoseidonEx [key.1, key.2, nonce + 2 ^ 128] 0 4 := by
  unfold initialState api.Add api.Mul
  rw [two128_eq, Nat.cast_one, one_mul]

theorem run_constraints {α : Type} (m : Circuit α) (a : α) (cs : List Constraint)
    (h : m = some (a, cs)) : m.constraints = cs ∧ m.result = some a := by
  subst h
  exact ⟨rfl, rfl⟩

/-- C17 (as stated, refuted). With the permutation that exchanges the first two state
elements, key `(1, 2)` and nonce `5`, the ciphertext `[42, 2, 5 + 2^128, 1]` is accepted,
the last permutation state is `[42, 1, 2, 5 + 2^128]`, and the tag `1` differs from its
element `0`: the last assertion is not the comparison of the tag with element `0`. -/
theorem C17_counterexample :
    (PoseidonDecryptSingle model.swapPrimitives (1, 2) 5 model.acceptedCiphertext).Satisfied
        model.additiveCurve ∧
    permutationState model.swapPrimitives 1 (1, 2) 5 (List.ofFn model.acceptedCiphertext) 1
      = [42, 1, 2, 5 + ((340282366920938463463374607431768211456 : Nat) : Fr)] ∧
    model.acceptedCiphertext 3
      ≠ (permutationState model.swapPrimitives 1 (1, 2) 5
          (List.ofFn model.acceptedCiphertext) 1).getD 0 0 ∧
    (PoseidonDecryptSingle model.swapPrimitives (1, 2) 5
        model.acceptedCiphertext).constraints.getLast?
      ≠ some (.AssertIsEqual (model.acceptedCiphertext 3)
          ((permutationState model.swapPrimitives 1 (1, 2) 5
            (List.ofFn model.acceptedCiphertext) 1).getD 0 0)) := by
  refine ⟨?_, by decide, by decide, ?_⟩
  · rw [PoseidonDecryptSingle_satisfied_iff _ _ _ _ _ model.swapPrimitives_fourOutputs]
    exact ⟨by decide, rfl, rfl, rfl⟩
  · rw [PoseidonDecryptSingle_run _ _ _ _ model.swapPrimitives_fourOutputs]
    decide

/-- C17 (amended). In `poseidonDecrypt` the integrity check is the last assertion recorded,
and it asserts that the final ciphertext element `cipherText[L']` (the authentication tag)
equals the element at position `1` of the four outputs of the last permutation call
`strategies[n]`, the element after the carry; a satisfied run therefore has the tag equal
to that element. -/
theorem C17_tag_assertion (c : Curve) (pos : Primitives) (hpos : pos.FourOutputs) (L : Nat)
    (key : Fr × Fr) (nonce : Fr) (ct : List Fr) (hlen : padLoop L + 1 ≤ ct.length) :
    (poseidonDecrypt pos L key nonce ct).constraints.getLast?
      = some (.AssertIsEqual (ct.getD (padLoop L) 0)
          ((permutationState pos L key nonce ct ((padLoop L + 1) / 3)).getD 1 0)) ∧
    ((poseidonDecrypt pos L key nonce ct).Satisfied c →
      ct.getD (padLoop L) 0
        = (permutationState pos L key nonce ct ((padLoop L + 1) / 3)).getD 1 0) ∧
    (permutationState pos L key nonce ct ((padLoop L + 1) / 3)).length = 4 := by
  refine ⟨?_, ?_, permutationState_length pos hpos L key nonce ct _⟩
  · rw [(run_constraints _ _ _ (poseidonDecrypt_run pos hpos L key nonce ct hlen)).1,
      List.getLast?_append]
    rfl
  · intro h
    rw [poseidonDecrypt_run pos hpos L key nonce ct hlen, Circuit.satisfied_some] at h
    exact h (.AssertIsEqual _ _) (List.mem_append_right _ (List.mem_singleton_self _))

/-- The tag assertion at the accepted ciphertext `[42, 2, 5 + 2^128, 1]`, logical length
`1`, with the permutation that exchanges the first two state elements. -/
theorem C17_tag_assertion_witness :
    (poseidonDecrypt model.swapPrimitives 1 (1, 2) 5
        (List.ofFn model.acceptedCiphertext)).constraints.getLast?
      = some (.AssertIsEqual ((List.ofFn model.acceptedCiphertext).getD (padLoop 1) 0)
          ((permutationState model.swapPrimitives 1 (1, 2) 5 (List.ofFn model.acceptedCiphertext)
            ((padLoop 1 + 1) / 3)).getD 1 0)) ∧
    ((poseidonDecrypt model.swapPrimitives 1 (1, 2) 5
        (List.ofFn model.acceptedCiphertext)).Satisfied model.additiveCurve →
      (List.ofFn model.acceptedCiphertext).getD (padLoop 1) 0
        = (permutationState model.swapPrimitives 1 (1, 2) 5 (List.ofFn model.acceptedCiphertext)
            ((padLoop 1 + 1) / 3)).getD 1 0) ∧
    (permutationState model.swapPrimitives 1 (1, 2) 5 (List.ofFn model.acceptedCiphertext)
        ((padLoop 1 + 1) / 3)).length = 4 :=
  C17_tag_assertion model.additiveCurve model.swapPrimitives model.swapPrimitives_fourOutputs 1
    (1, 2) 5 (List.ofFn model.acceptedCiphertext) (by rw [padLoop_one]; decide)

/-- C18. For every logical length `L` (in particular `L >= 1`) and ciphertext of length
`L' + 1`, `poseidonDecrypt` returns exactly `L` elements, and element `k < L` equals
`cipherText[k] - S_i[(k mod 3) + 1]` with `i = k div 3`, where
`S_0 = P([key0, key1, nonce + L * 2^128])` uses the logical length `L` and `S_(i+1)` is `P`
over the ciphertext block `i` with carry `S_i[0]`; `PoseidonDecryptSingle` returns the
single element `cipherText[0] - S_0[1]` with `L = 1`. -/
theorem C18_decrypt_output (pos : Primitives) (hpos : pos.FourOutputs) (L : Nat)
    (key : Fr × Fr) (nonce : Fr) (ct : List Fr) (hlen : ct.length = padLoop L + 1)
    (ct4 : Fin 4 → Fr) :
    (∃ out, (poseidonDecrypt pos L key nonce ct).result = some out ∧ out.length = L ∧
      ∀ k, k < L →
        out[k]? = some (ct.getD k 0
          - (permutationState pos L key nonce ct (k / 3)).getD (k % 3 + 1) 0)) ∧
    permutationState pos L key nonce ct 0
      = pos.PoseidonEx [key.1, key.2, nonce + (L : Fr) * 2 ^ 128] 0 4 ∧
    (∀ i, permutationState pos L key nonce ct (i + 1)
      = pos.PoseidonEx
          [ct.getD (3 * i) 0, ct.getD (3 * i + 1) 0, ct.getD (3 * i + 2) 0]
          ((permutationState pos L key nonce ct i).getD 0 0) 4) ∧
    (PoseidonDecryptSingle pos key nonce ct4).result
      = some [ct4 0 - (pos.PoseidonEx [key.1, key.2, nonce + 2 ^ 128] 0 4).getD 1 0] := by
  refine ⟨⟨_, (run_constraints _ _ _
      (poseidonDecrypt_run pos hpos L key nonce ct (by omega))).2, by simp, ?_⟩,
    rfl, fun i => rfl, ?_⟩
  · intro k hk
    rw [List.getElem?_map, List.getElem?_range hk]
    rfl
  · rw [PoseidonDecryptSingle_run pos key nonce ct4 hpos, initialState_eq]
    rfl

/-- The decryption output at logical length `4` and the seven-element ciphertext
`[11, ..., 17]`, with the permutation that exchanges the first two state elements. -/
theorem C18_decrypt_output_witness :
    (∃ out, (poseidonDecrypt model.swapPrimitives 4 (1, 2) 5 model.longCiphertext).result
        = some out ∧ out.length = 4 ∧
      ∀ k, k < 4 →
        out[k]? = some (model.longCiphertext.getD k 0
          - (permutationState model.swapPrimitives 4 (1, 2) 5 model.longCiphertext
              (k / 3)).getD (k % 3 + 1) 0)) ∧
    permutationState model.swapPrimitives 4 (1, 2) 5 model.longCiphertext 0
      = model.swapPrimitives.PoseidonEx
          [((1, 2) : Fr × Fr).1, ((1, 2) : Fr × Fr).2, 5 + ((4 : Nat) : Fr) * 2 ^ 128] 0 4 ∧
    (∀ i, permutationState model.swapPrimitives 4 (1, 2) 5 model.longCiphertext (i + 1)
      = model.swapPrimitives.PoseidonEx
          [model.longCiphertext.getD (3 * i) 0, model.longCiphertext.getD (3 * i + 1) 0,
            model.longCiphertext.getD (3 * i + 2) 0]
          ((permutationState model.swapPrimitives 4 (1, 2) 5 model.longCiphertext i).getD 0 0)
          4) ∧
    (PoseidonDecryptSingle model.swapPrimitives (1, 2) 5 model.acceptedCiphertext).result
      = some [model.acceptedCiphertext 0
          - (model.swapPrimitives.PoseidonEx
              [((1, 2) : Fr × Fr).1, ((1, 2) : Fr × Fr).2, 5 + 2 ^ 128] 0 4).getD 1 0] :=
  C18_decrypt_output model.swapPrimitives model.swapPrimitives_fourOutputs 4 (1, 2) 5
    model.longCiphertext (by rw [padLoop_eq]; rfl) model.acceptedCiphertext

end poseidon

namespace poseidon

/-- C19. For every logical length `L` the padding loop of `poseidonDecrypt` terminates with
`L'` the least multiple of `3` that is `>= L` (so `0 <= L' - L <= 2`); the number of blocks
`n = (L' + 1) / 3` equals `L' / 3`, so the block indices run over `0 .. L'/3 - 1`; and run
on the `L'` allocated output slots the block loop returns, for a permutation with four
outputs and a ciphertext of at least `L' + 1` elements, the `L'` slots filled with the
plaintext of the blocks `0 .. L'/3 - 1`. -/
theorem C19_padding_and_blocks (pos : Primitives) (L : Nat) (key : Fr × Fr) (nonce : Fr)
    (ct : List Fr) (hpos : pos.FourOutputs) (hlen : padLoop L + 1 ≤ ct.length) :
    padLoop L % 3 = 0 ∧ L ≤ padLoop L ∧ padLoop L - L ≤ 2 ∧
    (∀ m, m % 3 = 0 → L ≤ m → padLoop L ≤ m) ∧
    (padLoop L + 1) / 3 = padLoop L / 3 ∧
    List.range ((padLoop L + 1) / 3) = List.range' 0 (padLoop L / 3) ∧
    (∃ out strategies,
      blockLoop pos ct ((padLoop L + 1) / 3) (List.replicate (padLoop L) 0)
          ((List.replicate ((padLoop L + 1) / 3 + 1) ([] : List Fr)).set 0
            (pos.PoseidonEx [key.1, key.2,
              api.Add nonce
                (api.Mul (L : Fr) ((340282366920938463463374607431768211456 : Nat) : Fr))]
              0 4))
        = some ((out, strategies), []) ∧
      out.length = padLoop L ∧ strategies.length = padLoop L / 3 + 1 ∧
      ∀ i, i < padLoop L / 3 → ∀ j, j < 3 →
        out[i * 3 + j]? = some (plaintext pos L key nonce ct (i * 3 + j))) := by
  have hmod := padLoop_mod L
  have hge := padLoop_ge L
  have hn : (padLoop L + 1) / 3 = padLoop L / 3 := by omega
  refine ⟨hmod, hge, ?_, ?_, hn, ?_, (List.range (padLoop L)).map (plaintext pos L key nonce ct),
    strategiesAfter pos L key nonce ct ((padLoop L + 1) / 3), ?_, ?_, ?_, ?_⟩
  · rw [padLoop_eq]; omega
  · intro m hm hLm
    rw [padLoop_eq]; omega
  · rw [hn, List.range_eq_range']
  · rw [strategiesAfter_zero pos L key nonce ct, outAfter_zero pos L key nonce ct]
    exact blockLoop_eq pos hpos L key nonce ct hlen
  · simp
  · simp [strategiesAfter, hn]
  · intro i hi j hj
    rw [List.getElem?_map, List.getElem?_range (by omega)]
    rfl

/-- The padding and the blocks at logical length `4` (so `L' = 6`, two blocks) and the
seven-element ciphertext `[11, ..., 17]`. -/
theorem C19_padding_and_blocks_witness :
    padLoop 4 % 3 = 0 ∧ 4 ≤ padLoop 4 ∧ padLoop 4 - 4 ≤ 2 ∧
    (∀ m, m % 3 = 0 → 4 ≤ m → padLoop 4 ≤ m) ∧
    (padLoop 4 + 1) / 3 = padLoop 4 / 3 ∧
    List.range ((padLoop 4 + 1) / 3) = List.range' 0 (padLoop 4 / 3) ∧
    (∃ out strategies,
      blockLoop model.swapPrimitives model.longCiphertext ((padLoop 4 + 1) / 3)
          (List.replicate (padLoop 4) 0)
          ((List.replicate ((padLoop 4 + 1) / 3 + 1) ([] : List Fr)).set 0
            (model.swapPrimitives.PoseidonEx [((1, 2) : Fr × Fr).1, ((1, 2) : Fr × Fr).2,
              api.Add 5
                (api.Mul ((4 : Nat) : Fr) ((340282366920938463463374607431768211456 : Nat) : Fr))]
              0 4))
        = some ((out, strategies), []) ∧
      out.length = padLoop 4 ∧ strategies.length = padLoop 4 / 3 + 1 ∧
      ∀ i, i < padLoop 4 / 3 → ∀ j, j < 3 →
        out[i * 3 + j]?
          = some (plaintext model.swapPrimitives 4 (1, 2) 5 model.longCiphertext (i * 3 + j))) :=
  C19_padding_and_blocks model.swapPrimitives 4 (1, 2) 5 model.longCiphertext
    model.swapPrimitives_fourOutputs (by rw [padLoop_eq]; decide)

/-- C20. `PoseidonDecryptSingle` rejects whenever `nonce >= 2^128`, and, for a permutation
with four outputs, whenever a padded plaintext slot is nonzero, that is whenever
`cipherText[1] - S_0[2] != 0` or `cipherText[2] - S_0[3] != 0` with
`S_0 = P([key0, key1, nonce + 2^128])`.  In general the assertions `poseidonDecrypt`
records are the nonce bound, then `out[i] = 0` for every `i` with `L <= i < L'` and for no
other slot, then the tag; there is a padding assertion exactly when `L' > L`. -/
theorem C20_rejections (c : Curve) (pos : Primitives) (key : Fr × Fr) (nonce : Fr)
    (ct4 : Fin 4 → Fr) (L : Nat) (ct : List Fr) (hpos : pos.FourOutputs)
    (hlen : padLoop L + 1 ≤ ct.length) :
    (2 ^ 128 ≤ nonce.val → ¬ (PoseidonDecryptSingle pos key nonce ct4).Satisfied c) ∧
    (ct4 1 - (pos.PoseidonEx [key.1, key.2, nonce + 2 ^ 128] 0 4).getD 2 0 ≠ 0 ∨
        ct4 2 - (pos.PoseidonEx [key.1, key.2, nonce + 2 ^ 128] 0 4).getD 3 0 ≠ 0 →
      ¬ (PoseidonDecryptSingle pos key nonce ct4).Satisfied c) ∧
    (poseidonDecrypt pos L key nonce ct).constraints
      = .AssertIsLessOrEqual nonce (((340282366920938463463374607431768211456 : Nat) : Fr) - 1)
          :: ((List.range' L (padLoop L - L)).map fun i =>
                .AssertIsEqual (plaintext pos L key nonce ct i) 0)
          ++ [.AssertIsEqual (ct.getD (padLoop L) 0)
                ((permutationState pos L key nonce ct ((padLoop L + 1) / 3)).getD 1 0)] ∧
    (∀ i, i ∈ List.range' L (padLoop L - L) ↔ L ≤ i ∧ i < padLoop L) ∧
    (List.range' L (padLoop L - L) ≠ [] ↔ L < padLoop L) ∧
    ((poseidonDecrypt pos L key nonce ct).Satisfied c →
      ∀ i, L ≤ i → i < padLoop L → plaintext pos L key nonce ct i = 0) := by
  have hge := padLoop_ge L
  refine ⟨?_, ?_, (run_constraints _ _ _ (poseidonDecrypt_run pos hpos L key nonce ct hlen)).1,
    ?_, ?_, ?_⟩
  · intro hn h
    rw [PoseidonDecryptSingle_satisfied_iff c pos key nonce ct4 hpos] at h
    omega
  · intro hne h
    rw [PoseidonDecryptSingle_satisfied_iff c pos key nonce ct4 hpos, initialState_eq] at h
    rcases hne with h1 | h2
    · exact h1 (sub_eq_zero.2 h.2.1)
    · exact h2 (sub_eq_zero.2 h.2.2.1)
  · intro i
    rw [List.mem_range'_1]
    omega
  · rw [Ne, List.range'_eq_nil]
    omega
  · intro h i hi1 hi2
    rw [poseidonDecrypt_run pos hpos L key nonce ct hlen, Circuit.satisfied_some] at h
    exact h (.AssertIsEqual _ _) (List.mem_append_left _ (List.mem_cons_of_mem _
      (List.mem_map.2 ⟨i, List.mem_range'_1.2 ⟨hi1, by omega⟩, rfl⟩)))

/-- The rejections at the out-of-range nonce `2^128`, at the ciphertext `[42, 3, 0, 1]`
whose first padded slot is nonzero, and the recorded assertions at logical length `4`. -/
theorem C20_rejections_witness :
    ¬ (PoseidonDecryptSingle model.swapPrimitives (1, 2) model.nonceOutOfRange
        model.acceptedCiphertext).Satisfied model.additiveCurve ∧
    ¬ (PoseidonDecryptSingle model.swapPrimitives (1, 2) 5 ![42, 3, 0, 1]).Satisfied
        model.additiveCurve ∧
    (poseidonDecrypt model.swapPrimitives 4 (1, 2) 5 model.longCiphertext).constraints
      = .AssertIsLessOrEqual 5 (((340282366920938463463374607431768211456 : Nat) : Fr) - 1)
          :: ((List.range' 4 (padLoop 4 - 4)).map fun i =>
                .AssertIsEqual (plaintext model.swapPrimitives 4 (1, 2) 5 model.longCiphertext i)
                  0)
          ++ [.AssertIsEqual (model.longCiphertext.getD (padLoop 4) 0)
                ((permutationState model.swapPrimitives 4 (1, 2) 5 model.longCiphertext
                  ((padLoop 4 + 1) / 3)).getD 1 0)] :=
  ⟨(C20_rejections model.additiveCurve model.swapPrimitives (1, 2) model.nonceOutOfRange
      model.acceptedCiphertext 4 model.longCiphertext model.swapPrimitives_fourOutputs
      (by rw [padLoop_eq]; decide)).1 (by decide),
   (C20_rejections model.additiveCurve model.swapPrimitives (1, 2) 5 ![42, 3, 0, 1] 4
      model.longCiphertext model.swapPrimitives_fourOutputs
      (by rw [padLoop_eq]; decide)).2.1 (Or.inl (by decide)),
   (C20_rejections model.additiveCurve model.swapPrimitives (1, 2) 5 model.acceptedCiphertext 4
      model.longCiphertext model.swapPrimitives_fourOutputs
      (by rw [padLoop_eq]; decide)).2.2.1⟩

end poseidon

namespace circuits

/-- Over a lawful curve gadget the multiples of the base point are on the curve. -/
theorem mulWithBasePoint_onCurve (curve : Curve) (s : Fr)
    (hlaw : (NewBjWrapper curve).Curve.Lawful)
    (hbase : (NewBjWrapper curve).Curve.IsOnCurve (NewBjWrapper curve).base8) :
    (NewBjWrapper curve).Curve.IsOnCurve ((NewBjWrapper curve).MulWithBasePoint s) := by
  obtain ⟨G, inst, φ, _, hon, _, _, hsmul⟩ := hlaw
  obtain ⟨g, hg⟩ := (hon _).1 hbase
  rw [babyjub.MulWithBasePoint_New, ← hg, hsmul]
  exact (hon _).2 ⟨_, rfl⟩

/-- Over a lawful curve gadget the multiples of a curve point are on the curve. -/
theorem scalarMul_onCurve (curve : Curve) (P : Point) (s : Fr)
    (hlaw : (NewBjWrapper curve).Curve.Lawful)
    (hP : (NewBjWrapper curve).Curve.IsOnCurve P) :
    (NewBjWrapper curve).Curve.IsOnCurve ((NewBjWrapper curve).Curve.ScalarMul P s) := by
  obtain ⟨G, inst, φ, _, hon, _, _, hsmul⟩ := hlaw
  obtain ⟨a, rfl⟩ := (hon _).1 hP
  rw [hsmul]
  exact (hon _).2 ⟨_, rfl⟩

/-- The decryption of an honest encryption under the key it was made for returns the
encoded amount, and its assertions hold. -/
theorem honestEGCT_decrypt (curve : Curve) (sk m r : Fr)
    (hlaw : (NewBjWrapper curve).Curve.Lawful)
    (hbase : (NewBjWrapper curve).Curve.IsOnCurve (NewBjWrapper curve).base8) :
    ((NewBjWrapper curve).ElGamalDecrypt
        ((honestEGCT (NewBjWrapper curve) ((NewBjWrapper curve).MulWithBasePoint sk) m r).C1.X,
         (honestEGCT (NewBjWrapper curve) ((NewBjWrapper curve).MulWithBasePoint sk) m r).C1.Y)
        ((honestEGCT (NewBjWrapper curve) ((NewBjWrapper curve).MulWithBasePoint sk) m r).C2.X,
         (honestEGCT (NewBjWrapper curve) ((NewBjWrapper curve).MulWithBasePoint sk) m r).C2.Y)
        sk).Satisfied (NewBjWrapper curve).Curve ∧
    ((NewBjWrapper curve).ElGamalDecrypt
        ((honestEGCT (NewBjWrapper curve) ((NewBjWrapper curve).MulWithBasePoint sk) m r).C1.X,
         (honestEGCT (NewBjWrapper curve) ((NewBjWrapper curve).MulWithBasePoint sk) m r).C1.Y)
        ((honestEGCT (NewBjWrapper curve) ((NewBjWrapper curve).MulWithBasePoint sk) m r).C2.X,
         (honestEGCT (NewBjWrapper curve) ((NewBjWrapper curve).MulWithBasePoint sk) m r).C2.Y)
        sk).result = some ((NewBjWrapper curve).MulWithBasePoint m) := by
  obtain ⟨G, inst, φ, _, hon, hadd, hneg, hsmul⟩ := hlaw
  obtain ⟨g, hg⟩ := (hon _).1 hbase
  have hcomm : r.val • sk.val • g = sk.val • r.val • g := smul_comm _ _ _
  have hdec : -(sk.val • r.val • g) + (r.val • sk.val • g + m.val • g) = m.val • g := by
    rw [hcomm]; abel
  simp only [honestEGCT, babyjub.ElGamalDecrypt_eq, Circuit.result, Circuit.Satisfied,
    babyjub.MulWithBasePoint_New, ← hg, hsmul, hadd, hneg, hdec, List.mem_cons,
    List.mem_singleton, List.not_mem_nil, or_false, and_true]
  rintro k (rfl | rfl | rfl) <;> exact (hon _).2 ⟨_, rfl⟩

/-- `CheckPositiveValue`, assertion by assertion: the range of the value, the assertions of
the decryption, and the decrypted point `value * G`. -/
theorem CheckPositiveValue_satisfied_iff (bj : BjWrapper) (sender : Sender) (value : Fr) :
    (CheckPositiveValue bj sender value).Satisfied bj.Curve ↔
      value.val ≤ (api.Sub (bj.BasePointOrder : Fr) 1).val ∧
      (bj.ElGamalDecrypt (sender.ValueEGCT.C1.X, sender.ValueEGCT.C1.Y)
          (sender.ValueEGCT.C2.X, sender.ValueEGCT.C2.Y) sender.PrivateKey).Satisfied bj.Curve ∧
      (bj.ElGamalDecrypt (sender.ValueEGCT.C1.X, sender.ValueEGCT.C1.Y)
          (sender.ValueEGCT.C2.X, sender.ValueEGCT.C2.Y) sender.PrivateKey).result
        = some (bj.MulWithBasePoint value) := by
  rw [CheckPositiveValue_eq, babyjub.ElGamalDecrypt_eq, Circuit.satisfied_some,
    Circuit.satisfied_some]
  simp only [List.forall_mem_cons, List.not_mem_nil, Constraint.Holds, Circuit.result,
    Option.some.injEq]
  constructor
  · rintro ⟨h1, h2, h3, h4, -, -, hX, hY, -⟩
    exact ⟨h1, ⟨h2, h3, h4, fun _ h => absurd h id⟩,
      ((Point.ext_iff' _ _).2 ⟨hX, hY⟩).symm⟩
  · rintro ⟨h1, ⟨h2, h3, h4, -⟩, he⟩
    refine ⟨h1, h2, h3, h4, he ▸ h3, h3, ?_, ?_, fun _ h => absurd h id⟩
    · exact congrArg Point.X he.symm
    · exact congrArg Point.Y he.symm

end circuits

namespace circuits

/-- Over a lawful curve gadget the sum of two curve points is on the curve. -/
theorem add_onCurve (curve : Curve) (P Q : Point)
    (hlaw : (NewBjWrapper curve).Curve.Lawful)
    (hP : (NewBjWrapper curve).Curve.IsOnCurve P) (hQ : (NewBjWrapper curve).Curve.IsOnCurve Q) :
    (NewBjWrapper curve).Curve.IsOnCurve ((NewBjWrapper curve).Curve.Add P Q) := by
  obtain ⟨G, inst, φ, _, hon, hadd, _, _⟩ := hlaw
  obtain ⟨a, rfl⟩ := (hon _).1 hP
  obtain ⟨b, rfl⟩ := (hon _).1 hQ
  rw [hadd]
  exact (hon _).2 ⟨_, rfl⟩

/-- The summary check accepts the honest summary of a value. -/
theorem honestPCT_accepted (curve : Curve) (pos : poseidon.Primitives) (receiver : Receiver)
    (k random nonce value : Fr)
    (hlaw : (NewBjWrapper curve).Curve.Lawful)
    (hbase : (NewBjWrapper curve).Curve.IsOnCurve (NewBjWrapper curve).base8)
    (hpos : pos.FourOutputs)
    (hpk : receiver.PublicKey.P = (NewBjWrapper curve).MulWithBasePoint k)
    (hpct : receiver.PCT
      = honestPCT pos (NewBjWrapper curve) ((NewBjWrapper curve).MulWithBasePoint k)
          random nonce value)
    (hr : random.val ≤ (NewBjWrapper curve).BasePointOrder - 1) (hn : nonce.val < 2 ^ 128) :
    (CheckPCTReceiver pos (NewBjWrapper curve) receiver value).Satisfied
      (NewBjWrapper curve).Curve := by
  rw [CheckPCTReceiver_satisfied_iff_lawful curve pos receiver value hlaw hbase, hpct, hpk]
  have hrun := poseidon.encryptSingle_accepted (NewBjWrapper curve).Curve pos
    (((NewBjWrapper curve).Curve.ScalarMul ((NewBjWrapper curve).MulWithBasePoint k) random).X,
     ((NewBjWrapper curve).Curve.ScalarMul ((NewBjWrapper curve).MulWithBasePoint k) random).Y)
    nonce value hpos hn
  exact ⟨hr, rfl,
    scalarMul_onCurve curve _ _ hlaw (mulWithBasePoint_onCurve curve k hlaw hbase),
    hrun.2, [], hrun.1⟩

/-- The Transfer circuit accepts the witness built from choices in range. -/
theorem honestTransfer_satisfied (curve : Curve) (pos : poseidon.Primitives) (ch : Choice)
    (hlaw : (NewBjWrapper curve).Curve.Lawful)
    (hbase : (NewBjWrapper curve).Curve.IsOnCurve (NewBjWrapper curve).base8)
    (hpos : pos.FourOutputs) (hch : ch.InRange (NewBjWrapper curve).BasePointOrder) :
    (TransferCircuit.Define curve pos (honestTransfer curve pos ch)).Satisfied
      (NewBjWrapper curve).Curve := by
  obtain ⟨hvb, hsk, hb, hR, hρR, hρA, hnR, hnA⟩ := hch
  unfold TransferCircuit.Define
  simp only [Circuit.satisfied_seq, satisfied_AssertIsLessOrEqual]
  refine ⟨hvb, ?_, ?_, ?_, ?_, ?_, ?_⟩
  · exact (CheckPublicKey_satisfied_iff_lawful curve _ hlaw hbase).2 ⟨hsk, rfl⟩
  · exact (CheckBalance_satisfied_iff_decrypt curve _ hlaw hbase).2
      ⟨hb, honestEGCT_decrypt curve ch.PrivateKey ch.Balance ch.BalanceRandom hlaw hbase⟩
  · refine (CheckPositiveValue_satisfied_iff _ _ _).2 ⟨?_,
      honestEGCT_decrypt curve ch.PrivateKey ch.Value ch.ValueRandom hlaw hbase⟩
    rw [order_sub_one_val]
    exact le_trans hvb hb
  · refine (CheckValue_satisfied_iff curve _ _).2 ⟨le_trans hvb hb, hR, ?_, ?_, ?_, rfl, rfl⟩
    · exact scalarMul_onCurve curve _ _ hlaw (mulWithBasePoint_onCurve curve _ hlaw hbase)
    · exact scalarMul_onCurve curve _ _ hlaw hbase
    · exact add_onCurve curve _ _ hlaw
        (scalarMul_onCurve curve _ _ hlaw (mulWithBasePoint_onCurve curve _ hlaw hbase))
        (mulWithBasePoint_onCurve curve _ hlaw hbase)
  · exact honestPCT_accepted curve pos _ ch.ReceiverKey ch.ReceiverSummaryRandom
      ch.ReceiverNonce ch.Value hlaw hbase hpos rfl rfl hρR hnR
  · rw [← CheckPCTReceiver_eq_Auditor pos _
      { PublicKey := (honestTransfer curve pos ch).Auditor.PublicKey
        ValueEGCT := { C1 := { X := 0, Y := 0 }, C2 := { X := 0, Y := 0 } }
        ValueRandom := { R := 0 }
        PCT := (honestTransfer curve pos ch).Auditor.PCT } _ _ rfl rfl]
    exact honestPCT_accepted curve pos _ ch.AuditorKey ch.AuditorSummaryRandom
      ch.AuditorNonce ch.Value hlaw hbase hpos rfl rfl hρA hnA

/-- The Withdraw circuit accepts the witness built from choices in range. -/
theorem honestWithdrawal_satisfied (curve : Curve) (pos : poseidon.Primitives) (ch : Choice)
    (hlaw : (NewBjWrapper curve).Curve.Lawful)
    (hbase : (NewBjWrapper curve).Curve.IsOnCurve (NewBjWrapper curve).base8)
    (hpos : pos.FourOutputs) (hch : ch.InRange (NewBjWrapper curve).BasePointOrder) :
    (WithdrawCircuit.Define curve pos (honestWithdrawal curve pos ch)).Satisfied
      (NewBjWrapper curve).Curve := by
  obtain ⟨hvb, hsk, hb, hR, hρR, hρA, hnR, hnA⟩ := hch
  unfold WithdrawCircuit.Define
  simp only [Circuit.satisfied_seq, satisfied_AssertIsLessOrEqual]
  refine ⟨hvb, ?_, ?_, ?_⟩
  · exact (CheckPublicKey_satisfied_iff_lawful curve _ hlaw hbase).2 ⟨hsk, rfl⟩
  · exact (CheckBalance_satisfied_iff_decrypt curve _ hlaw hbase).2
      ⟨hb, honestEGCT_decrypt curve ch.PrivateKey ch.Balance ch.BalanceRandom hlaw hbase⟩
  · rw [← CheckPCTReceiver_eq_Auditor pos _
      { PublicKey := (honestWithdrawal curve pos ch).Auditor.PublicKey
        ValueEGCT := { C1 := { X := 0, Y := 0 }, C2 := { X := 0, Y := 0 } }
        ValueRandom := { R := 0 }
        PCT := (honestWithdrawal curve pos ch).Auditor.PCT } _ _ rfl rfl]
    exact honestPCT_accepted curve pos _ ch.AuditorKey ch.AuditorSummaryRandom
      ch.AuditorNonce ch.Value hlaw hbase hpos rfl rfl hρA hnA

end circuits

namespace model

theorem choice_inRange : choice.InRange bj.BasePointOrder := by
  decide

theorem zeroChoice_inRange : zeroChoice.InRange bj.BasePointOrder := by
  decide

end model

namespace poseidon

set_option maxHeartbeats 2000000 in
/-- The run of `PoseidonDecryptSingle` for an arbitrary permutation: it panics (a state is
too short for an index), or it returns and records what the four-output run does. -/
theorem PoseidonDecryptSingle_cases (pos : Primitives) (key : Fr × Fr) (nonce : Fr)
    (ct : Fin 4 → Fr) :
    PoseidonDecryptSingle pos key nonce ct = none ∨
    PoseidonDecryptSingle pos key nonce ct
      = some ([ct 0 - (initialState pos key nonce).getD 1 0],
          [.AssertIsLessOrEqual nonce (((340282366920938463463374607431768211456 : Nat) : Fr) - 1),
           .AssertIsEqual (ct 1 - (initialState pos key nonce).getD 2 0) 0,
           .AssertIsEqual (ct 2 - (initialState pos key nonce).getD 3 0) 0,
           .AssertIsEqual (ct 3)
             ((absorbedState pos key nonce (ct 0) (ct 1) (ct 2)).getD 1 0)]) := by
  obtain ⟨k0, k1⟩ := key
  unfold absorbedState
  generalize hS : initialState pos (k0, k1) nonce = S
  unfold initialState api.Add api.Mul at hS
  simp only [Nat.cast_one, one_mul, Nat.cast_ofNat] at hS
  unfold PoseidonDecryptSingle poseidonDecrypt
  simp only [padLoop_one]
  rcases S with _ | ⟨s0, _ | ⟨s1, _ | ⟨s2, _ | ⟨s3, r⟩⟩⟩⟩
  · left
    simp [Circuit.bind_eq, Circuit.bind, blockLoop, subtractBlock, absorbBlock, assertPadding,
      index, assign, slice, api.Sub, api.Add, api.Mul, api.AssertIsEqual,
      api.AssertIsLessOrEqual, hS, List.range_succ, List.range'_succ, List.ofFn_succ, pure]
  · left
    simp [Circuit.bind_eq, Circuit.bind, blockLoop, subtractBlock, absorbBlock, assertPadding,
      index, assign, slice, api.Sub, api.Add, api.Mul, api.AssertIsEqual,
      api.AssertIsLessOrEqual, hS, List.range_succ, List.range'_succ, List.ofFn_succ, pure]
  · left
    simp [Circuit.bind_eq, Circuit.bind, blockLoop, subtractBlock, absorbBlock, assertPadding,
      index, assign, slice, api.Sub, api.Add, api.Mul, api.AssertIsEqual,
      api.AssertIsLessOrEqual, hS, List.range_succ, List.range'_succ, List.ofFn_succ, pure]
  · left
    simp [Circuit.bind_eq, Circuit.bind, blockLoop, subtractBlock, absorbBlock, assertPadding,
      index, assign, slice, api.Sub, api.Add, api.Mul, api.AssertIsEqual,
      api.AssertIsLessOrEqual, hS, List.range_succ, List.range'_succ, List.ofFn_succ, pure]
  · generalize hT : pos.PoseidonEx [ct 0, ct 1, ct 2] s0 4 = T
    rcases T with _ | ⟨t0, _ | ⟨t1, r'⟩⟩
    · left
      simp [Circuit.bind_eq, Circuit.bind, blockLoop, subtractBlock, absorbBlock, assertPadding,
        index, assign, slice, api.Sub, api.Add, api.Mul, api.AssertIsEqual,
        api.AssertIsLessOrEqual, hS, hT, List.range_succ, List.range'_succ, List.ofFn_succ, pure]
    · left
      simp [Circuit.bind_eq, Circuit.bind, blockLoop, subtractBlock, absorbBlock, assertPadding,
        index, assign, slice, api.Sub, api.Add, api.Mul, api.AssertIsEqual,
        api.AssertIsLessOrEqual, hS, hT, List.range_succ, List.range'_succ, List.ofFn_succ, pure]
    · right
      simp [Circuit.bind_eq, Circuit.bind, blockLoop, subtractBlock, absorbBlock, assertPadding,
        index, assign, slice, api.Sub, api.Add, api.Mul, api.AssertIsEqual,
        api.AssertIsLessOrEqual, hS, hT, List.range_succ, List.range'_succ, List.ofFn_succ, pure]
      rfl

end poseidon

namespace poseidon

/-- What an accepted run of `PoseidonDecryptSingle` with first decrypted element `v` says
about the ciphertext, for an arbitrary permutation. -/
theorem PoseidonDecryptSingle_accepted (c : Curve) (pos : Primitives) (key : Fr × Fr)
    (nonce v : Fr) (ct : Fin 4 → Fr)
    (hsat : (PoseidonDecryptSingle pos key nonce ct).Satisfied c)
    (hv : ∃ rest, (PoseidonDecryptSingle pos key nonce ct).result = some (v :: rest)) :
    ct 0 = v + (initialState pos key nonce).getD 1 0 ∧
    ct 1 = (initialState pos key nonce).getD 2 0 ∧
    ct 2 = (initialState pos key nonce).getD 3 0 ∧
    ct 3 = (absorbedState pos key nonce (ct 0) (ct 1) (ct 2)).getD 1 0 := by
  rcases PoseidonDecryptSingle_cases pos key nonce ct with h | h
  · rw [h] at hsat
    exact absurd hsat (Circuit.not_satisfied_none c)
  · rw [h, Circuit.satisfied_some] at hsat
    rw [h] at hv
    obtain ⟨rest, hr⟩ := hv
    simp only [Circuit.result, Option.some.injEq, List.cons.injEq] at hr
    simp only [List.forall_mem_cons, List.not_mem_nil, Constraint.Holds, sub_eq_zero] at hsat
    exact ⟨by rw [← hr.1]; ring, hsat.2.1, hsat.2.2.1, hsat.2.2.2.1⟩

/-- An accepted ciphertext is determined by the key, the nonce and the value. -/
theorem PoseidonDecryptSingle_unique (c : Curve) (pos : Primitives) (key : Fr × Fr)
    (nonce v : Fr) (ct ct' : Fin 4 → Fr)
    (hsat : (PoseidonDecryptSingle pos key nonce ct).Satisfied c)
    (hv : ∃ rest, (PoseidonDecryptSingle pos key nonce ct).result = some (v :: rest))
    (hsat' : (PoseidonDecryptSingle pos key nonce ct').Satisfied c)
    (hv' : ∃ rest, (PoseidonDecryptSingle pos key nonce ct').result = some (v :: rest)) :
    ct = ct' := by
  obtain ⟨h0, h1, h2, h3⟩ := PoseidonDecryptSingle_accepted c pos key nonce v ct hsat hv
  obtain ⟨h0', h1', h2', h3'⟩ := PoseidonDecryptSingle_accepted c pos key nonce v ct' hsat' hv'
  have e0 : ct 0 = ct' 0 := by rw [h0, h0']
  have e1 : ct 1 = ct' 1 := by rw [h1, h1']
  have e2 : ct 2 = ct' 2 := by rw [h2, h2']
  have e3 : ct 3 = ct' 3 := by rw [h3, h3', e0, e1, e2]
  funext i
  fin_cases i
  · exact e0
  · exact e1
  · exact e2
  · exact e3

end poseidon

namespace circuits

/-- C21. Hybrid ciphertexts are non-malleable under the summary check, whatever the
permutation is: for every encryption key, nonce and value `v` at most one 4-element
ciphertext is accepted by `PoseidonDecryptSingle` with first decrypted element `v`; so two
auditors, or two receivers, that both satisfy their summary check for the same value and
agree on the public key, `PCT.Random` and `PCT.Nonce` have the same `PCT.Ciphertext`. -/
theorem C21_summary_non_malleable (pos : poseidon.Primitives) (bj : BjWrapper) :
    (∀ (key : Fr × Fr) (nonce v : Fr) (ct ct' : Fin 4 → Fr),
      (poseidon.PoseidonDecryptSingle pos key nonce ct).Satisfied bj.Curve →
      (∃ rest, (poseidon.PoseidonDecryptSingle pos key nonce ct).result = some (v :: rest)) →
      (poseidon.PoseidonDecryptSingle pos key nonce ct').Satisfied bj.Curve →
      (∃ rest, (poseidon.PoseidonDecryptSingle pos key nonce ct').result = some (v :: rest)) →
      ct = ct') ∧
    (∀ (a a' : Auditor) (value : Fr),
      a.PublicKey = a'.PublicKey → a.PCT.Random = a'.PCT.Random →
      a.PCT.Nonce = a'.PCT.Nonce →
      (CheckPCTAuditor pos bj a value).Satisfied bj.Curve →
      (CheckPCTAuditor pos bj a' value).Satisfied bj.Curve →
      a.PCT.Ciphertext = a'.PCT.Ciphertext) ∧
    (∀ (r r' : Receiver) (value : Fr),
      r.PublicKey = r'.PublicKey → r.PCT.Random = r'.PCT.Random →
      r.PCT.Nonce = r'.PCT.Nonce →
      (CheckPCTReceiver pos bj r value).Satisfied bj.Curve →
      (CheckPCTReceiver pos bj r' value).Satisfied bj.Curve →
      r.PCT.Ciphertext = r'.PCT.Ciphertext) := by
  have hrec : ∀ (r r' : Receiver) (value : Fr),
      r.PublicKey = r'.PublicKey → r.PCT.Random = r'.PCT.Random →
      r.PCT.Nonce = r'.PCT.Nonce →
      (CheckPCTReceiver pos bj r value).Satisfied bj.Curve →
      (CheckPCTReceiver pos bj r' value).Satisfied bj.Curve →
      r.PCT.Ciphertext = r'.PCT.Ciphertext := by
    intro r r' value hpk hrand hnonce h h'
    rw [CheckPCTReceiver_satisfied_iff] at h h'
    rw [← hpk, ← hrand, ← hnonce] at h'
    exact poseidon.PoseidonDecryptSingle_unique bj.Curve pos _ _ value _ _
      h.2.2.2.1 h.2.2.2.2 h'.2.2.2.1 h'.2.2.2.2
  refine ⟨fun key nonce v ct ct' h1 h2 h3 h4 =>
    poseidon.PoseidonDecryptSingle_unique bj.Curve pos key nonce v ct ct' h1 h2 h3 h4, ?_, hrec⟩
  intro a a' value hpk hrand hnonce h h'
  rw [← CheckPCTReceiver_eq_Auditor pos bj
    { PublicKey := a.PublicKey
      ValueEGCT := { C1 := { X := 0, Y := 0 }, C2 := { X := 0, Y := 0 } }
      ValueRandom := { R := 0 }
      PCT := a.PCT } a value rfl rfl] at h
  rw [← CheckPCTReceiver_eq_Auditor pos bj
    { PublicKey := a'.PublicKey
      ValueEGCT := { C1 := { X := 0, Y := 0 }, C2 := { X := 0, Y := 0 } }
      ValueRandom := { R := 0 }
      PCT := a'.PCT } a' value rfl rfl] at h'
  exact hrec _ _ value hpk hrand hnonce h h'

end circuits

namespace circuits

/-- Non-malleability at key `(1, 2)`, nonce `5` and value `42` with the permutation that
exchanges the first two state elements: the ciphertext `[42, 2, 5 + 2^128, 1]` and the
matching encryption of `42` are both accepted, and they are the same ciphertext. -/
theorem C21_summary_non_malleable_witness :
    (poseidon.PoseidonDecryptSingle model.swapPrimitives (1, 2) 5
        model.acceptedCiphertext).Satisfied model.bj.Curve ∧
    (poseidon.PoseidonDecryptSingle model.swapPrimitives (1, 2) 5
        (poseidon.encryptSingle model.swapPrimitives (1, 2) 5 42)).Satisfied model.bj.Curve ∧
    model.acceptedCiphertext = poseidon.encryptSingle model.swapPrimitives (1, 2) 5 42 :=
  have h1 : (poseidon.PoseidonDecryptSingle model.swapPrimitives (1, 2) 5
      model.acceptedCiphertext).Satisfied model.bj.Curve := by
    rw [poseidon.PoseidonDecryptSingle_satisfied_iff _ _ _ _ _ model.swapPrimitives_fourOutputs]
    exact ⟨by decide, rfl, rfl, rfl⟩
  have h2 : ∃ rest, (poseidon.PoseidonDecryptSingle model.swapPrimitives (1, 2) 5
      model.acceptedCiphertext).result = some (42 :: rest) := by
    rw [poseidon.PoseidonDecryptSingle_run _ _ _ _ model.swapPrimitives_fourOutputs]
    exact ⟨[], by decide⟩
  have h3 := poseidon.encryptSingle_accepted model.bj.Curve model.swapPrimitives (1, 2) 5 42
    model.swapPrimitives_fourOutputs (by decide)
  ⟨h1, h3.2,
    (C21_summary_non_malleable model.swapPrimitives model.bj).1 (1, 2) 5 42
      model.acceptedCiphertext (poseidon.encryptSingle model.swapPrimitives (1, 2) 5 42)
      h1 h2 h3.2 ⟨[], h3.1⟩⟩

end circuits

namespace circuits

/-- The first assertion of `CheckBalance` bounds the balance. -/
theorem CheckBalance_bound (bj : BjWrapper) (sender : Sender)
    (h : (CheckBalance bj sender).Satisfied bj.Curve) :
    sender.Balance.val ≤ (api.Sub (bj.BasePointOrder : Fr) 1).val := by
  rw [CheckBalance_eq, Circuit.satisfied_some] at h
  exact h _ (List.mem_cons_self _ _)

/-- The assertions of the Withdraw circuit, for a permutation with four outputs. -/
theorem withdraw_rangeAssertions (curve : Curve) (pos : poseidon.Primitives)
    (w : WithdrawCircuit) (hpos : pos.FourOutputs) :
    Constraint.rangeAssertions (WithdrawCircuit.Define curve pos w).constraints
      = [(w.ValueToBurn, w.Sender.Balance),
         (w.Sender.PrivateKey, api.Sub ((NewBjWrapper curve).BasePointOrder : Fr) 1),
         (w.Sender.Balance, api.Sub ((NewBjWrapper curve).BasePointOrder : Fr) 1),
         (w.Auditor.PCT.Random, api.Sub ((NewBjWrapper curve).BasePointOrder : Fr) 1),
         (w.Auditor.PCT.Nonce, ((340282366920938463463374607431768211456 : Nat) : Fr) - 1)] := by
  unfold WithdrawCircuit.Define
  simp only []
  rw [CheckPublicKey_eq, CheckBalance_eq, CheckPCTAuditor_eq pos _ _ _ hpos,
    poseidon.PoseidonDecryptSingle_run pos _ _ _ hpos]
  rfl

/-- The assertions of the Transfer circuit, for a permutation with four outputs. -/
theorem transfer_rangeAssertions (curve : Curve) (pos : poseidon.Primitives)
    (t : TransferCircuit) (hpos : pos.FourOutputs) :
    Constraint.rangeAssertions (TransferCircuit.Define curve pos t).constraints
      = [(t.ValueToTransfer, t.Sender.Balance),
         (t.Sender.PrivateKey, api.Sub ((NewBjWrapper curve).BasePointOrder : Fr) 1),
         (t.Sender.Balance, api.Sub ((NewBjWrapper curve).BasePointOrder : Fr) 1),
         (t.ValueToTransfer, api.Sub ((NewBjWrapper curve).BasePointOrder : Fr) 1),
         (t.ValueToTransfer, api.Sub ((NewBjWrapper curve).BasePointOrder : Fr) 1),
         (t.Receiver.ValueRandom.R, api.Sub ((NewBjWrapper curve).BasePointOrder : Fr) 1),
         (t.Receiver.PCT.Random, api.Sub ((NewBjWrapper curve).BasePointOrder : Fr) 1),
         (t.Receiver.PCT.Nonce, ((340282366920938463463374607431768211456 : Nat) : Fr) - 1),
         (t.Auditor.PCT.Random, api.Sub ((NewBjWrapper curve).BasePointOrder : Fr) 1),
         (t.Auditor.PCT.Nonce, ((340282366920938463463374607431768211456 : Nat) : Fr) - 1)] := by
  unfold TransferCircuit.Define
  simp only []
  rw [CheckPublicKey_eq, CheckBalance_eq, CheckPositiveValue_eq, CheckValue_eq,
    CheckPCTReceiver_eq pos _ _ _ hpos, CheckPCTAuditor_eq pos _ _ _ hpos,
    poseidon.PoseidonDecryptSingle_run pos _ _ _ hpos,
    poseidon.PoseidonDecryptSingle_run pos _ _ _ hpos]
  rfl

/-- C22. Circuit-level range invariant.  Every witness satisfying the Withdraw circuit has
`ValueToBurn <= Sender.Balance <= order - 1` and `Sender.PrivateKey <= order - 1`, and the
only range assertion on `ValueToBurn` is the one against the balance.  Every witness
satisfying the Transfer circuit has `Sender.PrivateKey`, `Sender.Balance`,
`ValueToTransfer`, `Receiver.ValueRandom.R` and both `PCT.Random` values `<= order - 1`.
`CheckBalance` and `CheckPositiveValue` record one range assertion each, on the balance and
on the value: the private key is bounded by `CheckPublicKey`. -/
theorem C22_range_invariant (curve : Curve) (pos : poseidon.Primitives) (w : WithdrawCircuit)
    (t : TransferCircuit) (value : Fr) (hpos : pos.FourOutputs) :
    ((WithdrawCircuit.Define curve pos w).Satisfied (NewBjWrapper curve).Curve →
      w.ValueToBurn.val ≤ w.Sender.Balance.val ∧
      w.Sender.Balance.val ≤ (NewBjWrapper curve).BasePointOrder - 1 ∧
      w.Sender.PrivateKey.val ≤ (NewBjWrapper curve).BasePointOrder - 1 ∧
      w.ValueToBurn.val ≤ (NewBjWrapper curve).BasePointOrder - 1) ∧
    Constraint.rangeAssertions (WithdrawCircuit.Define curve pos w).constraints
      = [(w.ValueToBurn, w.Sender.Balance),
         (w.Sender.PrivateKey, api.Sub ((NewBjWrapper curve).BasePointOrder : Fr) 1),
         (w.Sender.Balance, api.Sub ((NewBjWrapper curve).BasePointOrder : Fr) 1),
         (w.Auditor.PCT.Random, api.Sub ((NewBjWrapper curve).BasePointOrder : Fr) 1),
         (w.Auditor.PCT.Nonce, ((340282366920938463463374607431768211456 : Nat) : Fr) - 1)] ∧
    ((TransferCircuit.Define curve pos t).Satisfied (NewBjWrapper curve).Curve →
      t.Sender.PrivateKey.val ≤ (NewBjWrapper curve).BasePointOrder - 1 ∧
      t.Sender.Balance.val ≤ (NewBjWrapper curve).BasePointOrder - 1 ∧
      t.ValueToTransfer.val ≤ (NewBjWrapper curve).BasePointOrder - 1 ∧
      t.Receiver.ValueRandom.R.val ≤ (NewBjWrapper curve).BasePointOrder - 1 ∧
      t.Receiver.PCT.Random.val ≤ (NewBjWrapper curve).BasePointOrder - 1 ∧
      t.Auditor.PCT.Random.val ≤ (NewBjWrapper curve).BasePointOrder - 1) ∧
    Constraint.rangeAssertions (CheckBalance (NewBjWrapper curve) t.Sender).constraints
      = [(t.Sender.Balance, api.Sub ((NewBjWrapper curve).BasePointOrder : Fr) 1)] ∧
    Constraint.rangeAssertions
        (CheckPositiveValue (NewBjWrapper curve) t.Sender value).constraints
      = [(value, api.Sub ((NewBjWrapper curve).BasePointOrder : Fr) 1)] ∧
    Constraint.rangeAssertions (CheckPublicKey (NewBjWrapper curve) t.Sender).constraints
      = [(t.Sender.PrivateKey, api.Sub ((NewBjWrapper curve).BasePointOrder : Fr) 1)] := by
  refine ⟨?_, withdraw_rangeAssertions curve pos w hpos, ?_, rfl, rfl, rfl⟩
  · intro h
    unfold WithdrawCircuit.Define at h
    simp only [Circuit.satisfied_seq, satisfied_AssertIsLessOrEqual] at h
    obtain ⟨h1, h2, h3, -⟩ := h
    have hb := CheckBalance_bound _ _ h3
    have hk := ((CheckPublicKey_satisfied_iff _ _).1 h2).1
    rw [order_sub_one_val] at hb hk
    exact ⟨h1, hb, hk, le_trans h1 hb⟩
  · intro h
    unfold TransferCircuit.Define at h
    simp only [Circuit.satisfied_seq, satisfied_AssertIsLessOrEqual] at h
    obtain ⟨-, h2, h3, -, h5, h6, h7⟩ := h
    have hb := CheckBalance_bound _ _ h3
    have hk := ((CheckPublicKey_satisfied_iff _ _).1 h2).1
    have hv := (CheckValue_satisfied_iff curve _ _).1 h5
    have hr := ((CheckPCTReceiver_satisfied_iff _ _ _ _).1 h6).1
    rw [← CheckPCTReceiver_eq_Auditor pos _
      { PublicKey := t.Auditor.PublicKey
        ValueEGCT := { C1 := { X := 0, Y := 0 }, C2 := { X := 0, Y := 0 } }
        ValueRandom := { R := 0 }
        PCT := t.Auditor.PCT } t.Auditor _ rfl rfl] at h7
    have ha := ((CheckPCTReceiver_satisfied_iff _ _ _ _).1 h7).1
    rw [order_sub_one_val] at hb hk hr ha
    exact ⟨hk, hb, hv.1, hv.2.1, hr, ha⟩

/-- The range invariant at the honest withdrawal and transfer of `30` from a balance of
`100`, over the additive backend. -/
theorem C22_range_invariant_witness :
    (WithdrawCircuit.Define model.additiveCurve model.swapPrimitives
        (honestWithdrawal model.additiveCurve model.swapPrimitives model.choice)).Satisfied
      model.bj.Curve ∧
    (TransferCircuit.Define model.additiveCurve model.swapPrimitives
        (honestTransfer model.additiveCurve model.swapPrimitives model.choice)).Satisfied
      model.bj.Curve ∧
    ((30 : Fr).val ≤ (100 : Fr).val ∧ (100 : Fr).val ≤ model.bj.BasePointOrder - 1 ∧
      (7 : Fr).val ≤ model.bj.BasePointOrder - 1 ∧
      (30 : Fr).val ≤ model.bj.BasePointOrder - 1) ∧
    ((7 : Fr).val ≤ model.bj.BasePointOrder - 1 ∧ (100 : Fr).val ≤ model.bj.BasePointOrder - 1 ∧
      (30 : Fr).val ≤ model.bj.BasePointOrder - 1 ∧ (3 : Fr).val ≤ model.bj.BasePointOrder - 1 ∧
      (4 : Fr).val ≤ model.bj.BasePointOrder - 1 ∧ (8 : Fr).val ≤ model.bj.BasePointOrder - 1) :=
  ⟨honestWithdrawal_satisfied model.additiveCurve model.swapPrimitives model.choice
      model.bj_lawful model.bj_base model.swapPrimitives_fourOutputs model.choice_inRange,
   honestTransfer_satisfied model.additiveCurve model.swapPrimitives model.choice
      model.bj_lawful model.bj_base model.swapPrimitives_fourOutputs model.choice_inRange,
   (C22_range_invariant model.additiveCurve model.swapPrimitives
      (honestWithdrawal model.additiveCurve model.swapPrimitives model.choice)
      (honestTransfer model.additiveCurve model.swapPrimitives model.choice) 30
      model.swapPrimitives_fourOutputs).1
      (honestWithdrawal_satisfied model.additiveCurve model.swapPrimitives model.choice
        model.bj_lawful model.bj_base model.swapPrimitives_fourOutputs model.choice_inRange),
   (C22_range_invariant model.additiveCurve model.swapPrimitives
      (honestWithdrawal model.additiveCurve model.swapPrimitives model.choice)
      (honestTransfer model.additiveCurve model.swapPrimitives model.choice) 30
      model.swapPrimitives_fourOutputs).2.2.1
      (honestTransfer_satisfied model.additiveCurve model.swapPrimitives model.choice
        model.bj_lawful model.bj_base model.swapPrimitives_fourOutputs model.choice_inRange)⟩

end circuits

namespace circuits

/-- C23. `CheckPositiveValue` does not enforce positivity.  For every sender whose value
ciphertext decrypts under `sender.PrivateKey` to the identity `0 * G` (the decryption's own
assertions holding), `CheckPositiveValue(sender, 0)` is satisfied.  No assertion of the
Transfer circuit requires `ValueToTransfer > 0`: over a lawful curve gadget and a
permutation with four outputs the honestly built transfer of the amount `0` satisfies the
circuit, and the range assertions of the circuit bound `ValueToTransfer` from above only,
by the balance and by `order - 1`. -/
theorem C23_zero_value_accepted (curve : Curve) (pos : poseidon.Primitives) (bj : BjWrapper)
    (sender : Sender) (ch : Choice) (t : TransferCircuit)
    (hlaw : (NewBjWrapper curve).Curve.Lawful)
    (hbase : (NewBjWrapper curve).Curve.IsOnCurve (NewBjWrapper curve).base8)
    (hpos : pos.FourOutputs) (hch : ch.InRange (NewBjWrapper curve).BasePointOrder)
    (h0 : ch.Value = 0) :
    ((bj.ElGamalDecrypt (sender.ValueEGCT.C1.X, sender.ValueEGCT.C1.Y)
          (sender.ValueEGCT.C2.X, sender.ValueEGCT.C2.Y) sender.PrivateKey).Satisfied bj.Curve →
      (bj.ElGamalDecrypt (sender.ValueEGCT.C1.X, sender.ValueEGCT.C1.Y)
          (sender.ValueEGCT.C2.X, sender.ValueEGCT.C2.Y) sender.PrivateKey).result
        = some (bj.MulWithBasePoint 0) →
      (CheckPositiveValue bj sender 0).Satisfied bj.Curve) ∧
    (honestTransfer curve pos ch).ValueToTransfer = 0 ∧
    (TransferCircuit.Define curve pos (honestTransfer curve pos ch)).Satisfied
      (NewBjWrapper curve).Curve ∧
    Constraint.rangeAssertions (TransferCircuit.Define curve pos t).constraints
      = [(t.ValueToTransfer, t.Sender.Balance),
         (t.Sender.PrivateKey, api.Sub ((NewBjWrapper curve).BasePointOrder : Fr) 1),
         (t.Sender.Balance, api.Sub ((NewBjWrapper curve).BasePointOrder : Fr) 1),
         (t.ValueToTransfer, api.Sub ((NewBjWrapper curve).BasePointOrder : Fr) 1),
         (t.ValueToTransfer, api.Sub ((NewBjWrapper curve).BasePointOrder : Fr) 1),
         (t.Receiver.ValueRandom.R, api.Sub ((NewBjWrapper curve).BasePointOrder : Fr) 1),
         (t.Receiver.PCT.Random, api.Sub ((NewBjWrapper curve).BasePointOrder : Fr) 1),
         (t.Receiver.PCT.Nonce, ((340282366920938463463374607431768211456 : Nat) : Fr) - 1),
         (t.Auditor.PCT.Random, api.Sub ((NewBjWrapper curve).BasePointOrder : Fr) 1),
         (t.Auditor.PCT.Nonce, ((340282366920938463463374607431768211456 : Nat) : Fr) - 1)] := by
  refine ⟨?_, h0, honestTransfer_satisfied curve pos ch hlaw hbase hpos hch,
    transfer_rangeAssertions curve pos t hpos⟩
  intro hsat hres
  refine (CheckPositiveValue_satisfied_iff bj sender 0).2 ⟨?_, hsat, hres⟩
  rw [ZMod.val_zero]
  exact Nat.zero_le _

/-- The zero amount at the sender `model.sender`, whose value ciphertext decrypts to the
identity, and at the honest transfer of `0` from a balance of `100`, over the additive
backend. -/
theorem C23_zero_value_accepted_witness :
    (CheckPositiveValue model.bj model.sender 0).Satisfied model.bj.Curve ∧
    (honestTransfer model.additiveCurve model.swapPrimitives model.zeroChoice).ValueToTransfer
      = 0 ∧
    (TransferCircuit.Define model.additiveCurve model.swapPrimitives
        (honestTransfer model.additiveCurve model.swapPrimitives model.zeroChoice)).Satisfied
      model.bj.Curve :=
  ⟨(C23_zero_value_accepted model.additiveCurve model.swapPrimitives model.bj model.sender
      model.zeroChoice model.overdraft model.bj_lawful model.bj_base
      model.swapPrimitives_fourOutputs model.zeroChoice_inRange rfl).1
      (by decide) (by decide),
   (C23_zero_value_accepted model.additiveCurve model.swapPrimitives model.bj model.sender
      model.zeroChoice model.overdraft model.bj_lawful model.bj_base
      model.swapPrimitives_fourOutputs model.zeroChoice_inRange rfl).2.1,
   (C23_zero_value_accepted model.additiveCurve model.swapPrimitives model.bj model.sender
      model.zeroChoice model.overdraft model.bj_lawful model.bj_base
      model.swapPrimitives_fourOutputs model.zeroChoice_inRange rfl).2.2.1⟩

end circuits

namespace poseidon

/-- A sequence that does not panic: its first step returned and the continuation did not
panic. -/
theorem Circuit.bind_ne_none {α β : Type} (x : Circuit α) (f : α → Circuit β)
    (h : @Bind.bind Circuit _ α β x f ≠ none) : ∃ a cs, x = some (a, cs) ∧ f a ≠ none := by
  rcases x with _ | ⟨a, cs⟩
  · exact absurd rfl h
  · refine ⟨a, cs, rfl, ?_⟩
    intro hf
    apply h
    show Circuit.bind (some (a, cs)) f = none
    unfold Circuit.bind
    simp only [hf]

/-- A read that does not panic is in range. -/
theorem index_ne_none {α : Type} (xs : List α) (i : Nat) (h : index xs i ≠ none) :
    i < xs.length := by
  by_contra hlt
  apply h
  unfold index
  rw [List.getElem?_eq_none (by omega)]

/-- A run of `poseidonDecrypt` that does not panic has read `cipherText[L']`. -/
theorem poseidonDecrypt_ne_none (pos : Primitives) (L : Nat) (key : Fr × Fr) (nonce : Fr)
    (ct : List Fr) (h : poseidonDecrypt pos L key nonce ct ≠ none) :
    padLoop L + 1 ≤ ct.length := by
  unfold poseidonDecrypt at h
  simp only [] at h
  obtain ⟨_, _, -, h⟩ := Circuit.bind_ne_none _ _ h
  obtain ⟨_, _, -, h⟩ := Circuit.bind_ne_none _ _ h
  obtain ⟨⟨out, strategies⟩, _, -, h⟩ := Circuit.bind_ne_none _ _ h
  simp only [] at h
  split at h
  · obtain ⟨_, _, -, h⟩ := Circuit.bind_ne_none _ _ h
    obtain ⟨_, _, h, -⟩ := Circuit.bind_ne_none _ _ h
    exact index_ne_none ct _ (by rw [h]; exact Option.some_ne_none _)
  · obtain ⟨_, _, -, h⟩ := Circuit.bind_ne_none _ _ h
    obtain ⟨_, _, h, -⟩ := Circuit.bind_ne_none _ _ h
    exact index_ne_none ct _ (by rw [h]; exact Option.some_ne_none _)

/-- C24. Index safety of the decryption: provided the permutation returns four elements,
`poseidonDecrypt` with logical length `L` runs without an out-of-range access if and only if
the ciphertext has at least `L' + 1` elements; in particular `PoseidonDecryptSingle`, on its
four-element ciphertext, never indexes out of range. -/
theorem C24_index_safety (pos : Primitives) (L : Nat) (key : Fr × Fr) (nonce : Fr)
    (ct : List Fr) (ct4 : Fin 4 → Fr) (hpos : pos.FourOutputs) :
    (poseidonDecrypt pos L key nonce ct ≠ none ↔ padLoop L + 1 ≤ ct.length) ∧
    PoseidonDecryptSingle pos key nonce ct4 ≠ none ∧
    padLoop 1 = 3 ∧ (List.ofFn ct4).length = 4 := by
  refine ⟨⟨poseidonDecrypt_ne_none pos L key nonce ct, ?_⟩, ?_, padLoop_one, List.length_ofFn _⟩
  · intro hlen
    rw [poseidonDecrypt_run pos hpos L key nonce ct hlen]
    exact Option.some_ne_none _
  · rw [PoseidonDecryptSingle_run pos key nonce ct4 hpos]
    exact Option.some_ne_none _

/-- Index safety at logical length `4` (so `L' = 6`): the seven-element ciphertext
`[11, ..., 17]` is long enough, and `PoseidonDecryptSingle` runs on `[42, 2, 5 + 2^128, 1]`,
with the permutation that exchanges the first two state elements. -/
theorem C24_index_safety_witness :
    (poseidonDecrypt model.swapPrimitives 4 (1, 2) 5 model.longCiphertext ≠ none ↔
      padLoop 4 + 1 ≤ model.longCiphertext.length) ∧
    PoseidonDecryptSingle model.swapPrimitives (1, 2) 5 model.acceptedCiphertext ≠ none ∧
    padLoop 1 = 3 ∧ (List.ofFn model.acceptedCiphertext).length = 4 :=
  C24_index_safety model.swapPrimitives 4 (1, 2) 5 model.longCiphertext model.acceptedCiphertext
    model.swapPrimitives_fourOutputs

end poseidon

namespace model

theorem mixPrimitives_fourOutputs : mixPrimitives.FourOutputs := by
  intro inputs initialState
  unfold mixPrimitives
  simp only
  split <;> simp

theorem mixPrimitives_tamperEvident : mixPrimitives.TamperEvident := by
  intro carry a b c x
  refine ⟨fun h e => h ?_, fun h e => h ?_, fun h e => h ?_⟩
  · have e' : carry + x + b + c = carry + a + b + c := e
    linear_combination e'
  · have e' : carry + a + x + c = carry + a + b + c := e
    linear_combination e'
  · have e' : carry + a + b + x = carry + a + b + c := e
    linear_combination e'

end model

namespace poseidon

/-- C7. Tamper detection, for a permutation with four outputs whose tag element changes with
each absorbed element: for every key, nonce and 4-element ciphertext on which the assertions
of `PoseidonDecryptSingle` all hold, changing any single one of the four ciphertext elements
(element `0`, `1`, `2`, or the tag, element `3`) to a different field value makes the final
tag assertion, the last assertion recorded, fail, so the changed ciphertext is rejected. -/
theorem C7_tamper_detection (c : Curve) (pos : Primitives) (key : Fr × Fr) (nonce : Fr)
    (ct : Fin 4 → Fr) (hpos : pos.FourOutputs) (hperm : pos.TamperEvident)
    (hacc : (PoseidonDecryptSingle pos key nonce ct).Satisfied c) :
    ∀ (i : Fin 4) (x : Fr), x ≠ ct i →
      (PoseidonDecryptSingle pos key nonce (Function.update ct i x)).constraints.getLast?
        = some (.AssertIsEqual (Function.update ct i x 3)
            ((pos.PoseidonEx
                [Function.update ct i x 0, Function.update ct i x 1, Function.update ct i x 2]
                ((pos.PoseidonEx [key.1, key.2, nonce + 2 ^ 128] 0 4).getD 0 0) 4).getD 1 0)) ∧
      Function.update ct i x 3
        ≠ (pos.PoseidonEx
            [Function.update ct i x 0, Function.update ct i x 1, Function.update ct i x 2]
            ((pos.PoseidonEx [key.1, key.2, nonce + 2 ^ 128] 0 4).getD 0 0) 4).getD 1 0 ∧
      ¬ (PoseidonDecryptSingle pos key nonce (Function.update ct i x)).Satisfied c := by
  rw [PoseidonDecryptSingle_satisfied_iff c pos key nonce ct hpos] at hacc
  obtain ⟨-, -, -, h3⟩ := hacc
  unfold absorbedState at h3
  rw [initialState_eq] at h3
  intro i x hx
  have hlast : (PoseidonDecryptSingle pos key nonce (Function.update ct i x)).constraints.getLast?
      = some (.AssertIsEqual (Function.update ct i x 3)
          ((pos.PoseidonEx
              [Function.update ct i x 0, Function.update ct i x 1, Function.update ct i x 2]
              ((pos.PoseidonEx [key.1, key.2, nonce + 2 ^ 128] 0 4).getD 0 0) 4).getD 1 0)) := by
    rw [PoseidonDecryptSingle_run pos key nonce _ hpos]
    unfold absorbedState
    rw [initialState_eq]
    rfl
  have hne : Function.update ct i x 3
      ≠ (pos.PoseidonEx
          [Function.update ct i x 0, Function.update ct i x 1, Function.update ct i x 2]
          ((pos.PoseidonEx [key.1, key.2, nonce + 2 ^ 128] 0 4).getD 0 0) 4).getD 1 0 := by
    obtain ⟨s0, s1, s2⟩ :=
      hperm ((pos.PoseidonEx [key.1, key.2, nonce + 2 ^ 128] 0 4).getD 0 0) (ct 0) (ct 1) (ct 2) x
    fin_cases i
    · show Function.update ct 0 x 3 ≠ (pos.PoseidonEx
        [Function.update ct 0 x 0, Function.update ct 0 x 1, Function.update ct 0 x 2] _ 4).getD 1 0
      rw [Function.update_same, Function.update_noteq (by decide),
        Function.update_noteq (by decide), Function.update_noteq (by decide), h3]
      exact fun e => s0 hx e.symm
    · show Function.update ct 1 x 3 ≠ (pos.PoseidonEx
        [Function.update ct 1 x 0, Function.update ct 1 x 1, Function.update ct 1 x 2] _ 4).getD 1 0
      rw [Function.update_same, Function.update_noteq (by decide),
        Function.update_noteq (by decide), Function.update_noteq (by decide), h3]
      exact fun e => s1 hx e.symm
    · show Function.update ct 2 x 3 ≠ (pos.PoseidonEx
        [Function.update ct 2 x 0, Function.update ct 2 x 1, Function.update ct 2 x 2] _ 4).getD 1 0
      rw [Function.update_same, Function.update_noteq (by decide),
        Function.update_noteq (by decide), Function.update_noteq (by decide), h3]
      exact fun e => s2 hx e.symm
    · show Function.update ct 3 x 3 ≠ (pos.PoseidonEx
        [Function.update ct 3 x 0, Function.update ct 3 x 1, Function.update ct 3 x 2] _ 4).getD 1 0
      rw [Function.update_same, Function.update_noteq (by decide),
        Function.update_noteq (by decide), Function.update_noteq (by decide), ← h3]
      exact hx
  refine ⟨hlast, hne, fun hsat => hne ?_⟩
  rw [PoseidonDecryptSingle_satisfied_iff c pos key nonce _ hpos] at hsat
  have h := hsat.2.2.2
  unfold absorbedState at h
  rw [initialState_eq] at h
  exact h

end poseidon

namespace model

/-- The property is not a consequence of the four outputs: the second output of the
permutation that exchanges the first two state elements is the carry, whatever the block. -/
theorem swapPrimitives_not_tamperEvident : ¬ swapPrimitives.TamperEvident := by
  intro h
  exact (h 0 0 0 0 1).1 (by decide) rfl

end model

namespace poseidon

/-- Tamper detection at key `(1, 2)`, nonce `5` and the encryption of `42` under the
permutation `model.mixPrimitives`: the ciphertext is accepted, and after element `0` is
changed to `43` the final tag assertion fails and the ciphertext is rejected. -/
theorem C7_tamper_detection_witness :
    (PoseidonDecryptSingle model.mixPrimitives (1, 2) 5
        (encryptSingle model.mixPrimitives (1, 2) 5 42)).Satisfied model.additiveCurve ∧
    (43 : Fr) ≠ encryptSingle model.mixPrimitives (1, 2) 5 42 0 ∧
    (PoseidonDecryptSingle model.mixPrimitives (1, 2) 5
        (Function.update (encryptSingle model.mixPrimitives (1, 2) 5 42) 0 43)).constraints.getLast?
      = some (.AssertIsEqual
          (Function.update (encryptSingle model.mixPrimitives (1, 2) 5 42) 0 43 3)
          ((model.mixPrimitives.PoseidonEx
              [Function.update (encryptSingle model.mixPrimitives (1, 2) 5 42) 0 43 0,
               Function.update (encryptSingle model.mixPrimitives (1, 2) 5 42) 0 43 1,
               Function.update (encryptSingle model.mixPrimitives (1, 2) 5 42) 0 43 2]
              ((model.mixPrimitives.PoseidonEx
                [((1, 2) : Fr × Fr).1, ((1, 2) : Fr × Fr).2, 5 + 2 ^ 128] 0 4).getD 0 0)
              4).getD 1 0)) ∧
    Function.update (encryptSingle model.mixPrimitives (1, 2) 5 42) 0 43 3
      ≠ (model.mixPrimitives.PoseidonEx
          [Function.update (encryptSingle model.mixPrimitives (1, 2) 5 42) 0 43 0,
           Function.update (encryptSingle model.mixPrimitives (1, 2) 5 42) 0 43 1,
           Function.update (encryptSingle model.mixPrimitives (1, 2) 5 42) 0 43 2]
          ((model.mixPrimitives.PoseidonEx
            [((1, 2) : Fr × Fr).1, ((1, 2) : Fr × Fr).2, 5 + 2 ^ 128] 0 4).getD 0 0)
          4).getD 1 0 ∧
    ¬ (PoseidonDecryptSingle model.mixPrimitives (1, 2) 5
        (Function.update (encryptSingle model.mixPrimitives (1, 2) 5 42) 0 43)).Satisfied
      model.additiveCurve :=
  have hacc := (encryptSingle_accepted model.additiveCurve model.mixPrimitives (1, 2) 5 42
    model.mixPrimitives_fourOutputs (by decide)).2
  have hx : (43 : Fr) ≠ encryptSingle model.mixPrimitives (1, 2) 5 42 0 := by decide
  ⟨hacc, hx,
    C7_tamper_detection model.additiveCurve model.mixPrimitives (1, 2) 5
      (encryptSingle model.mixPrimitives (1, 2) 5 42) model.mixPrimitives_fourOutputs
      model.mixPrimitives_tamperEvident hacc 0 43 hx⟩

end poseidon
